import Mathlib

/-!
# Animal clinic (`src/target/source.js`): shallow embedding and checked properties

The class `AnimalClinic` is embedded as pure functions on an explicit state `Clinic`.

Modelling conventions
* Numbers: the animal counts and the stock quantities are doubles with a whole value, an
  infinity or `NaN` (`JSNum`); a sum is rounded to the nearest double, so additions are exact
  only while the values stay below 2^53.  Money amounts are rationals.
* `Math.random()`: identifiers take their random suffix as an argument; the staff choice
  `Math.floor(Math.random() * n)` reads the next element of a stream `Rng`, reduced modulo `n`.
* `new Date()`: the clock reading is an argument `now` (milliseconds).  A `Date` is an object,
  compared by `===` through its identity, so the state carries the counter `heapNext` and
  every `Date` object the clinic creates and keeps takes the next identity.  The heap is well
  formed when the `Date` objects stored in appointments have identities below `heapNext`
  (`datesAllocated`); the empty clinic is, and every operation keeps it so.
* The platform `Date` functions (parsing a string, `getMonth`, `getFullYear`, `getHours`,
  `setHours`) are a parameter `DateLib`: the last two work in the local time of the platform.
* Plain objects used as dictionaries (`inventory`, `medicine`, `countMap`, `medMap`) are `JSObj`:
  own properties in the enumeration order of the language.  A read falls back to the members
  every plain object inherits (`inheritedNames`: `constructor`, `toString`, `__proto__`, ...);
  these are built-in functions and objects, which count as true in a test.  A write through such
  a member (`inventory["constructor"].count++`) lands on a built-in object outside the clinic
  and stores `NaN` there; every read of the program that could reach it is a test, and `NaN`
  counts as false like a missing property, so the state has no component for these writes.
* A `TypeError` raised by reading a property of `undefined` is the completion
  `Completion.throwTypeError`; the state returned with it is the state at the throw.
* `scheduleAppointment` recurses without a bound in the source; the embedding takes a `fuel`
  argument and returns `none` when it is used up.
-/

namespace AnimalClinic

/-! ## Plain objects -/

/-- Value of a list of decimal digits (most significant first), `none` if a character is not a
digit. -/
def digitsValue : List Char → Nat → Option Nat
  | [], acc => some acc
  | ch :: cs, acc =>
    if ch.isDigit then digitsValue cs (acc * 10 + (ch.toNat - 48)) else none

/-- The array index a property key denotes: `some n` when the key is the canonical decimal form
of an integer `n` with `0 ≤ n < 2^32 - 1`, otherwise `none`. -/
def arrayIndex (k : String) : Option Nat :=
  match k.data with
  | [] => none
  | ch :: cs =>
    if ch = '0' ∧ cs ≠ [] then none
    else
      match digitsValue (ch :: cs) 0 with
      | some n => if n < 4294967295 then some n else none
      | none => none

/-- Own properties of a plain object, in enumeration order: array-index keys in ascending numeric
order first, then the other keys in order of creation. -/
abbrev JSObj (α : Type) := List (String × α)

/-- The names of the members that every plain object inherits from `Object.prototype`. -/
def inheritedNames : List String :=
  ["constructor", "__defineGetter__", "__defineSetter__", "hasOwnProperty", "__lookupGetter__",
   "__lookupSetter__", "isPrototypeOf", "propertyIsEnumerable", "toString", "valueOf",
   "__proto__", "toLocaleString"]

/-- The outcome of a read `o[k]` on a plain object: the value of an own property, the built-in
member inherited under that name (a function, or `Object.prototype` itself for `__proto__`), or
`undefined`. -/
inductive Lookup (α : Type) where
  | own (v : α)
  | inherited
  | undefined
deriving DecidableEq, Repr

namespace JSObj

variable {α : Type}

/-- The own property `k` of `o`, `none` when `o` has no own property of that name. -/
def getProp : JSObj α → String → Option α
  | [], _ => none
  | (k', v) :: o, k => if k' = k then some v else getProp o k

/-- The read `o[k]`: an own property first, then the inherited members. -/
def read (o : JSObj α) (k : String) : Lookup α :=
  match getProp o k with
  | some v => .own v
  | none => if k ∈ inheritedNames then .inherited else .undefined

/-- Overwrite the value of the existing key `k`, keeping its position. -/
def replaceProp : JSObj α → String → α → JSObj α
  | [], _, _ => []
  | (k', v') :: o, k, v => if k' = k then (k', v) :: o else (k', v') :: replaceProp o k v

/-- Create the array-index key `k` (of value `n`) at its numeric position among the leading
array-index keys. -/
def insertIndex (n : Nat) (k : String) (v : α) : JSObj α → JSObj α
  | [] => [(k, v)]
  | (k', v') :: o =>
    match arrayIndex k' with
    | some m => if n < m then (k, v) :: (k', v') :: o else (k', v') :: insertIndex n k v o
    | none => (k, v) :: (k', v') :: o

/-- The write `o[k] = v` that overwrites the own property `k` or creates it: this is what the
assignment does for every key but an inherited `__proto__`. -/
def setProp (o : JSObj α) (k : String) (v : α) : JSObj α :=
  match getProp o k with
  | some _ => replaceProp o k v
  | none =>
    match arrayIndex k with
    | some n => insertIndex n k v o
    | none => o ++ [(k, v)]

/-- The write `o[k] = v` of a number or a string `v`, for any key: on an object without own
property `__proto__` the key `__proto__` reaches the inherited setter, which ignores a value
that is no object. -/
def assign (o : JSObj α) (k : String) (v : α) : JSObj α :=
  if k = "__proto__" ∧ (getProp o k).isNone = true then o else setProp o k v

end JSObj

/-! ## Numbers -/

/-- A number with a whole value: the double of value `n`, an infinity, or `NaN`.  (`-0` is not
told apart from `0`: no operation of the program distinguishes them.) -/
inductive JSNum where
  | fin (n : Int)
  | posInf
  | negInf
  | nan
deriving DecidableEq, Repr

instance (n : Nat) : OfNat JSNum n := ⟨.fin n⟩

/-- The multiple of `u` nearest to `k`; of two nearest ones, the even multiple. -/
def roundTo (u k : Nat) : Nat :=
  let q := k / u
  let r := k % u
  (if 2 * r < u then q else if u < 2 * r then q + 1 else if q % 2 = 0 then q else q + 1) * u

/-- Search of the spacing `u` (a power of two) of the doubles around `k`, which is the least one
with `k < 2^53 * u`, and rounding of `k` to it.  The spacings go up to `2^971`; `none` when the
rounded value is `2^1024` or more. -/
def roundLoop : Nat → Nat → Nat → Option Nat
  | 0, _, _ => none
  | f + 1, u, k =>
    if k < 9007199254740992 * u then
      if roundTo u k < 9007199254740992 * u ∨ f ≠ 0 then some (roundTo u k) else none
    else roundLoop f (2 * u) k

/-- The double nearest to the natural number `k` (round to nearest, ties to even); `none` when
it is beyond the largest double. -/
def roundNat (k : Nat) : Option Nat := roundLoop 972 1 k

/-- The double nearest to the integer `n`, an infinity beyond the largest double. -/
def JSNum.ofInt (n : Int) : JSNum :=
  match roundNat n.natAbs with
  | some k => .fin (if n < 0 then -(k : Int) else k)
  | none => if n < 0 then .negInf else .posInf

/-- The sum `x + y` of two numbers. -/
def JSNum.add : JSNum → JSNum → JSNum
  | .fin a, .fin b => .ofInt (a + b)
  | .fin _, y => y
  | .posInf, .negInf => .nan
  | .posInf, .nan => .nan
  | .posInf, _ => .posInf
  | .negInf, .posInf => .nan
  | .negInf, .nan => .nan
  | .negInf, _ => .negInf
  | .nan, _ => .nan

/-- The number counts as true in a test: it is neither 0 nor `NaN`. -/
def JSNum.truthy : JSNum → Bool
  | .fin n => decide (n ≠ 0)
  | .posInf => true
  | .negInf => true
  | .nan => false

/-- The value of `Math.max(0, x)`. -/
def JSNum.max0 : JSNum → JSNum
  | .fin n => .fin (max 0 n)
  | .posInf => .posInf
  | .negInf => .fin 0
  | .nan => .nan

/-- The comparison `x >= 0`. -/
def JSNum.nonneg : JSNum → Bool
  | .fin n => decide (0 ≤ n)
  | .posInf => true
  | .negInf => false
  | .nan => false

/-- A value stored in a `medicine` table: a number, or the string that `+` makes of a built-in
member and numbers.  `text b qs` is the source text of the built-in member inherited under the
name `b` (for `constructor`: `function Object() { [native code] }`), followed by the decimal
forms of the numbers `qs`. -/
inductive StockVal where
  | num (x : JSNum)
  | text (builtin : String) (appended : List JSNum)
deriving DecidableEq, Repr

/-- The value counts as true in a test (the strings here are never empty). -/
def StockVal.truthy : StockVal → Bool
  | .num x => x.truthy
  | .text _ _ => true

/-- The value of `Math.max(0, v - 1)`: a string that is no numeral converts to `NaN`. -/
def StockVal.decrement : StockVal → JSNum
  | .num x => (x.add (.fin (-1))).max0
  | .text _ _ => .nan

/-- The comparison `v >= 0`; it is false for a string that is no numeral. -/
def StockVal.nonneg : StockVal → Bool
  | .num x => x.nonneg
  | .text _ _ => false

/-- A value stored in the frequency table of `getCommonItems`: a number, or the string that `+`
makes of a built-in member and the number 1, once per occurrence.  `text b n` is the source
text of the built-in member inherited under the name `b` followed by `n` digits `1`. -/
inductive CountVal where
  | num (n : Nat)
  | text (builtin : String) (ones : Nat)
deriving DecidableEq, Repr

/-! ## Dates -/

/-- A value stored in a `date` field: a string as typed at the prompt, or a `Date` object with
its identity and its time value (`none` for an invalid date). -/
inductive DateVal where
  | str (s : String)
  | obj (ref : Nat) (time : Option Int)
deriving DecidableEq, Repr

/-- The comparison `a === b` on date values: strings by content, objects by identity. -/
def strictEq : DateVal → DateVal → Bool
  | .str a, .str b => a == b
  | .obj r _, .obj r' _ => r == r'
  | _, _ => false

/-- The platform functions of `Date` the program relies on. -/
structure DateLib where
  /-- Time value of `new Date(s)` for a string `s`; `none` is an invalid date. -/
  parse : String → Option Int
  /-- The result of `getMonth()` (0 = January) for a time value. -/
  getMonth : Int → Int
  /-- The result of `getFullYear()` for a time value. -/
  getFullYear : Int → Int
  /-- The result of `getHours()` for a time value: the hour of the day in local time. -/
  getHours : Int → Int
  /-- The time value after `setHours(h)` on a date of the given time value: same local day,
  minutes, seconds and milliseconds, hour `h`; `none` is an invalid date. -/
  setHours : Int → Int → Option Int

/-- Time value of `new Date(d)`. -/
def timeValue (lib : DateLib) : DateVal → Option Int
  | .str s => lib.parse s
  | .obj _ t => t

/-- The test `d.getMonth() === month && d.getFullYear() === year` for `d = new Date(v)`; an
invalid date yields `NaN` twice and fails it. -/
def inMonth (lib : DateLib) (v : DateVal) (month year : Int) : Bool :=
  match timeValue lib v with
  | some t => lib.getMonth t == month && lib.getFullYear t == year
  | none => false

/-- The comparison `new Date(a) > new Date(b)`; it is false when either date is invalid. -/
def dateGt (lib : DateLib) (a b : DateVal) : Bool :=
  match timeValue lib a, timeValue lib b with
  | some x, some y => decide (y < x)
  | _, _ => false

/-! ## Data model -/

/-- The diagnosis object passed to `admitAnimal`; `emergency = none` is the absent property. -/
structure Diagnosis where
  condition : String
  species : String
  emergency : Option Bool
deriving DecidableEq, Repr

/-- A treatment line item; `cost = none` is the absent property. -/
structure Treatment where
  cost : Option ℚ
deriving DecidableEq, Repr

/-- An element of `medicalHistory`.  `emergency` is the property `caseRecord.emergency` of the
record itself (read by `calculateFee`), `none` when the record has no such property. -/
structure CaseRecord where
  date : DateVal
  diagnosis : Diagnosis
  treatment : List Treatment
  discharged : Bool
  finalDiagnosis : Option String
  emergency : Option Bool
deriving DecidableEq, Repr

structure Animal where
  id : String
  name : String
  species : String
  age : Int
  owner : String
  medicalHistory : List CaseRecord
deriving DecidableEq, Repr

/-- An appointment; `staffId = none` is `null`. -/
structure Appointment where
  id : String
  animalId : String
  date : DateVal
  procedure : String
  staffId : Option String
  status : String
deriving DecidableEq, Repr

structure StaffMember where
  id : String
  name : String
  position : String
  qualifications : List String
deriving DecidableEq, Repr

structure InventoryEntry where
  count : JSNum
  foodStock : JSNum
  medicine : JSObj StockVal
deriving DecidableEq, Repr

structure FinancialRecord where
  date : DateVal
  animalId : String
  amount : ℚ
  method : String
  processed : Bool
deriving DecidableEq, Repr

/-- The fields of an `AnimalClinic` instance, and the identity that the next `Date` object
created by the clinic receives. -/
structure Clinic where
  animals : List Animal
  appointments : List Appointment
  staff : List StaffMember
  inventory : JSObj InventoryEntry
  financialRecords : List FinancialRecord
  heapNext : Nat
deriving DecidableEq, Repr

/-- The state built by the constructor. -/
def Clinic.empty : Clinic :=
  { animals := [], appointments := [], staff := [], inventory := [], financialRecords := [],
    heapNext := 0 }

/-- How a call ends: with a value, or by throwing a `TypeError`. -/
inductive Completion (α : Type) where
  | normal (v : α)
  | throwTypeError
deriving DecidableEq, Repr

/-- The stream of outcomes of `Math.random()` used for the staff choice. -/
abbrev Rng := Nat → Nat

/-- The stream after one draw. -/
def Rng.next (g : Rng) : Rng := fun i => g (i + 1)

/-- Apply `f` to the first element satisfying `p` (an in-place update of the object that
`find` returns). -/
def modifyFirst {α : Type} (p : α → Bool) (f : α → α) : List α → List α
  | [] => []
  | x :: xs => if p x then f x :: xs else x :: modifyFirst p f xs

/-! ## Operations of the class -/

/-- The object literal `{ count: 0, foodStock: 0, medicine: {} }`. -/
def newEntry : InventoryEntry := { count := .fin 0, foodStock := .fin 0, medicine := [] }

/-- The guard `if (!this.inventory[species]) { this.inventory[species] = {...} }` shared by
`updateSpeciesStats` and `restockInventory`: an entry is created only when the read gives
`undefined`; an inherited member counts as true, so nothing is created under its name. -/
def ensureEntry (inv : JSObj InventoryEntry) (species : String) : JSObj InventoryEntry :=
  match inv.read species with
  | .undefined => inv.setProp species newEntry
  | _ => inv

/-- The method `updateSpeciesStats`.  For an inherited name, `count++` is a write on the
built-in member and leaves the inventory as it is. -/
def updateSpeciesStats (c : Clinic) (species : String) : Clinic :=
  let inv := ensureEntry c.inventory species
  match inv.read species with
  | .own e => { c with inventory := inv.setProp species { e with count := e.count.add (.fin 1) } }
  | _ => { c with inventory := inv }

/-- The method `registerAnimal`; `rid` is the random suffix produced by `generateId`. -/
def registerAnimal (c : Clinic) (rid name species : String) (age : Int) (owner : String) :
    Clinic × String :=
  let id := "anim_" ++ rid
  let newAnimal : Animal :=
    { id := id, name := name, species := species, age := age, owner := owner,
      medicalHistory := [] }
  (updateSpeciesStats { c with animals := c.animals ++ [newAnimal] } species, id)

def findAnimalById (c : Clinic) (id : String) : Option Animal :=
  c.animals.find? (fun a => a.id == id)

def getProcedureType (procedure : String) : String :=
  if procedure = "vaccine" ∨ procedure = "checkup" then "general"
  else if procedure = "surgery" ∨ procedure = "dental" then "surgical"
  else "specialized"

/-- The staff members `assignStaff` filters out as qualified. -/
def qualifiedStaff (c : Clinic) (procedure : String) : List StaffMember :=
  c.staff.filter (fun s => s.qualifications.contains (getProcedureType procedure))

/-- The method `assignStaff`: `none` is `null`; a draw is consumed only when somebody is
qualified. -/
def assignStaff (c : Clinic) (procedure : String) (g : Rng) : Option String × Rng :=
  let qualified := qualifiedStaff c procedure
  if qualified.length = 0 then (none, g)
  else ((qualified[g 0 % qualified.length]?).map (fun s => s.id), g.next)

/-- The call `this.appointments.some(...)` of `scheduleAppointment`, over the appointments still
to visit: `assignStaff` is evaluated anew for each appointment whose date matches. -/
def conflicting (c : Clinic) (date : DateVal) (procedure : String) :
    List Appointment → Rng → Bool × Rng
  | [], g => (false, g)
  | apt :: rest, g =>
    if strictEq apt.date date then
      let (sid, g1) := assignStaff c procedure g
      if apt.staffId = sid then (true, g1) else conflicting c date procedure rest g1
    else conflicting c date procedure rest g

/-- The two first lines of `rescheduleConflicting`: a new `Date` object, a copy of `date` whose
local hour is then set to `getHours() + 2`; an invalid date stays invalid. -/
def rescheduledDate (lib : DateLib) (c : Clinic) (date : DateVal) : DateVal :=
  .obj c.heapNext ((timeValue lib date).bind (fun t => lib.setHours t (lib.getHours t + 2)))

/-- The method `scheduleAppointment`, with `rescheduleConflicting` unfolded into its recursive
call.  `rid` is the random suffix of the appointment id.  The result is `none` when `fuel`
calls were not enough; otherwise the final state, the remaining random stream and the value
returned (`none` for `false`, `some id` for the new appointment's id). -/
def scheduleAppointment (lib : DateLib) :
    Nat → Clinic → Rng → String → String → DateVal → String →
      Option (Clinic × Rng × Option String)
  | 0, _, _, _, _, _, _ => none
  | fuel + 1, c, g, rid, animalId, date, procedure =>
    match findAnimalById c animalId with
    | none => some (c, g, none)
    | some _ =>
      match conflicting c date procedure c.appointments g with
      | (true, g1) =>
        scheduleAppointment lib fuel { c with heapNext := c.heapNext + 1 } g1 rid animalId
          (rescheduledDate lib c date) procedure
      | (false, g1) =>
        let (sid, g2) := assignStaff c procedure g1
        let appointment : Appointment :=
          { id := "apt_" ++ rid, animalId := animalId, date := date, procedure := procedure,
            staffId := sid, status := "scheduled" }
        some ({ c with appointments := c.appointments ++ [appointment] }, g2, some appointment.id)

/-- The object literal `medMap` of `determineMedication`. -/
def medMap : JSObj (List String) :=
  [("fever", ["antipyretic", "antibiotic"]), ("injury", ["painkiller", "antibiotic"]),
   ("infection", ["antibiotic"]), ("allergy", ["antihistamine"])]

/-- The method `determineMedication`, `medMap[diagnosis.condition] || []`.  For a condition that
is an inherited name the read gives a built-in member, which counts as true and is returned:
`none` stands for that value, which is no array. -/
def determineMedication (diagnosis : Diagnosis) : Option (List String) :=
  match medMap.read diagnosis.condition with
  | .own meds => some meds
  | .inherited => none
  | .undefined => some []

/-- The callback of `meds.forEach` in `updateInventoryForTreatment`, on the inventory: `none`
is the `TypeError` of reading a property of `undefined`, which is what `.medicine` gives on a
missing entry and on a built-in member. -/
def consumeMedication (species : String) (inv : JSObj InventoryEntry) (med : String) :
    Option (JSObj InventoryEntry) :=
  match inv.read species with
  | .own e =>
    match e.medicine.read med with
    | .own v =>
      if v.truthy then
        some (inv.setProp species
          { e with medicine := e.medicine.assign med (.num v.decrement) })
      else some inv
    | .inherited =>
      some (inv.setProp species { e with medicine := e.medicine.assign med (.num .nan) })
    | .undefined => some inv
  | _ => none

/-- The loop `meds.forEach(...)`, stopping at the first throw. -/
def forEachMedication (species : String) :
    List String → JSObj InventoryEntry → JSObj InventoryEntry × Completion Unit
  | [], inv => (inv, .normal ())
  | med :: rest, inv =>
    match consumeMedication species inv med with
    | none => (inv, .throwTypeError)
    | some inv' => forEachMedication species rest inv'

/-- The method `updateInventoryForTreatment`; when `determineMedication` returns a built-in
member, the call `meds.forEach` throws a `TypeError` (the member has no such method). -/
def updateInventoryForTreatment (c : Clinic) (diagnosis : Diagnosis) :
    Clinic × Completion Unit :=
  match determineMedication diagnosis with
  | none => (c, .throwTypeError)
  | some meds =>
    let r := forEachMedication diagnosis.species meds c.inventory
    ({ c with inventory := r.1 }, r.2)

/-- The case record pushed by `admitAnimal`: it has no `emergency` property of its own. -/
def newCase (date : DateVal) (diagnosis : Diagnosis) : CaseRecord :=
  { date := date, diagnosis := diagnosis, treatment := [], discharged := false,
    finalDiagnosis := none, emergency := none }

/-- The method `admitAnimal`; `now` is the clock reading of `new Date()`. -/
def admitAnimal (c : Clinic) (now : Int) (id : String) (diagnosis : Diagnosis) :
    Clinic × Completion Bool :=
  match findAnimalById c id with
  | none => (c, .normal false)
  | some _ =>
    let cr := newCase (.obj c.heapNext (some now)) diagnosis
    let c1 : Clinic :=
      { c with
        animals :=
          modifyFirst (fun a => a.id == id)
            (fun a => { a with medicalHistory := a.medicalHistory ++ [cr] }) c.animals
        heapNext := c.heapNext + 1 }
    match updateInventoryForTreatment c1 diagnosis with
    | (c2, .normal _) => (c2, .normal true)
    | (c2, .throwTypeError) => (c2, .throwTypeError)

def calculateFee (caseRecord : CaseRecord) : ℚ :=
  let fee := caseRecord.treatment.foldl (fun fee t => fee + (t.cost.getD 0)) 50
  fee * (if caseRecord.emergency = some true then 3 / 2 else 1)

def processPayment (c : Clinic) (now : Int) (animalId : String) (amount : ℚ) : Clinic :=
  { c with
    financialRecords :=
      c.financialRecords ++
        [{ date := .obj c.heapNext (some now), animalId := animalId, amount := amount,
           method := "credit", processed := true }]
    heapNext := c.heapNext + 1 }

/-- The two assignments of `dischargeAnimal` to the active case. -/
def closeCase (finalDiagnosis : String) (cr : CaseRecord) : CaseRecord :=
  { cr with discharged := true, finalDiagnosis := some finalDiagnosis }

def dischargeAnimal (c : Clinic) (now : Int) (id finalDiagnosis : String) : Clinic × Bool :=
  match findAnimalById c id with
  | none => (c, false)
  | some animal =>
    match animal.medicalHistory.find? (fun cr => !cr.discharged) with
    | none => (c, false)
    | some activeCase =>
      let c1 : Clinic :=
        { c with
          animals :=
            modifyFirst (fun a => a.id == id)
              (fun a =>
                { a with
                  medicalHistory :=
                    modifyFirst (fun cr => !cr.discharged) (closeCase finalDiagnosis)
                      a.medicalHistory })
              c.animals }
      (processPayment c1 now id (calculateFee (closeCase finalDiagnosis activeCase)), true)

/-- The method `addStaffMember`; `rid` is the random suffix of the id. -/
def addStaffMember (c : Clinic) (rid name position : String) (qualifications : List String) :
    Clinic × String :=
  let id := "staff_" ++ rid
  ({ c with
     staff := c.staff ++
       [{ id := id, name := name, position := position, qualifications := qualifications }] },
   id)

/-- The value of `(medicine[item] || 0) + quantity`: a number is added to; a value that counts
as false is replaced by 0 first; a string, and a built-in member (which `+` turns into its
source text), is concatenated with the quantity. -/
def restocked (medicine : JSObj StockVal) (item : String) (quantity : JSNum) : StockVal :=
  match medicine.read item with
  | .own (.num x) => .num ((if x.truthy then x else .fin 0).add quantity)
  | .own (.text b qs) => .text b (qs ++ [quantity])
  | .inherited => .text item [quantity]
  | .undefined => .num ((JSNum.fin 0).add quantity)

/-- The two branches of `restockInventory`, on the entry of the species. -/
def restockEntry (e : InventoryEntry) (item : String) (quantity : JSNum) : InventoryEntry :=
  if item = "food" then { e with foodStock := e.foodStock.add quantity }
  else { e with medicine := e.medicine.assign item (restocked e.medicine item quantity) }

/-- The method `restockInventory`, for a quantity that is a number.  Under an inherited species
name the entry read is a built-in member: `foodStock += quantity` is then a write on that member,
and its `medicine` is `undefined`, so that the medicine branch throws a `TypeError`. -/
def restockInventory (c : Clinic) (species item : String) (quantity : JSNum) :
    Clinic × Completion Unit :=
  let inv := ensureEntry c.inventory species
  match inv.read species with
  | .own e =>
    ({ c with inventory := inv.setProp species (restockEntry e item quantity) }, .normal ())
  | .inherited =>
    if item = "food" then ({ c with inventory := inv }, .normal ())
    else ({ c with inventory := inv }, .throwTypeError)
  | .undefined => ({ c with inventory := inv }, .throwTypeError)

def getLastProcedure (lib : DateLib) (c : Clinic) (id : String) : Option Appointment :=
  match c.appointments.filter (fun a => a.animalId == id) with
  | [] => none
  | first :: rest =>
    some (rest.foldl
      (fun latest current => if dateGt lib current.date latest.date then current else latest)
      first)

/-- The object returned by `getAnimalStatus`. -/
structure StatusView where
  name : String
  status : String
  lastProcedure : Option Appointment
deriving DecidableEq, Repr

def getAnimalStatus (lib : DateLib) (c : Clinic) (id : String) : Option StatusView :=
  match findAnimalById c id with
  | none => none
  | some animal =>
    let activeCase := animal.medicalHistory.find? (fun cr => !cr.discharged)
    some
      { name := animal.name
        status := if activeCase.isSome then "hospitalized" else "healthy"
        lastProcedure := getLastProcedure lib c id }

/-- The value of `(countMap[item] || 0) + 1`.  (An array has fewer than 2^32 elements, so the
additions of numbers are exact.) -/
def counted (countMap : JSObj CountVal) (item : String) : CountVal :=
  match countMap.read item with
  | .own (.num n) => .num (n + 1)
  | .own (.text b n) => .text b (n + 1)
  | .inherited => .text item 1
  | .undefined => .num 1

/-- The frequency table `countMap` built by the loop of `getCommonItems`. -/
def countItems (items : List String) : JSObj CountVal :=
  items.foldl (fun countMap item => countMap.assign item (counted countMap item)) []

/-- The comparator `(a, b) => b[1] - a[1]` does not put `b` before `a`: its value is not
positive.  With a string on either side the difference is `NaN`, which the sort takes as 0. -/
def notAfter (a b : String × CountVal) : Bool :=
  match a.2, b.2 with
  | .num x, .num y => decide (y ≤ x)
  | _, _ => true

/-- The method `getCommonItems`: the entries of the table, sorted by the comparator with a
stable sort, cut to three.  When the table holds a string next to numbers the comparator is not
a consistent order and the language leaves the order of the result to the implementation; the
insertion sort used here is one such order. -/
def getCommonItems (items : List String) : List (String × CountVal) :=
  ((countItems items).insertionSort (fun a b => notAfter a b = true)).take 3

/-- The object returned by `generateMonthlyReport`. -/
structure Report where
  totalAppointments : Nat
  revenue : ℚ
  animalsTreated : Nat
  commonProcedures : List (String × CountVal)
deriving DecidableEq, Repr

def generateMonthlyReport (lib : DateLib) (c : Clinic) (month year : Int) : Report :=
  let monthlyApps := c.appointments.filter (fun a => inMonth lib a.date month year)
  let revenue :=
    c.financialRecords.foldl
      (fun sum record => if inMonth lib record.date month year then sum + record.amount else sum)
      0
  { totalAppointments := monthlyApps.length
    revenue := revenue
    animalsTreated := ((monthlyApps.map (fun a => a.animalId)).eraseDups).length
    commonProcedures := getCommonItems (monthlyApps.map (fun a => a.procedure)) }

/-- The method `emergencyAdmit`; `rid` and `now` are the random suffix and the clock reading
used by the two calls it makes. -/
def emergencyAdmit (c : Clinic) (rid : String) (now : Int) (name species condition : String) :
    Clinic × Completion String :=
  let r := registerAnimal c rid name species 0 "Emergency Contact"
  match admitAnimal r.1 now r.2
      { condition := condition, species := species, emergency := some true } with
  | (c2, .normal _) => (c2, .normal r.2)
  | (c2, .throwTypeError) => (c2, .throwTypeError)

/-! ## Vocabulary of the checked properties -/

/-- The registered-animal count in the inventory entry of a species, read as 0 when the
inventory has no entry of that name. -/
def speciesCount (c : Clinic) (species : String) : JSNum :=
  match c.inventory.getProp species with
  | some e => e.count
  | none => .fin 0

/-- The food stock in the inventory entry of a species, read as 0 when the inventory has no
entry of that name. -/
def foodStockOf (c : Clinic) (species : String) : JSNum :=
  match c.inventory.getProp species with
  | some e => e.foodStock
  | none => .fin 0

/-- The medicine table in the inventory entry of a species, empty when the inventory has no
entry of that name. -/
def medicineOf (c : Clinic) (species : String) : JSObj StockVal :=
  match c.inventory.getProp species with
  | some e => e.medicine
  | none => []

/-- The stock of an item for a species as `restockInventory` addresses it: the food stock for
the item `"food"`, otherwise the value stored in the medicine table under that name; 0 when
absent. -/
def stockOf (c : Clinic) (species item : String) : StockVal :=
  if item = "food" then .num (foodStockOf c species)
  else
    match (medicineOf c species).getProp item with
    | some q => q
    | none => .num (.fin 0)

/-- The stock of an item in an inventory entry, as `stockOf` reads it. -/
def InventoryEntry.stock (e : InventoryEntry) (item : String) : StockVal :=
  if item = "food" then .num e.foodStock
  else
    match e.medicine.getProp item with
    | some q => q
    | none => .num (.fin 0)

/-- The entry with the stock of an item set to the integer `v`. -/
def InventoryEntry.withStock (e : InventoryEntry) (item : String) (v : Int) : InventoryEntry :=
  if item = "food" then { e with foodStock := .fin v }
  else { e with medicine := e.medicine.setProp item (.num (.fin v)) }

/-- The integer `n` is a safe integer: `|n| < 2^53`, the range in which every integer is a
double and sums that stay in it are exact. -/
def safeInt (n : Int) : Prop := -9007199254740992 < n ∧ n < 9007199254740992

/-- Register, one after the other, animals of one species; each element gives the random id
suffix, the name, the age and the owner of one animal. -/
def registerAll (c : Clinic) (species : String) :
    List (String × String × Int × String) → Clinic
  | [] => c
  | (rid, name, age, owner) :: rest =>
    registerAll (registerAnimal c rid name species age owner).1 species rest

/-- The animal object `registerAnimal` creates. -/
def freshAnimal (species : String) (r : String × String × Int × String) : Animal :=
  { id := "anim_" ++ r.1, name := r.2.1, species := species, age := r.2.2.1, owner := r.2.2.2,
    medicalHistory := [] }

/-- The animal has a case with `discharged = false`. -/
def hasOpenCase (a : Animal) : Bool :=
  a.medicalHistory.any (fun cr => !cr.discharged)

/-- The number of cases of an animal with `discharged = false`. -/
def openCases (a : Animal) : Nat :=
  (a.medicalHistory.filter (fun cr => !cr.discharged)).length

/-- Order of first appearance in the input: the tie-break the specification names. -/
def firstSeenBefore (items : List String) (a b : String) : Prop :=
  items.indexOf a < items.indexOf b

/-- Order of the keys of the frequency table built from `items`: array-index names first, by
ascending index, then the other names by first appearance. -/
def keyBefore (items : List String) (a b : String) : Prop :=
  match arrayIndex a, arrayIndex b with
  | some m, some n => m < n
  | some _, none => True
  | none, some _ => False
  | none, none => items.indexOf a < items.indexOf b

/-- What is said of the result of `getCommonItems` on `items`, for a given tie-break order
`before` on names: as many entries as there are distinct names, up to three; one entry per
name, with its number of occurrences; counts non-increasing; no name left out occurs more often
than a returned one; names of equal count in the order `before`. -/
structure CommonItemsSpec (before : String → String → Prop) (items : List String)
    (result : List (String × CountVal)) : Prop where
  length_eq : result.length = min 3 items.toFinset.card
  names_nodup : (result.map Prod.fst).Nodup
  count_exact : ∀ e ∈ result, e.1 ∈ items ∧ e.2 = .num (items.count e.1)
  sorted : result.Pairwise (fun a b => items.count b.1 ≤ items.count a.1)
  left_out : ∀ name ∈ items, name ∉ result.map Prod.fst →
    ∀ e ∈ result, items.count name ≤ items.count e.1
  ties : result.Pairwise (fun a b => items.count a.1 = items.count b.1 → before a.1 b.1)

/-- The frequency table of `getCommonItems` when no item is an inherited name: every value is
then a number, here kept as such.  An intermediate stage of the proofs about `countItems`. -/
def numberTable (items : List String) : JSObj Nat :=
  items.foldl
    (fun countMap item =>
      countMap.setProp item
        ((match countMap.getProp item with
          | some n => n
          | none => 0) + 1))
    []

/-- The sorted and cut `numberTable`: an intermediate stage of the proofs about
`getCommonItems`. -/
def numberTopThree (items : List String) : List (String × Nat) :=
  ((numberTable items).insertionSort (fun a b => b.2 ≤ a.2)).take 3

/-- An entry of the `numberTable` as an entry of the frequency table. -/
def asCount (p : String × Nat) : String × CountVal := (p.1, .num p.2)

/-- What `CommonItemsSpec` says, on a list of names with plain numbers. -/
structure NumberTopThreeSpec (before : String → String → Prop) (items : List String)
    (result : List (String × Nat)) : Prop where
  length_eq : result.length = min 3 items.toFinset.card
  names_nodup : (result.map Prod.fst).Nodup
  count_exact : ∀ e ∈ result, e.1 ∈ items ∧ e.2 = items.count e.1
  sorted : result.Pairwise (fun a b => b.2 ≤ a.2)
  left_out : ∀ name ∈ items, name ∉ result.map Prod.fst →
    ∀ e ∈ result, items.count name ≤ e.2
  ties : result.Pairwise (fun a b => a.2 = b.2 → before a.1 b.1)

/-! ## A sample platform -/

/-- Days from 1970-01-01 to the given day of the proleptic Gregorian calendar. -/
def daysFromCivil (y m d : Int) : Int :=
  let y' := if m ≤ 2 then y - 1 else y
  let era := y' / 400
  let yoe := y' - era * 400
  let mp := (m + 9) % 12
  let doy := (153 * mp + 2) / 5 + d - 1
  let doe := yoe * 365 + yoe / 4 - yoe / 100 + doy
  era * 146097 + doe - 719468

/-- Year and month (1 = January) of the day that lies `z` days after 1970-01-01. -/
def civilFromDays (z : Int) : Int × Int :=
  let z' := z + 719468
  let era := z' / 146097
  let doe := z' - era * 146097
  let yoe := (doe - doe / 1460 + doe / 36524 - doe / 146096) / 365
  let doy := doe - (365 * yoe + yoe / 4 - yoe / 100)
  let mp := (5 * doy + 2) / 153
  let m := if mp < 10 then mp + 3 else mp - 9
  (yoe + era * 400 + (if m ≤ 2 then 1 else 0), m)

/-- Time value of a string of the form `YYYY-MM-DD` (midnight UTC of that day); other strings
are read as invalid dates. -/
def parseIsoDate (s : String) : Option Int :=
  match s.data with
  | [y1, y2, y3, y4, '-', m1, m2, '-', d1, d2] =>
    match digitsValue [y1, y2, y3, y4] 0, digitsValue [m1, m2] 0, digitsValue [d1, d2] 0 with
    | some y, some m, some d =>
      if 1 ≤ m ∧ m ≤ 12 ∧ 1 ≤ d ∧ d ≤ 31 then
        some (daysFromCivil (y : Int) (m : Int) (d : Int) * 86400000)
      else none
    | _, _, _ => none
  | _ => none

/-- The range of time values of a `Date`: beyond 8.64e15 ms the date is invalid. -/
def timeClip (t : Int) : Option Int :=
  if t.natAbs ≤ 8640000000000000 then some t else none

/-- A sample `Date` platform for the worked examples: the time zone is UTC and only strings of
the form `YYYY-MM-DD` are recognised. -/
def utcDateLib : DateLib :=
  { parse := parseIsoDate
    getMonth := fun t => (civilFromDays (t / 86400000)).2 - 1
    getFullYear := fun t => (civilFromDays (t / 86400000)).1
    getHours := fun t => t % 86400000 / 3600000
    setHours := fun t h => timeClip (t - t % 86400000 + h * 3600000 + t % 3600000) }

/-- Offset of local time from UTC at the time value `t`, for the time zone of London with the
summer time of 2024: one hour from 2024-03-31T01:00Z to 2024-10-27T01:00Z. -/
def londonOffset (t : Int) : Int :=
  if 1711846800000 ≤ t ∧ t < 1729990800000 then 3600000 else 0

/-- The time value of the local time `l` in that zone.  A local time that the clock skips or
shows twice is read with the offset in force before the change. -/
def londonToUtc (l : Int) : Int :=
  if 1711850400000 ≤ l ∧ l < 1729994400000 then l - 3600000 else l

/-- A sample `Date` platform with a clock change: the time zone of London, with the summer time
of the year 2024 (other years are taken without summer time); only strings of the form
`YYYY-MM-DD` are recognised, as midnight UTC. -/
def londonDateLib : DateLib :=
  { parse := parseIsoDate
    getMonth := fun t => (civilFromDays ((t + londonOffset t) / 86400000)).2 - 1
    getFullYear := fun t => (civilFromDays ((t + londonOffset t) / 86400000)).1
    getHours := fun t => (t + londonOffset t) % 86400000 / 3600000
    setHours := fun t h =>
      timeClip (londonToUtc
        ((t + londonOffset t) - (t + londonOffset t) % 86400000 + h * 3600000 +
          (t + londonOffset t) % 3600000)) }

/-! ## Sequences of calls -/

/-- One call of an operation of the class, with the outcomes of its random draws and clock
readings. -/
inductive Op where
  | registerAnimal (rid name species : String) (age : Int) (owner : String)
  | admitAnimal (now : Int) (id : String) (diagnosis : Diagnosis)
  | dischargeAnimal (now : Int) (id finalDiagnosis : String)
  | emergencyAdmit (rid : String) (now : Int) (name species condition : String)
  | scheduleAppointment (fuel : Nat) (g : Rng) (rid animalId : String) (date : DateVal)
      (procedure : String)
  | addStaffMember (rid name position : String) (qualifications : List String)
  | restockInventory (species item : String) (quantity : JSNum)

/-- The state after a call; after a throw it is the state at the throw.  `none` only for a
`scheduleAppointment` whose fuel did not suffice. -/
def Op.apply (lib : DateLib) (c : Clinic) : Op → Option Clinic
  | .registerAnimal rid name species age owner =>
    some (AnimalClinic.registerAnimal c rid name species age owner).1
  | .admitAnimal now id diagnosis => some (AnimalClinic.admitAnimal c now id diagnosis).1
  | .dischargeAnimal now id finalDiagnosis =>
    some (AnimalClinic.dischargeAnimal c now id finalDiagnosis).1
  | .emergencyAdmit rid now name species condition =>
    some (AnimalClinic.emergencyAdmit c rid now name species condition).1
  | .scheduleAppointment fuel g rid animalId date procedure =>
    (AnimalClinic.scheduleAppointment lib fuel c g rid animalId date procedure).map
      (fun r => r.1)
  | .addStaffMember rid name position qualifications =>
    some (AnimalClinic.addStaffMember c rid name position qualifications).1
  | .restockInventory species item quantity =>
    some (AnimalClinic.restockInventory c species item quantity).1

/-- The state after a sequence of calls. -/
def runOps (lib : DateLib) : Clinic → List Op → Option Clinic
  | c, [] => some c
  | c, op :: ops =>
    match op.apply lib c with
    | some c' => runOps lib c' ops
    | none => none

/-- Every animal has at most one case with `discharged = false`. -/
def AtMostOneOpen (c : Clinic) : Prop :=
  ∀ a ∈ c.animals, openCases a ≤ 1

/-- The call admits nobody who already has an open case: the animal that `admitAnimal` finds
under the id (for `emergencyAdmit`: an animal already registered under the id just drawn) has
no case with `discharged = false`.  Calls that admit nobody pass. -/
def Op.admitsNoOpenCase (c : Clinic) : Op → Bool
  | .admitAnimal _ id _ =>
    match findAnimalById c id with
    | some a => !hasOpenCase a
    | none => true
  | .emergencyAdmit rid _ _ _ _ =>
    match findAnimalById c ("anim_" ++ rid) with
    | some a => !hasOpenCase a
    | none => true
  | _ => true

/-- Along the sequence of calls, every call admits only an animal without open case. -/
def admissionsGuarded (lib : DateLib) : Clinic → List Op → Bool
  | _, [] => true
  | c, op :: ops =>
    op.admitsNoOpenCase c &&
      (match op.apply lib c with
       | some c' => admissionsGuarded lib c' ops
       | none => true)

/-! ## Well-formed heaps, valid dates and stock bounds -/

/-- The value is a string, or a `Date` object whose identity is below `h`, that is, an object
that exists when the next object to be created gets the identity `h`. -/
def DateVal.allocatedBefore (h : Nat) : DateVal → Bool
  | .str _ => true
  | .obj r _ => decide (r < h)

/-- Every `Date` object stored in an appointment exists: its identity is below `heapNext`.  This
is the invariant that ties the counter to the heap; every operation keeps it. -/
def datesAllocated (c : Clinic) : Bool :=
  c.appointments.all (fun a => a.date.allocatedBefore c.heapNext)

/-- The comparison `new Date(a) >= new Date(b)`; it is false when either date is invalid. -/
def dateGe (lib : DateLib) (a b : DateVal) : Bool :=
  match timeValue lib a, timeValue lib b with
  | some x, some y => decide (y ≤ x)
  | _, _ => false

/-- The date of the appointment is a valid date: `new Date(date)` has a time value. -/
def hasValidDate (lib : DateLib) (a : Appointment) : Bool :=
  (timeValue lib a.date).isSome

/-- The appointments that reference the animal, in the order in which they are stored. -/
def appointmentsOf (c : Clinic) (id : String) : List Appointment :=
  c.appointments.filter (fun a => a.animalId == id)

/-- The food stock and every medicine quantity of the entry are at least 0 (as the comparison
`>= 0` of the language has it: `NaN` and a string that is no numeral are not). -/
def EntryNonneg (e : InventoryEntry) : Prop :=
  e.foodStock.nonneg = true ∧ ∀ m ∈ e.medicine, m.2.nonneg = true

/-- Every food stock and every medicine quantity of the inventory is at least 0. -/
def StocksNonneg (inv : JSObj InventoryEntry) : Prop :=
  ∀ p ∈ inv, EntryNonneg p.2

/-- The call, if it is a `restockInventory`, has a quantity that is at least 0. -/
def Op.restockNonneg : Op → Bool
  | .restockInventory _ _ quantity => quantity.nonneg
  | _ => true

/-- The call, if it is a `restockInventory`, names a species and an item that are not inherited
names. -/
def Op.restockOrdinary : Op → Bool
  | .restockInventory species item _ =>
    decide (species ∉ inheritedNames) && decide (item ∉ inheritedNames)
  | _ => true

/-- The date of the appointment is a `Date` object whose identity is at least `r`. -/
def refAtLeast (r : Nat) (a : Appointment) : Bool :=
  match a.date with
  | .obj r' _ => decide (r ≤ r')
  | .str _ => false

/-- A sample state for the worked examples: one cat with three appointments, the two latest on
the same day. -/
def threeAppointments : Clinic :=
  { animals := [⟨"anim_k3x", "Fluffy", "cat", 3, "John Doe", []⟩]
    appointments :=
      [⟨"apt_a1", "anim_k3x", .str "2024-01-01", "checkup", none, "scheduled"⟩,
       ⟨"apt_a2", "anim_k3x", .str "2024-03-01", "vaccine", none, "scheduled"⟩,
       ⟨"apt_a3", "anim_k3x", .str "2024-03-01", "dental", none, "scheduled"⟩]
    staff := [], inventory := [("cat", ⟨.fin 1, .fin 0, []⟩)], financialRecords := []
    heapNext := 0 }

/-- The date passed to a `scheduleAppointment` call is a string or a `Date` object that exists
when the call is made. -/
def Op.dateAllocated (c : Clinic) : Op → Bool
  | .scheduleAppointment _ _ _ _ date _ => date.allocatedBefore c.heapNext
  | _ => true

/-- Along the sequence of calls, every date passed to `scheduleAppointment` is a string or an
existing `Date` object. -/
def datesPassedAllocated (lib : DateLib) : Clinic → List Op → Bool
  | _, [] => true
  | c, op :: ops =>
    op.dateAllocated c &&
      (match op.apply lib c with
       | some c' => datesPassedAllocated lib c' ops
       | none => true)

/-! ## Reading and writing plain objects -/

namespace JSObj

variable {α : Type}

theorem getProp_replaceProp (o : JSObj α) (k k' : String) (v : α) :
    getProp (replaceProp o k v) k' =
      if k = k' then (getProp o k').map (fun _ => v) else getProp o k' := by
  induction o with
  | nil => simp [replaceProp, getProp]
  | cons p o ih =>
    obtain ⟨k0, v0⟩ := p
    by_cases h0 : k0 = k
    · subst h0
      by_cases h1 : k0 = k' <;> simp [replaceProp, getProp, h1]
    · by_cases h1 : k0 = k'
      · subst h1
        have : ¬ k = k0 := fun h => h0 h.symm
        simp [replaceProp, getProp, h0, this]
      · simp [replaceProp, getProp, h0, h1, ih]

theorem getProp_insertIndex (o : JSObj α) (n : Nat) (k k' : String) (v : α)
    (h : getProp o k = none) :
    getProp (insertIndex n k v o) k' = if k = k' then some v else getProp o k' := by
  induction o with
  | nil => simp [insertIndex, getProp]
  | cons p o ih =>
    obtain ⟨k0, v0⟩ := p
    have hk0 : ¬ k0 = k := by
      intro hk
      simp [getProp, hk] at h
    have h' : getProp o k = none := by
      simpa [getProp, hk0] using h
    simp only [insertIndex]
    split
    · split
      · simp [getProp]
      · by_cases h1 : k0 = k'
        · subst h1
          have : ¬ k = k0 := fun hh => hk0 hh.symm
          simp [getProp, this]
        · simp [getProp, h1, ih h']
    · simp [getProp]

theorem getProp_append_single (o : JSObj α) (k k' : String) (v : α)
    (h : getProp o k = none) :
    getProp (o ++ [(k, v)]) k' = if k = k' then some v else getProp o k' := by
  induction o with
  | nil => simp [getProp]
  | cons p o ih =>
    obtain ⟨k0, v0⟩ := p
    have hk0 : ¬ k0 = k := by
      intro hk
      simp [getProp, hk] at h
    have h' : getProp o k = none := by
      simpa [getProp, hk0] using h
    by_cases h1 : k0 = k'
    · subst h1
      have : ¬ k = k0 := fun hh => hk0 hh.symm
      simp [getProp, this]
    · simp [getProp, h1, ih h']

/-- Reading after a write: the written key holds the new value, every other key is as before. -/
theorem getProp_setProp (o : JSObj α) (k k' : String) (v : α) :
    getProp (setProp o k v) k' = if k = k' then some v else getProp o k' := by
  unfold setProp
  cases h : getProp o k with
  | some w =>
    simp only [getProp_replaceProp]
    by_cases hk : k = k'
    · subst hk
      simp [h]
    · simp [hk]
  | none =>
    cases hi : arrayIndex k with
    | some n => simpa using getProp_insertIndex o n k k' v h
    | none => simpa using getProp_append_single o k k' v h

theorem getProp_setProp_self (o : JSObj α) (k : String) (v : α) :
    getProp (setProp o k v) k = some v := by
  simp [getProp_setProp]

theorem getProp_setProp_ne (o : JSObj α) {k k' : String} (v : α) (h : k ≠ k') :
    getProp (setProp o k v) k' = getProp o k' := by
  simp [getProp_setProp, h]

theorem replaceProp_replaceProp (o : JSObj α) (k : String) (v w : α) :
    replaceProp (replaceProp o k v) k w = replaceProp o k w := by
  induction o with
  | nil => rfl
  | cons p o ih =>
    obtain ⟨k0, v0⟩ := p
    by_cases h0 : k0 = k <;> simp [replaceProp, h0, ih]

theorem replaceProp_insertIndex (o : JSObj α) (n : Nat) (k : String) (v w : α)
    (h : getProp o k = none) :
    replaceProp (insertIndex n k v o) k w = insertIndex n k w o := by
  induction o with
  | nil => simp [insertIndex, replaceProp]
  | cons p o ih =>
    obtain ⟨k0, v0⟩ := p
    have hk0 : ¬ k0 = k := by
      intro hk
      simp [getProp, hk] at h
    have h' : getProp o k = none := by
      simpa [getProp, hk0] using h
    simp only [insertIndex]
    split
    · split
      · simp [replaceProp]
      · simp [replaceProp, hk0, ih h']
    · simp [replaceProp]

theorem replaceProp_append_single (o : JSObj α) (k : String) (v w : α)
    (h : getProp o k = none) :
    replaceProp (o ++ [(k, v)]) k w = o ++ [(k, w)] := by
  induction o with
  | nil => simp [replaceProp]
  | cons p o ih =>
    obtain ⟨k0, v0⟩ := p
    have hk0 : ¬ k0 = k := by
      intro hk
      simp [getProp, hk] at h
    have h' : getProp o k = none := by
      simpa [getProp, hk0] using h
    simp [replaceProp, hk0, ih h']

theorem setProp_of_some {o : JSObj α} {k : String} {u : α} (h : getProp o k = some u) (w : α) :
    setProp o k w = replaceProp o k w := by
  simp [setProp, h]

/-- Writing a key twice is writing the last value once. -/
theorem setProp_setProp (o : JSObj α) (k : String) (v w : α) :
    setProp (setProp o k v) k w = setProp o k w := by
  have h1 : getProp (setProp o k v) k = some v := getProp_setProp_self o k v
  rw [setProp_of_some h1]
  unfold setProp
  cases h : getProp o k with
  | some u => simp [replaceProp_replaceProp]
  | none =>
    cases hi : arrayIndex k with
    | some n => simp [replaceProp_insertIndex o n k v w h]
    | none => simp [replaceProp_append_single o k v w h]

end JSObj

/-! ## Reads through the inherited members -/

namespace JSObj

variable {α : Type}

theorem read_own {o : JSObj α} {k : String} {v : α} (h : getProp o k = some v) :
    read o k = .own v := by
  simp [read, h]

theorem read_undefined {o : JSObj α} {k : String} (h : getProp o k = none)
    (hk : k ∉ inheritedNames) : read o k = .undefined := by
  simp [read, h, hk]

theorem read_inherited {o : JSObj α} {k : String} (h : getProp o k = none)
    (hk : k ∈ inheritedNames) : read o k = .inherited := by
  simp [read, h, hk]

theorem read_eq_own_iff {o : JSObj α} {k : String} {v : α} :
    read o k = .own v ↔ getProp o k = some v := by
  unfold read
  cases h : getProp o k with
  | some u => simp
  | none => by_cases hk : k ∈ inheritedNames <;> simp [hk]

theorem assign_of_ordinary (o : JSObj α) {k : String} (v : α) (hk : k ∉ inheritedNames) :
    assign o k v = setProp o k v := by
  have hne : k ≠ "__proto__" := by
    intro h
    apply hk
    rw [h]
    decide
  simp [assign, hne]

end JSObj

/-! ## Sums of doubles -/

theorem roundNat_of_lt (k : Nat) (h : k < 9007199254740992) : roundNat k = some k := by
  have hr : roundTo 1 k = k := by simp [roundTo, Nat.mod_one]
  unfold roundNat roundLoop
  simp [hr, h]

/-- A safe integer is a double. -/
theorem ofInt_of_safe {n : Int} (h : safeInt n) : JSNum.ofInt n = .fin n := by
  obtain ⟨h1, h2⟩ := h
  have hk : roundNat n.natAbs = some n.natAbs := roundNat_of_lt _ (by omega)
  unfold JSNum.ofInt
  rw [hk]
  simp only
  split
  · congr 1; omega
  · congr 1; omega

/-- A sum that is a safe integer is exact. -/
theorem add_fin_of_safe {a b : Int} (h : safeInt (a + b)) :
    (JSNum.fin a).add (.fin b) = .fin (a + b) := by
  simp only [JSNum.add]
  exact ofInt_of_safe h

theorem safeInt_of_between {a b n : Int} (ha : safeInt a) (hb : safeInt b) (h1 : a ≤ n)
    (h2 : n ≤ b) : safeInt n := by
  obtain ⟨ha1, _⟩ := ha
  obtain ⟨_, hb2⟩ := hb
  exact ⟨by omega, by omega⟩

/-- The sum of two numbers that are at least 0 is at least 0. -/
theorem nonneg_add {x y : JSNum} (hx : x.nonneg = true) (hy : y.nonneg = true) :
    (x.add y).nonneg = true := by
  cases x with
  | fin a =>
    cases y with
    | fin b =>
      simp only [JSNum.nonneg, decide_eq_true_eq] at hx hy
      simp only [JSNum.add, JSNum.ofInt]
      have hab : ¬ a + b < 0 := by omega
      cases roundNat (a + b).natAbs with
      | some k => simp [JSNum.nonneg, hab]
      | none => simp [JSNum.nonneg, hab]
    | posInf => rfl
    | negInf => simp [JSNum.nonneg] at hy
    | nan => simp [JSNum.nonneg] at hy
  | posInf => cases y <;> simp_all [JSNum.nonneg, JSNum.add]
  | negInf => simp [JSNum.nonneg] at hx
  | nan => simp [JSNum.nonneg] at hx

/-- For a number `x` that counts as true, `Math.max(0, x + y)` is at least 0. -/
theorem max0_add_nonneg {x : JSNum} (hx : x.truthy = true) (y : Int) :
    ((x.add (.fin y)).max0).nonneg = true := by
  cases x with
  | fin a =>
    simp only [JSNum.add, JSNum.ofInt]
    cases roundNat (a + y).natAbs with
    | some k => simp [JSNum.max0, JSNum.nonneg]
    | none => by_cases h : a + y < 0 <;> simp [JSNum.max0, JSNum.nonneg, h]
  | posInf => rfl
  | negInf => rfl
  | nan => simp [JSNum.truthy] at hx

/-! ## Registration and restocking -/

theorem ensureEntry_of_own {inv : JSObj InventoryEntry} {s : String} {e : InventoryEntry}
    (h : inv.getProp s = some e) : ensureEntry inv s = inv := by
  simp [ensureEntry, JSObj.read_own h]

theorem ensureEntry_of_new {inv : JSObj InventoryEntry} {s : String}
    (h : inv.getProp s = none) (hs : s ∉ inheritedNames) :
    ensureEntry inv s = inv.setProp s newEntry := by
  simp [ensureEntry, JSObj.read_undefined h hs]

theorem ensureEntry_of_inherited {inv : JSObj InventoryEntry} {s : String}
    (h : inv.getProp s = none) (hs : s ∈ inheritedNames) : ensureEntry inv s = inv := by
  simp [ensureEntry, JSObj.read_inherited h hs]

/-- The guard touches no entry but the one of the species. -/
theorem getProp_ensureEntry_ne (inv : JSObj InventoryEntry) {s t : String} (ht : t ≠ s) :
    (ensureEntry inv s).getProp t = inv.getProp t := by
  unfold ensureEntry
  split
  · exact JSObj.getProp_setProp_ne _ _ (Ne.symm ht)
  · rfl

/-- After the guard a species whose name is not inherited has an entry: the one it had, or a new
one. -/
theorem getProp_ensureEntry (inv : JSObj InventoryEntry) {s : String}
    (hs : s ∉ inheritedNames) :
    (ensureEntry inv s).getProp s = some ((inv.getProp s).getD newEntry) := by
  cases h : inv.getProp s with
  | some e => rw [ensureEntry_of_own h]; simp [h]
  | none => rw [ensureEntry_of_new h hs]; simp [JSObj.getProp_setProp_self]

theorem inventory_updateSpeciesStats (c : Clinic) (s : String) (hs : s ∉ inheritedNames) :
    (updateSpeciesStats c s).inventory.getProp s =
        some { count := (speciesCount c s).add (.fin 1), foodStock := foodStockOf c s,
               medicine := medicineOf c s } := by
  have h1 := getProp_ensureEntry c.inventory hs
  unfold updateSpeciesStats speciesCount foodStockOf medicineOf
  simp only [JSObj.read_own h1, JSObj.getProp_setProp_self]
  cases h : c.inventory.getProp s <;> simp [newEntry]

theorem inventory_updateSpeciesStats_ne (c : Clinic) {s t : String} (ht : t ≠ s) :
    (updateSpeciesStats c s).inventory.getProp t = c.inventory.getProp t := by
  unfold updateSpeciesStats
  simp only
  split
  · simp only
    rw [JSObj.getProp_setProp_ne _ _ (Ne.symm ht), getProp_ensureEntry_ne _ ht]
  · exact getProp_ensureEntry_ne _ ht

/-- Registering under an inherited name that the inventory does not own leaves the inventory as
it is. -/
theorem inventory_updateSpeciesStats_inherited (c : Clinic) {s : String}
    (h : c.inventory.getProp s = none) (hs : s ∈ inheritedNames) :
    (updateSpeciesStats c s).inventory = c.inventory := by
  unfold updateSpeciesStats
  simp [ensureEntry_of_inherited h hs, JSObj.read_inherited h hs]

theorem frame_updateSpeciesStats (c : Clinic) (s : String) :
    (updateSpeciesStats c s).animals = c.animals ∧
      (updateSpeciesStats c s).appointments = c.appointments ∧
      (updateSpeciesStats c s).staff = c.staff ∧
      (updateSpeciesStats c s).financialRecords = c.financialRecords ∧
      (updateSpeciesStats c s).heapNext = c.heapNext := by
  unfold updateSpeciesStats
  simp only
  split <;> simp

theorem registerAll_spec (s : String) (hs : s ∉ inheritedNames)
    (regs : List (String × String × Int × String)) :
    ∀ (c : Clinic) (n : Int), speciesCount c s = .fin n → safeInt n →
      safeInt (n + regs.length) →
      speciesCount (registerAll c s regs) s = .fin (n + regs.length) ∧
      (registerAll c s regs).animals = c.animals ++ regs.map (freshAnimal s) ∧
      foodStockOf (registerAll c s regs) s = foodStockOf c s ∧
      medicineOf (registerAll c s regs) s = medicineOf c s ∧
      ∀ t, t ≠ s → (registerAll c s regs).inventory.getProp t = c.inventory.getProp t := by
  induction regs with
  | nil => intro c n hn _ _; simp [registerAll, hn]
  | cons r regs ih =>
    intro c n hn hsafe hsum
    obtain ⟨rid, name, age, owner⟩ := r
    have hlen : ((rid, name, age, owner) :: regs).length = regs.length + 1 := rfl
    rw [hlen] at hsum
    have hsafe1 : safeInt (n + 1) :=
      safeInt_of_between hsafe hsum (by omega) (by push_cast; omega)
    have hinv := inventory_updateSpeciesStats
      { c with animals := c.animals ++ [freshAnimal s (rid, name, age, owner)] } s hs
    have hne : ∀ t, t ≠ s → (registerAnimal c rid name s age owner).1.inventory.getProp t =
        c.inventory.getProp t := fun t ht =>
      inventory_updateSpeciesStats_ne
        { c with animals := c.animals ++ [freshAnimal s (rid, name, age, owner)] } ht
    have hfr := frame_updateSpeciesStats
      { c with animals := c.animals ++ [freshAnimal s (rid, name, age, owner)] } s
    have hself : (registerAnimal c rid name s age owner).1.inventory.getProp s =
        some { count := (speciesCount c s).add (.fin 1), foodStock := foodStockOf c s,
               medicine := medicineOf c s } := hinv
    have hcount : speciesCount (registerAnimal c rid name s age owner).1 s = .fin (n + 1) := by
      simp only [speciesCount, hself]
      rw [← add_fin_of_safe hsafe1]
      simp only [speciesCount] at hn
      rw [hn]
    have hfood : foodStockOf (registerAnimal c rid name s age owner).1 s = foodStockOf c s := by
      simp [foodStockOf, hself]
    have hmed : medicineOf (registerAnimal c rid name s age owner).1 s = medicineOf c s := by
      simp [medicineOf, hself]
    have hanim : (registerAnimal c rid name s age owner).1.animals =
        c.animals ++ [freshAnimal s (rid, name, age, owner)] := hfr.1
    obtain ⟨h1, h2, h3, h4, h5⟩ :=
      ih (registerAnimal c rid name s age owner).1 (n + 1) hcount hsafe1
        (by have e : n + 1 + (regs.length : Int) = n + ((regs.length + 1 : Nat) : Int) := by
              push_cast; ring
            rw [e]; exact hsum)
    refine ⟨?_, ?_, ?_, ?_, ?_⟩
    · show speciesCount (registerAll (registerAnimal c rid name s age owner).1 s regs) s = _
      rw [h1, hlen]
      congr 1
      push_cast
      ring
    · show (registerAll (registerAnimal c rid name s age owner).1 s regs).animals = _
      rw [h2, hanim]
      simp
    · show foodStockOf (registerAll (registerAnimal c rid name s age owner).1 s regs) s = _
      rw [h3, hfood]
    · show medicineOf (registerAll (registerAnimal c rid name s age owner).1 s regs) s = _
      rw [h4, hmed]
    · intro t ht
      show (registerAll (registerAnimal c rid name s age owner).1 s regs).inventory.getProp t = _
      rw [h5 t ht]
      exact hne t ht

/-- C6, where the claim fails.  Under the species name `constructor` every read of the inventory
finds the inherited member, so no entry is created and the inventory stays empty: no count goes
from 0 to 1.  And a count of 2^53 is not raised by a registration: the sum 2^53 + 1 is rounded
back to 2^53. -/
theorem registerAnimal_count_counterexample :
    (registerAnimal Clinic.empty "k3x" "Rex" "constructor" 3 "John Doe").1.inventory = [] ∧
      (registerAnimal Clinic.empty "k3x" "Rex" "constructor" 3 "John Doe").1.inventory.read
        "constructor" = .inherited ∧
      speciesCount (registerAnimal Clinic.empty "k3x" "Rex" "constructor" 3 "John Doe").1
        "constructor" ≠ .fin 1 ∧
      speciesCount
        { Clinic.empty with
          inventory := [("cat", ⟨.fin 9007199254740992, .fin 0, []⟩)] } "cat" =
        .fin 9007199254740992 ∧
      speciesCount
        (registerAnimal
          { Clinic.empty with
            inventory := [("cat", ⟨.fin 9007199254740992, .fin 0, []⟩)] }
          "k3x" "Fluffy" "cat" 3 "John Doe").1 "cat" = .fin 9007199254740992 := by
  decide

/-- C6, amended: for a species `s` whose name is not an inherited one and whose animal count `n`
(0 when `s` has no entry) stays a safe integer, registering N animals of `s` raises the count to
`n + N`, appends exactly N animals, leaves the food stock and the medicines of `s` as they were,
and leaves the entry of every other species untouched. -/
theorem registerAll_count (c : Clinic) (s : String)
    (regs : List (String × String × Int × String)) (n : Int)
    (hs : s ∉ inheritedNames) (hn : speciesCount c s = .fin n) (hsafe : safeInt n)
    (hsum : safeInt (n + regs.length)) :
    speciesCount (registerAll c s regs) s = .fin (n + regs.length) ∧
      (registerAll c s regs).animals = c.animals ++ regs.map (freshAnimal s) ∧
      (registerAll c s regs).animals.length = c.animals.length + regs.length ∧
      foodStockOf (registerAll c s regs) s = foodStockOf c s ∧
      medicineOf (registerAll c s regs) s = medicineOf c s ∧
      ∀ t, t ≠ s → (registerAll c s regs).inventory.getProp t = c.inventory.getProp t := by
  obtain ⟨h1, h2, h3, h4, h5⟩ := registerAll_spec s hs regs c n hn hsafe hsum
  exact ⟨h1, h2, by simp [h2], h3, h4, h5⟩

/-- C6 at a concrete input: two cats are registered in a clinic that has one cat. -/
theorem registerAll_count_witness :
    speciesCount
        (registerAll (registerAnimal Clinic.empty "k3x" "Fluffy" "cat" 3 "John Doe").1 "cat"
          [("p7q", "Tom", 2, "Ann Lee"), ("z2m", "Kit", 1, "Bo Ray")]) "cat" = .fin 3 ∧
      (registerAll (registerAnimal Clinic.empty "k3x" "Fluffy" "cat" 3 "John Doe").1 "cat"
          [("p7q", "Tom", 2, "Ann Lee"), ("z2m", "Kit", 1, "Bo Ray")]).animals.length = 3 :=
  ⟨(registerAll_count (registerAnimal Clinic.empty "k3x" "Fluffy" "cat" 3 "John Doe").1 "cat"
      [("p7q", "Tom", 2, "Ann Lee"), ("z2m", "Kit", 1, "Bo Ray")] 1 (by decide) (by decide)
      (by unfold safeInt; decide) (by unfold safeInt; decide)).1,
   (registerAll_count (registerAnimal Clinic.empty "k3x" "Fluffy" "cat" 3 "John Doe").1 "cat"
      [("p7q", "Tom", 2, "Ann Lee"), ("z2m", "Kit", 1, "Bo Ray")] 1 (by decide) (by decide)
      (by unfold safeInt; decide) (by unfold safeInt; decide)).2.2.1⟩

/-- One `restockInventory` under a species name that is not inherited: the call completes and
rewrites the entry of the species, a new one when there was none. -/
theorem restockInventory_of_ordinary (c : Clinic) (s i : String) (q : JSNum)
    (hs : s ∉ inheritedNames) :
    restockInventory c s i q =
      ({ c with
         inventory :=
           (ensureEntry c.inventory s).setProp s
             (restockEntry ((c.inventory.getProp s).getD newEntry) i q) },
       .normal ()) := by
  unfold restockInventory
  simp [JSObj.read_own (getProp_ensureEntry c.inventory hs)]

/-- Two `restockInventory` in a row under a species name that is not inherited. -/
theorem restockInventory_twice (c : Clinic) (s i : String) (q1 q2 : JSNum)
    (hs : s ∉ inheritedNames) :
    restockInventory (restockInventory c s i q1).1 s i q2 =
      ({ c with
         inventory :=
           (ensureEntry c.inventory s).setProp s
             (restockEntry (restockEntry ((c.inventory.getProp s).getD newEntry) i q1) i q2) },
       .normal ()) := by
  rw [restockInventory_of_ordinary c s i q1 hs, restockInventory_of_ordinary _ s i q2 hs]
  simp only [JSObj.getProp_setProp_self, Option.getD_some]
  rw [ensureEntry_of_own (JSObj.getProp_setProp_self _ _ _), JSObj.setProp_setProp]

theorem stockOf_eq (c : Clinic) (s i : String) :
    stockOf c s i = ((c.inventory.getProp s).getD newEntry).stock i := by
  unfold stockOf foodStockOf medicineOf InventoryEntry.stock
  cases h : c.inventory.getProp s <;> simp [newEntry]

theorem stock_withStock (e : InventoryEntry) (i : String) (v : Int) :
    (e.withStock i v).stock i = .num (.fin v) := by
  unfold InventoryEntry.withStock InventoryEntry.stock
  by_cases hi : i = "food"
  · simp [hi]
  · simp [hi, JSObj.getProp_setProp_self]

theorem stock_withStock_ne (e : InventoryEntry) {i j : String} (v : Int) (hj : j ≠ i) :
    (e.withStock i v).stock j = e.stock j := by
  unfold InventoryEntry.withStock InventoryEntry.stock
  by_cases hi : i = "food"
  · have hj' : ¬ j = "food" := fun h => hj (h.trans hi.symm)
    simp [hi, hj']
  · by_cases hjf : j = "food"
    · simp [hi, hjf]
    · simp [hi, hjf, JSObj.getProp_setProp_ne _ _ (Ne.symm hj)]

theorem withStock_withStock (e : InventoryEntry) (i : String) (v w : Int) :
    (e.withStock i v).withStock i w = e.withStock i w := by
  unfold InventoryEntry.withStock
  by_cases hi : i = "food"
  · simp [hi]
  · simp [hi, JSObj.setProp_setProp]

theorem count_withStock (e : InventoryEntry) (i : String) (v : Int) :
    (e.withStock i v).count = e.count := by
  unfold InventoryEntry.withStock
  split <;> rfl

/-- One restock of an item whose name is not inherited, on an entry that holds the safe integer
`n` of it, by a quantity `q` with `n + q` safe: the stock becomes `n + q`. -/
theorem restockEntry_of_safe (e : InventoryEntry) (i : String) (n q : Int)
    (hi : i ∉ inheritedNames) (hn : e.stock i = .num (.fin n)) (hsum : safeInt (n + q)) :
    restockEntry e i (.fin q) = e.withStock i (n + q) := by
  unfold restockEntry InventoryEntry.withStock
  unfold InventoryEntry.stock at hn
  by_cases hf : i = "food"
  · simp only [hf, if_true] at hn ⊢
    have hfood : e.foodStock = .fin n := by
      injection hn
    rw [hfood, add_fin_of_safe hsum]
  · simp only [hf, if_false] at hn ⊢
    rw [JSObj.assign_of_ordinary _ _ hi]
    congr 2
    unfold restocked
    cases hm : e.medicine.getProp i with
    | none =>
      rw [hm] at hn
      have h0 : n = 0 := by
        injection hn with h1
        injection h1 with h2
        exact h2.symm
      subst h0
      rw [JSObj.read_undefined hm hi, add_fin_of_safe hsum]
    | some v =>
      rw [hm] at hn
      simp only at hn
      subst hn
      rw [JSObj.read_own hm]
      simp only
      by_cases h0 : n = 0
      · subst h0
        simp only [JSNum.truthy, ne_eq, not_true_eq_false, decide_False, Bool.false_eq_true,
          if_false]
        rw [add_fin_of_safe hsum]
      · simp only [JSNum.truthy, ne_eq, h0, not_false_eq_true, decide_True, if_true]
        rw [add_fin_of_safe hsum]

theorem frame_restockInventory (c : Clinic) (s i : String) (q : JSNum) :
    (restockInventory c s i q).1.animals = c.animals ∧
      (restockInventory c s i q).1.appointments = c.appointments ∧
      (restockInventory c s i q).1.staff = c.staff ∧
      (restockInventory c s i q).1.financialRecords = c.financialRecords ∧
      (restockInventory c s i q).1.heapNext = c.heapNext := by
  unfold restockInventory
  simp only []
  split
  · simp
  · split <;> simp
  · simp

/-- C7, where the claim fails.  Sums of doubles are rounded: from a food stock of 1, restocking
2^53 and then 1 gives 2^53, restocking 1 and then 2^53 gives 2^53 + 2, so the order matters and
neither is the sum.  Under the item name `constructor` the stock read first is the inherited
member, to which `+` appends the quantity as text: the stock is a string, not 0 + 5.  Under the
species name `constructor` no entry is created: restocking food leaves the inventory empty, and
restocking a medicine throws a `TypeError`. -/
theorem restockInventory_order_counterexample :
    foodStockOf (restockInventory Clinic.empty "cat" "food" (.fin 1)).1 "cat" = .fin 1 ∧
      foodStockOf
        (restockInventory
          (restockInventory (restockInventory Clinic.empty "cat" "food" (.fin 1)).1
            "cat" "food" (.fin 9007199254740992)).1
          "cat" "food" (.fin 1)).1 "cat" = .fin 9007199254740992 ∧
      foodStockOf
        (restockInventory
          (restockInventory (restockInventory Clinic.empty "cat" "food" (.fin 1)).1
            "cat" "food" (.fin 1)).1
          "cat" "food" (.fin 9007199254740992)).1 "cat" = .fin 9007199254740994 ∧
      stockOf (restockInventory Clinic.empty "cat" "constructor" (.fin 5)).1 "cat"
        "constructor" = .text "constructor" [.fin 5] ∧
      (restockInventory Clinic.empty "constructor" "food" (.fin 10)).1.inventory = [] ∧
      (restockInventory Clinic.empty "constructor" "antibiotic" (.fin 10)).2 =
        .throwTypeError := by
  decide

/-- C7, amended: `restockInventory` is additive and order-independent per item while the names
are not inherited ones and the sums are exact.  For a species `s` and an item `i` whose names
are not inherited, a stock of `i` that is a safe integer `n` (0 if absent) and quantities `q1`,
`q2` ≥ 0 with `n + q1 + q2` safe, restocking by `q1` then `q2` completes and gives the same state
as by `q2` then `q1`; in it the stock of `i` is `n + q1 + q2`, every other stock of `s`, the
animal count of `s`, the entry of every other species and the other collections are unchanged;
and from a species without an entry, food 10 then food 5 gives a food stock of 15. -/
theorem restockInventory_additive (c : Clinic) (s i : String) (q1 q2 : Nat) (n : Int)
    (hs : s ∉ inheritedNames) (hi : i ∉ inheritedNames)
    (hn : stockOf c s i = .num (.fin n)) (hsafe : safeInt n)
    (hsum : safeInt (n + q1 + q2)) :
    restockInventory (restockInventory c s i (.fin q1)).1 s i (.fin q2) =
        restockInventory (restockInventory c s i (.fin q2)).1 s i (.fin q1) ∧
      (restockInventory (restockInventory c s i (.fin q1)).1 s i (.fin q2)).2 = .normal () ∧
      stockOf (restockInventory (restockInventory c s i (.fin q1)).1 s i (.fin q2)).1 s i =
        .num (.fin (n + (q1 + q2))) ∧
      (∀ j, j ≠ i →
        stockOf (restockInventory (restockInventory c s i (.fin q1)).1 s i (.fin q2)).1 s j =
          stockOf c s j) ∧
      speciesCount (restockInventory (restockInventory c s i (.fin q1)).1 s i (.fin q2)).1 s =
        speciesCount c s ∧
      (∀ t, t ≠ s →
        (restockInventory (restockInventory c s i (.fin q1)).1 s i
          (.fin q2)).1.inventory.getProp t = c.inventory.getProp t) ∧
      (restockInventory (restockInventory c s i (.fin q1)).1 s i (.fin q2)).1.animals =
        c.animals ∧
      (restockInventory (restockInventory c s i (.fin q1)).1 s i (.fin q2)).1.appointments =
        c.appointments ∧
      (restockInventory (restockInventory c s i (.fin q1)).1 s i (.fin q2)).1.staff =
        c.staff ∧
      (restockInventory (restockInventory c s i (.fin q1)).1 s i
        (.fin q2)).1.financialRecords = c.financialRecords ∧
      (c.inventory.getProp s = none →
        foodStockOf
          (restockInventory (restockInventory c s "food" (.fin 10)).1 s "food" (.fin 5)).1 s =
          .fin 15) := by
  have hstock : ((c.inventory.getProp s).getD newEntry).stock i = .num (.fin n) := by
    rw [← stockOf_eq]; exact hn
  have hs1 : safeInt (n + q1) := safeInt_of_between hsafe hsum (by omega) (by omega)
  have hs2 : safeInt (n + q2) := safeInt_of_between hsafe hsum (by omega) (by omega)
  have hs21 : safeInt (n + q2 + q1) := by
    have e : n + (q2 : Int) + q1 = n + q1 + q2 := by ring
    rw [e]; exact hsum
  have key : ∀ (a b : Nat), safeInt (n + a) → safeInt (n + a + b) →
      restockEntry (restockEntry ((c.inventory.getProp s).getD newEntry) i (.fin a)) i (.fin b) =
        ((c.inventory.getProp s).getD newEntry).withStock i (n + a + b) := by
    intro a b ha hab
    rw [restockEntry_of_safe _ i n a hi hstock ha,
      restockEntry_of_safe _ i (n + a) b hi (stock_withStock _ _ _) hab, withStock_withStock]
  have h12 := restockInventory_twice c s i (.fin q1) (.fin q2) hs
  have h21 := restockInventory_twice c s i (.fin q2) (.fin q1) hs
  rw [key q1 q2 hs1 hsum] at h12
  rw [key q2 q1 hs2 hs21] at h21
  have hsame : n + (q2 : Int) + q1 = n + q1 + q2 := by ring
  rw [hsame] at h21
  refine ⟨?_, ?_, ?_, ?_, ?_, ?_, ?_, ?_, ?_, ?_, ?_⟩
  · rw [h12, h21]
  · rw [h12]
  · rw [h12, stockOf_eq]
    simp only [JSObj.getProp_setProp_self, Option.getD_some, stock_withStock]
    congr 2
    ring
  · intro j hj
    rw [h12, stockOf_eq, stockOf_eq]
    simp only [JSObj.getProp_setProp_self, Option.getD_some]
    exact stock_withStock_ne _ _ hj
  · rw [h12]
    unfold speciesCount
    simp only [JSObj.getProp_setProp_self, count_withStock]
    cases c.inventory.getProp s <;> simp [newEntry]
  · intro t ht
    rw [h12]
    simp only
    rw [JSObj.getProp_setProp_ne _ _ (Ne.symm ht), getProp_ensureEntry_ne _ ht]
  · rw [h12]
  · rw [h12]
  · rw [h12]
  · rw [h12]
  · intro hnone
    rw [restockInventory_twice c s "food" (.fin 10) (.fin 5) hs]
    simp only [foodStockOf, JSObj.getProp_setProp_self, hnone, Option.getD_none]
    decide

/-- C7 at a concrete input: 20 and 30 units of antibiotic for the cats, which hold 50. -/
theorem restockInventory_additive_witness :
    restockInventory
        (restockInventory (restockInventory Clinic.empty "cat" "antibiotic" (.fin 50)).1
          "cat" "antibiotic" (.fin 20)).1 "cat" "antibiotic" (.fin 30) =
      restockInventory
        (restockInventory (restockInventory Clinic.empty "cat" "antibiotic" (.fin 50)).1
          "cat" "antibiotic" (.fin 30)).1 "cat" "antibiotic" (.fin 20) ∧
      stockOf
        (restockInventory
          (restockInventory (restockInventory Clinic.empty "cat" "antibiotic" (.fin 50)).1
            "cat" "antibiotic" (.fin 20)).1 "cat" "antibiotic" (.fin 30)).1
        "cat" "antibiotic" = .num (.fin 100) :=
  ⟨(restockInventory_additive
      (restockInventory Clinic.empty "cat" "antibiotic" (.fin 50)).1 "cat" "antibiotic" 20 30 50
      (by decide) (by decide) (by decide) (by unfold safeInt; decide)
      (by unfold safeInt; decide)).1,
   (restockInventory_additive
      (restockInventory Clinic.empty "cat" "antibiotic" (.fin 50)).1 "cat" "antibiotic" 20 30 50
      (by decide) (by decide) (by decide) (by unfold safeInt; decide)
      (by unfold safeInt; decide)).2.2.1⟩

/-! ## Discharge without an open case -/

/-- C5: when the id names no registered animal, or the animal it names has no case with
`discharged = false`, `dischargeAnimal` returns `false` and the state is unchanged (so no
financial record is appended and no case record is modified). -/
theorem dischargeAnimal_no_open_case (c : Clinic) (now : Int) (id finalDiagnosis : String)
    (h : findAnimalById c id = none ∨
      ∃ a, findAnimalById c id = some a ∧ ∀ cr ∈ a.medicalHistory, cr.discharged = true) :
    (dischargeAnimal c now id finalDiagnosis).2 = false ∧
      (dischargeAnimal c now id finalDiagnosis).1 = c := by
  rcases h with h | ⟨a, ha, hall⟩
  · simp [dischargeAnimal, h]
  · have hfind : a.medicalHistory.find? (fun cr => !cr.discharged) = none := by
      rw [List.find?_eq_none]
      intro cr hcr
      simp [hall cr hcr]
    simp [dischargeAnimal, ha, hfind]

/-- C5 at a concrete input: an animal is registered and never admitted; discharging it
fails and changes nothing. -/
theorem dischargeAnimal_no_open_case_witness :
    (dischargeAnimal (registerAnimal Clinic.empty "k3x" "Fluffy" "cat" 3 "John Doe").1 7
        "anim_k3x" "healthy").2 = false ∧
      (dischargeAnimal (registerAnimal Clinic.empty "k3x" "Fluffy" "cat" 3 "John Doe").1 7
        "anim_k3x" "healthy").1 =
        (registerAnimal Clinic.empty "k3x" "Fluffy" "cat" 3 "John Doe").1 :=
  dischargeAnimal_no_open_case _ 7 "anim_k3x" "healthy"
    (Or.inr ⟨⟨"anim_k3x", "Fluffy", "cat", 3, "John Doe", []⟩, by decide, by decide⟩)

/-! ## Admission -/

/-- The medicines `determineMedication` returns: the four own entries of `medMap`, the inherited
member for an inherited name, the empty list otherwise. -/
theorem determineMedication_eq (d : Diagnosis) :
    determineMedication d =
      if d.condition = "fever" then some ["antipyretic", "antibiotic"]
      else if d.condition = "injury" then some ["painkiller", "antibiotic"]
      else if d.condition = "infection" then some ["antibiotic"]
      else if d.condition = "allergy" then some ["antihistamine"]
      else if d.condition ∈ inheritedNames then none else some [] := by
  unfold determineMedication JSObj.read medMap
  by_cases h1 : d.condition = "fever"
  · simp [JSObj.getProp, h1]
  by_cases h2 : d.condition = "injury"
  · simp [JSObj.getProp, h2]
  by_cases h3 : d.condition = "infection"
  · simp [JSObj.getProp, h3]
  by_cases h4 : d.condition = "allergy"
  · simp [JSObj.getProp, h4]
  have e1 : ¬ "fever" = d.condition := fun h => h1 h.symm
  have e2 : ¬ "injury" = d.condition := fun h => h2 h.symm
  have e3 : ¬ "infection" = d.condition := fun h => h3 h.symm
  have e4 : ¬ "allergy" = d.condition := fun h => h4 h.symm
  simp only [JSObj.getProp, e1, e2, e3, e4, h1, h2, h3, h4, if_false]
  by_cases hin : d.condition ∈ inheritedNames <;> simp [hin]

/-- A list of medicines that `determineMedication` returns has no repetition and holds no
inherited name. -/
theorem determineMedication_some {d : Diagnosis} {meds : List String}
    (h : determineMedication d = some meds) :
    meds.Nodup ∧ ∀ m ∈ meds, m ∉ inheritedNames := by
  rw [determineMedication_eq] at h
  split_ifs at h <;> injection h with h <;> subst h <;> decide

/-- A value that counts as false is the one `Math.max(0, v - 1)` gives. -/
theorem decrement_of_falsy {v : StockVal} (h : v.truthy = false) : .num v.decrement = v := by
  cases v with
  | text b qs => simp [StockVal.truthy] at h
  | num x =>
    cases x with
    | fin n =>
      have h0 : n = 0 := by simpa [StockVal.truthy, JSNum.truthy] using h
      subst h0
      decide
    | posInf => simp [StockVal.truthy, JSNum.truthy] at h
    | negInf => simp [StockVal.truthy, JSNum.truthy] at h
    | nan => rfl

/-- On a safe integer, `Math.max(0, n - 1)` is exact. -/
theorem decrement_of_safe {n : Int} (h : safeInt n) :
    (StockVal.num (.fin n)).decrement = .fin (max 0 (n - 1)) := by
  by_cases hn : n = -9007199254740991
  · subst hn
    decide
  · have hs : safeInt (n + -1) := by
      obtain ⟨h1, h2⟩ := h
      exact ⟨by omega, by omega⟩
    simp only [StockVal.decrement, add_fin_of_safe hs, JSNum.max0]
    rfl

/-- The medication loop on a species that has an inventory entry, for medicines whose names are
not inherited: it completes normally, each listed medicine that is in stock goes to
`Math.max(0, old - 1)`, nothing else changes. -/
theorem forEachMedication_spec (s : String) (meds : List String) (hnd : meds.Nodup)
    (hord : ∀ m ∈ meds, m ∉ inheritedNames) :
    ∀ (inv : JSObj InventoryEntry) (e : InventoryEntry), inv.getProp s = some e →
      ∃ inv' e', forEachMedication s meds inv = (inv', .normal ()) ∧
        inv'.getProp s = some e' ∧ e'.count = e.count ∧ e'.foodStock = e.foodStock ∧
        (∀ k, e'.medicine.getProp k =
          if k ∈ meds then (e.medicine.getProp k).map (fun old => .num old.decrement)
          else e.medicine.getProp k) ∧
        ∀ t, t ≠ s → inv'.getProp t = inv.getProp t := by
  induction meds with
  | nil =>
    intro inv e he
    exact ⟨inv, e, rfl, he, rfl, rfl, by simp, fun _ _ => rfl⟩
  | cons med rest ih =>
    intro inv e he
    obtain ⟨hmed, hrest⟩ := List.nodup_cons.mp hnd
    have hmo : med ∉ inheritedNames := hord med (List.mem_cons_self _ _)
    have step : ∃ inv1 e1, consumeMedication s inv med = some inv1 ∧
        inv1.getProp s = some e1 ∧ e1.count = e.count ∧ e1.foodStock = e.foodStock ∧
        (∀ k, e1.medicine.getProp k =
          if k = med then (e.medicine.getProp k).map (fun old => .num old.decrement)
          else e.medicine.getProp k) ∧
        ∀ t, t ≠ s → inv1.getProp t = inv.getProp t := by
      unfold consumeMedication
      simp only [JSObj.read_own he]
      cases hq : e.medicine.getProp med with
      | none =>
        simp only [JSObj.read_undefined hq hmo]
        refine ⟨inv, e, rfl, he, rfl, rfl, ?_, fun _ _ => rfl⟩
        intro k
        by_cases hk : k = med
        · subst hk; simp [hq]
        · simp [hk]
      | some q =>
        simp only [JSObj.read_own hq]
        by_cases hq0 : q.truthy = true
        · refine ⟨inv.setProp s { e with medicine := e.medicine.setProp med (.num q.decrement) },
            { e with medicine := e.medicine.setProp med (.num q.decrement) },
            by simp only [hq0, if_true, JSObj.assign_of_ordinary _ _ hmo],
            JSObj.getProp_setProp_self _ _ _, rfl, rfl, ?_, ?_⟩
          · intro k
            by_cases hk : k = med
            · subst hk; simp [hq, JSObj.getProp_setProp_self]
            · simp [hk, JSObj.getProp_setProp_ne _ _ (Ne.symm hk)]
          · intro t ht
            exact JSObj.getProp_setProp_ne _ _ (Ne.symm ht)
        · have hq0' : q.truthy = false := by simpa using hq0
          refine ⟨inv, e, by simp [hq0'], he, rfl, rfl, ?_, fun _ _ => rfl⟩
          intro k
          by_cases hk : k = med
          · subst hk; simp [hq, decrement_of_falsy hq0']
          · simp [hk]
    obtain ⟨inv1, e1, hstep, he1, hc1, hf1, hm1, ho1⟩ := step
    obtain ⟨inv', e', hrun, he', hc', hf', hm', ho'⟩ :=
      ih hrest (fun m hm => hord m (List.mem_cons_of_mem _ hm)) inv1 e1 he1
    refine ⟨inv', e', ?_, he', hc'.trans hc1, hf'.trans hf1, ?_, ?_⟩
    · simp [forEachMedication, hstep, hrun]
    · intro k
      rw [hm' k, hm1 k]
      by_cases hk : k = med
      · subst hk
        simp [hmed]
      · simp [hk]
    · intro t ht
      rw [ho' t ht, ho1 t ht]

theorem frame_updateInventoryForTreatment (c : Clinic) (d : Diagnosis) :
    (updateInventoryForTreatment c d).1.animals = c.animals ∧
      (updateInventoryForTreatment c d).1.appointments = c.appointments ∧
      (updateInventoryForTreatment c d).1.staff = c.staff ∧
      (updateInventoryForTreatment c d).1.financialRecords = c.financialRecords ∧
      (updateInventoryForTreatment c d).1.heapNext = c.heapNext := by
  unfold updateInventoryForTreatment
  split <;> simp

theorem find?_modifyFirst_self {α : Type} (p : α → Bool) (f : α → α)
    (hf : ∀ x, p (f x) = p x) (l : List α) :
    (modifyFirst p f l).find? p = (l.find? p).map f := by
  induction l with
  | nil => rfl
  | cons x xs ih =>
    by_cases hx : p x = true
    · simp [modifyFirst, hx, List.find?, hf]
    · simp [modifyFirst, hx, List.find?, ih]

/-- C8, where the claim fails.  For the condition `constructor` the medicine table read is the
inherited member, which is no list: the case is appended and then the call ends by a
`TypeError` instead of returning `true`.  And a stock beyond 2^53 does not go to `old - 1`: from
2^53 + 2 the difference is rounded to 2^53. -/
theorem admitAnimal_inherited_condition_counterexample :
    findAnimalById (registerAnimal Clinic.empty "k3x" "Fluffy" "cat" 3 "John Doe").1 "anim_k3x" =
        some ⟨"anim_k3x", "Fluffy", "cat", 3, "John Doe", []⟩ ∧
      (registerAnimal Clinic.empty "k3x" "Fluffy" "cat" 3 "John Doe").1.inventory.getProp "cat" =
        some ⟨.fin 1, .fin 0, []⟩ ∧
      (admitAnimal (registerAnimal Clinic.empty "k3x" "Fluffy" "cat" 3 "John Doe").1 11
        "anim_k3x" ⟨"constructor", "cat", none⟩).2 = .throwTypeError ∧
      (admitAnimal (registerAnimal Clinic.empty "k3x" "Fluffy" "cat" 3 "John Doe").1 11
        "anim_k3x" ⟨"constructor", "cat", none⟩).1.animals =
        [⟨"anim_k3x", "Fluffy", "cat", 3, "John Doe",
          [newCase (.obj 0 (some 11)) ⟨"constructor", "cat", none⟩]⟩] ∧
      (medicineOf
        (admitAnimal
          (restockInventory (registerAnimal Clinic.empty "k3x" "Fluffy" "cat" 3 "John Doe").1
            "cat" "antibiotic" (.fin 9007199254740994)).1
          11 "anim_k3x" ⟨"infection", "cat", none⟩).1 "cat").getProp "antibiotic" =
        some (.num (.fin 9007199254740992)) := by
  decide

/-- C8, amended: for a known animal and a diagnosis whose species has an entry of its own in
the inventory and whose condition is not an inherited name, `admitAnimal` returns `true`,
appends to that animal one case with `discharged = false` and no treatment, and each medicine
indicated for the condition (fever: antipyretic, antibiotic; injury: painkiller, antibiotic;
infection: antibiotic; allergy: antihistamine; otherwise none) goes from `old` to
`Math.max(0, old - 1)` in that species' stock, which is the integer `max 0 (old - 1)` when `old`
is a safe integer, a missing medicine staying missing; the other medicines, the food stock and
animal count of the species and every other species are unchanged. -/
theorem admitAnimal_known_species (c : Clinic) (now : Int) (id : String) (d : Diagnosis)
    (a : Animal) (e : InventoryEntry)
    (ha : findAnimalById c id = some a) (he : c.inventory.getProp d.species = some e)
    (hc : d.condition ∉ inheritedNames) :
    (admitAnimal c now id d).2 = .normal true ∧
      (∃ cr : CaseRecord, cr.discharged = false ∧ cr.treatment = [] ∧ cr.diagnosis = d ∧
        findAnimalById (admitAnimal c now id d).1 id =
          some { a with medicalHistory := a.medicalHistory ++ [cr] } ∧
        (admitAnimal c now id d).1.animals =
          modifyFirst (fun x => x.id == id)
            (fun x => { x with medicalHistory := x.medicalHistory ++ [cr] }) c.animals) ∧
      (∃ meds, determineMedication d = some meds ∧
        (meds =
          if d.condition = "fever" then ["antipyretic", "antibiotic"]
          else if d.condition = "injury" then ["painkiller", "antibiotic"]
          else if d.condition = "infection" then ["antibiotic"]
          else if d.condition = "allergy" then ["antihistamine"]
          else []) ∧
        (∀ m, m ∈ meds →
          (medicineOf (admitAnimal c now id d).1 d.species).getProp m =
            ((medicineOf c d.species).getProp m).map (fun old => .num old.decrement)) ∧
        (∀ m, m ∈ meds → ∀ n : Int,
          (medicineOf c d.species).getProp m = some (.num (.fin n)) → safeInt n →
          (medicineOf (admitAnimal c now id d).1 d.species).getProp m =
            some (.num (.fin (max 0 (n - 1))))) ∧
        (∀ m, m ∉ meds →
          (medicineOf (admitAnimal c now id d).1 d.species).getProp m =
            (medicineOf c d.species).getProp m)) ∧
      foodStockOf (admitAnimal c now id d).1 d.species = foodStockOf c d.species ∧
      speciesCount (admitAnimal c now id d).1 d.species = speciesCount c d.species ∧
      ∀ t, t ≠ d.species →
        (admitAnimal c now id d).1.inventory.getProp t = c.inventory.getProp t := by
  have hmeds : determineMedication d = some
      (if d.condition = "fever" then ["antipyretic", "antibiotic"]
        else if d.condition = "injury" then ["painkiller", "antibiotic"]
        else if d.condition = "infection" then ["antibiotic"]
        else if d.condition = "allergy" then ["antihistamine"]
        else []) := by
    rw [determineMedication_eq]
    split_ifs <;> rfl
  obtain ⟨hnd, hord⟩ := determineMedication_some hmeds
  obtain ⟨inv', e', hrun, he', hc', hf', hm', ho'⟩ :=
    forEachMedication_spec d.species _ hnd hord c.inventory e he
  have hadm : admitAnimal c now id d =
      ({ c with
          animals := modifyFirst (fun x => x.id == id)
            (fun x => { x with medicalHistory :=
              x.medicalHistory ++ [newCase (.obj c.heapNext (some now)) d] }) c.animals
          heapNext := c.heapNext + 1
          inventory := inv' }, .normal true) := by
    simp [admitAnimal, ha, updateInventoryForTreatment, hmeds, hrun]
  rw [hadm]
  refine ⟨rfl, ⟨newCase (.obj c.heapNext (some now)) d, rfl, rfl, rfl, ?_, rfl⟩,
    ⟨_, hmeds, rfl, ?_, ?_, ?_⟩, ?_, ?_, ho'⟩
  · unfold findAnimalById at ha ⊢
    have hfind := find?_modifyFirst_self (fun x : Animal => x.id == id)
      (fun x => { x with medicalHistory :=
        x.medicalHistory ++ [newCase (.obj c.heapNext (some now)) d] })
      (fun x => rfl) c.animals
    simp only [hfind, ha]
    rfl
  · intro m hm
    simp only [medicineOf, he', he, hm' m, hm, if_true]
  · intro m hm n hmn hsafe
    simp only [medicineOf, he] at hmn
    simp only [medicineOf, he', hm' m, hm, if_true, hmn, Option.map_some',
      decrement_of_safe hsafe]
  · intro m hm
    simp only [medicineOf, he', he, hm' m, hm, if_false]
  · simp only [foodStockOf, he', he, hf']
  · simp only [speciesCount, he', he, hc']

/-- C8 at a concrete input: a cat with fever is admitted while the cat entry holds 50 units of
antibiotic and no antipyretic. -/
theorem admitAnimal_known_species_witness :
    (admitAnimal
        (restockInventory (registerAnimal Clinic.empty "k3x" "Fluffy" "cat" 3 "John Doe").1
          "cat" "antibiotic" (.fin 50)).1
        11 "anim_k3x" ⟨"fever", "cat", none⟩).2 = .normal true ∧
      (medicineOf
        (admitAnimal
          (restockInventory (registerAnimal Clinic.empty "k3x" "Fluffy" "cat" 3 "John Doe").1
            "cat" "antibiotic" (.fin 50)).1
          11 "anim_k3x" ⟨"fever", "cat", none⟩).1 "cat").getProp "antibiotic" =
        some (.num (.fin 49)) :=
  ⟨(admitAnimal_known_species
      (restockInventory (registerAnimal Clinic.empty "k3x" "Fluffy" "cat" 3 "John Doe").1
        "cat" "antibiotic" (.fin 50)).1
      11 "anim_k3x" ⟨"fever", "cat", none⟩
      ⟨"anim_k3x", "Fluffy", "cat", 3, "John Doe", []⟩
      ⟨.fin 1, .fin 0, [("antibiotic", .num (.fin 50))]⟩
      (by decide) (by decide) (by decide)).1,
    by decide⟩

/-- A condition with medication, on a species without inventory entry: the case is appended and
the call ends by a `TypeError`. -/
theorem admitAnimal_throws_of_missing_species (c : Clinic) (now : Int) (id : String)
    (d : Diagnosis) (a : Animal) (med : String) (rest : List String)
    (ha : findAnimalById c id = some a)
    (he : c.inventory.getProp d.species = none)
    (hm : determineMedication d = some (med :: rest)) :
    (admitAnimal c now id d).2 = .throwTypeError ∧
      (admitAnimal c now id d).1.animals =
        modifyFirst (fun x => x.id == id)
          (fun x => { x with medicalHistory :=
            x.medicalHistory ++ [newCase (.obj c.heapNext (some now)) d] }) c.animals := by
  have hread : ∀ v, c.inventory.read d.species ≠ .own v := by
    intro v h
    rw [JSObj.read_eq_own_iff, he] at h
    exact Option.noConfusion h
  have hcons : consumeMedication d.species c.inventory med = none := by
    unfold consumeMedication
    split
    · rename_i e heq
      exact absurd heq (hread e)
    · rfl
  simp [admitAnimal, ha, updateInventoryForTreatment, hm, forEachMedication, hcons]

theorem admitAnimal_unknown_species_throws :
    findAnimalById (registerAnimal Clinic.empty "k3x" "Fluffy" "cat" 3 "John Doe").1 "anim_k3x" =
        some ⟨"anim_k3x", "Fluffy", "cat", 3, "John Doe", []⟩ ∧
      (registerAnimal Clinic.empty "k3x" "Fluffy" "cat" 3 "John Doe").1.inventory.getProp
        "unknown" = none ∧
      (admitAnimal (registerAnimal Clinic.empty "k3x" "Fluffy" "cat" 3 "John Doe").1 11
        "anim_k3x" ⟨"fever", "unknown", none⟩).2 = .throwTypeError ∧
      (admitAnimal (registerAnimal Clinic.empty "k3x" "Fluffy" "cat" 3 "John Doe").1 11
        "anim_k3x" ⟨"fever", "unknown", none⟩).2 ≠ .normal true ∧
      (admitAnimal (registerAnimal Clinic.empty "k3x" "Fluffy" "cat" 3 "John Doe").1 11
        "anim_k3x" ⟨"fever", "unknown", none⟩).1.animals =
        [⟨"anim_k3x", "Fluffy", "cat", 3, "John Doe",
          [newCase (.obj 0 (some 11)) ⟨"fever", "unknown", none⟩]⟩] ∧
      (admitAnimal (registerAnimal Clinic.empty "k3x" "Fluffy" "cat" 3 "John Doe").1 11
        "anim_k3x" ⟨"fever", "unknown", none⟩).1.inventory =
        (registerAnimal Clinic.empty "k3x" "Fluffy" "cat" 3 "John Doe").1.inventory := by
  decide

/-! ## Fees -/

/-- A case as `admitAnimal` creates it, closed by `dischargeAnimal`, is billed 50 whatever the
diagnosis says: the record has no treatment and no `emergency` property of its own. -/
theorem calculateFee_closed_newCase (date : DateVal) (d : Diagnosis) (finalDiagnosis : String) :
    calculateFee (closeCase finalDiagnosis (newCase date d)) = 50 := by
  simp [calculateFee, closeCase, newCase]

/-- C3, the code at the failing input: on an empty clinic `emergencyAdmit("Rex", "dog",
"injury")` opens a case whose diagnosis carries `emergency = true`; `dischargeAnimal` then
succeeds and appends one financial record of amount 50, not 75. -/
theorem emergency_case_billed_50 :
    (emergencyAdmit Clinic.empty "k3x" 5 "Rex" "dog" "injury").2 = .normal "anim_k3x" ∧
      ((emergencyAdmit Clinic.empty "k3x" 5 "Rex" "dog" "injury").1.animals.map
        (fun a => a.medicalHistory.map (fun cr => (cr.diagnosis.emergency, cr.discharged)))) =
        [[(some true, false)]] ∧
      (dischargeAnimal (emergencyAdmit Clinic.empty "k3x" 5 "Rex" "dog" "injury").1 9
        "anim_k3x" "recovered").2 = true ∧
      ((dischargeAnimal (emergencyAdmit Clinic.empty "k3x" 5 "Rex" "dog" "injury").1 9
        "anim_k3x" "recovered").1.financialRecords.map (fun r => r.amount)) = [50] ∧
      ((dischargeAnimal (emergencyAdmit Clinic.empty "k3x" 5 "Rex" "dog" "injury").1 9
        "anim_k3x" "recovered").1.financialRecords.map (fun r => r.amount)) ≠ [75] := by
  have hstate : (emergencyAdmit Clinic.empty "k3x" 5 "Rex" "dog" "injury") =
      ({ animals := [⟨"anim_k3x", "Rex", "dog", 0, "Emergency Contact",
            [newCase (.obj 0 (some 5)) ⟨"injury", "dog", some true⟩]⟩],
         appointments := [], staff := [], inventory := [("dog", ⟨1, 0, []⟩)],
         financialRecords := [], heapNext := 1 }, .normal "anim_k3x") := by
    decide
  rw [hstate]
  refine ⟨rfl, by decide, by decide, ?_, ?_⟩
  · simp [dischargeAnimal, findAnimalById, processPayment, calculateFee, closeCase, newCase]
  · simp [dischargeAnimal, findAnimalById, processPayment, calculateFee, closeCase, newCase]

/-! ## Monthly report -/

theorem eraseDups_loop_spec (as : List String) :
    ∀ bs : List String, bs.Nodup →
      (List.eraseDups.loop as bs).Nodup ∧
        ∀ x, x ∈ List.eraseDups.loop as bs ↔ x ∈ as ∨ x ∈ bs := by
  induction as with
  | nil =>
    intro bs hbs
    simp [List.eraseDups.loop, hbs]
  | cons a as ih =>
    intro bs hbs
    by_cases ha : a ∈ bs
    · have hel : bs.elem a = true := by simpa using ha
      obtain ⟨h1, h2⟩ := ih bs hbs
      simp only [List.eraseDups.loop, hel]
      refine ⟨h1, fun x => ?_⟩
      rw [h2 x]
      constructor
      · rintro (h | h)
        · exact Or.inl (List.mem_cons_of_mem _ h)
        · exact Or.inr h
      · rintro (h | h)
        · rcases List.mem_cons.mp h with rfl | h
          · exact Or.inr ha
          · exact Or.inl h
        · exact Or.inr h
    · have hel : bs.elem a = false := by simpa using ha
      obtain ⟨h1, h2⟩ := ih (a :: bs) (List.nodup_cons.mpr ⟨ha, hbs⟩)
      simp only [List.eraseDups.loop, hel]
      refine ⟨h1, fun x => ?_⟩
      rw [h2 x]
      simp only [List.mem_cons]
      tauto

/-- The array built from `new Set(ids)` has as many elements as there are distinct ids. -/
theorem length_eraseDups (ids : List String) : ids.eraseDups.length = ids.toFinset.card := by
  obtain ⟨h1, h2⟩ := eraseDups_loop_spec ids [] List.nodup_nil
  have hfin : ids.eraseDups.toFinset = ids.toFinset := by
    ext x
    simp only [List.mem_toFinset, List.eraseDups]
    rw [h2 x]
    simp
  rw [← hfin]
  exact (List.toFinset_card_of_nodup h1).symm

/-- The `reduce` of `generateMonthlyReport` adds up the amounts of the records it selects. -/
theorem foldl_revenue (p : FinancialRecord → Bool) (l : List FinancialRecord) :
    ∀ init : ℚ,
      l.foldl (fun sum record => if p record then sum + record.amount else sum) init =
        init + ((l.filter p).map (fun r => r.amount)).sum := by
  induction l with
  | nil => intro init; simp
  | cons r l ih =>
    intro init
    by_cases hr : p r = true
    · simp [List.foldl, hr, ih, add_assoc]
    · simp [List.foldl, hr, ih]

theorem countItems_nil : countItems [] = [] := rfl

/-- C10: `generateMonthlyReport` returns as `totalAppointments` the number of stored
appointments whose date falls in the month and year, as `revenue` the sum of the amounts of the
financial records whose date falls in it, as `animalsTreated` the number of distinct animal ids
among those appointments; when no appointment and no financial record falls in it, the report
is `{totalAppointments: 0, revenue: 0, animalsTreated: 0, commonProcedures: []}`. -/
theorem generateMonthlyReport_totals (lib : DateLib) (c : Clinic) (month year : Int) :
    (generateMonthlyReport lib c month year).totalAppointments =
        c.appointments.countP (fun a => inMonth lib a.date month year) ∧
      (generateMonthlyReport lib c month year).revenue =
        ((c.financialRecords.filter (fun r => inMonth lib r.date month year)).map
          (fun r => r.amount)).sum ∧
      (generateMonthlyReport lib c month year).animalsTreated =
        (((c.appointments.filter (fun a => inMonth lib a.date month year)).map
          (fun a => a.animalId)).toFinset).card ∧
      ((∀ a ∈ c.appointments, inMonth lib a.date month year = false) →
        (∀ r ∈ c.financialRecords, inMonth lib r.date month year = false) →
        generateMonthlyReport lib c month year =
          { totalAppointments := 0, revenue := 0, animalsTreated := 0,
            commonProcedures := [] }) := by
  refine ⟨?_, ?_, ?_, ?_⟩
  · simp [generateMonthlyReport, List.countP_eq_length_filter]
  · simp [generateMonthlyReport, foldl_revenue]
  · simp only [generateMonthlyReport]
    exact length_eraseDups _
  · intro ha hr
    have hA : c.appointments.filter (fun a => inMonth lib a.date month year) = [] := by
      rw [List.filter_eq_nil_iff]
      intro a hmem
      simp [ha a hmem]
    have hR : c.financialRecords.filter (fun r => inMonth lib r.date month year) = [] := by
      rw [List.filter_eq_nil_iff]
      intro r hmem
      simp [hr r hmem]
    simp only [generateMonthlyReport, foldl_revenue, hA, hR]
    simp [getCommonItems, countItems_nil, List.eraseDups, List.eraseDups.loop]

/-! ## Keys of a plain object -/

namespace JSObj

variable {α : Type}

theorem getProp_eq_none_iff (o : JSObj α) (k : String) :
    getProp o k = none ↔ k ∉ o.map Prod.fst := by
  induction o with
  | nil => simp [getProp]
  | cons p o ih =>
    obtain ⟨k0, v0⟩ := p
    by_cases h : k0 = k
    · simp [getProp, h]
    · have h' : ¬ k = k0 := fun hh => h hh.symm
      simp [getProp, h, h', ih]

theorem mem_of_getProp {o : JSObj α} {k : String} {v : α} (h : getProp o k = some v) :
    (k, v) ∈ o := by
  induction o with
  | nil => simp [getProp] at h
  | cons p o ih =>
    obtain ⟨k0, v0⟩ := p
    by_cases h0 : k0 = k
    · simp [getProp, h0] at h
      simp [h0, h]
    · simp [getProp, h0] at h
      exact List.mem_cons_of_mem _ (ih h)

theorem getProp_of_mem {o : JSObj α} {k : String} {v : α} (hnd : (o.map Prod.fst).Nodup)
    (h : (k, v) ∈ o) : getProp o k = some v := by
  induction o with
  | nil => simp at h
  | cons p o ih =>
    obtain ⟨k0, v0⟩ := p
    simp only [List.map_cons, List.nodup_cons] at hnd
    rcases List.mem_cons.mp h with heq | hmem
    · cases heq
      simp [getProp]
    · have hk : k ∈ o.map Prod.fst := List.mem_map_of_mem Prod.fst hmem
      have h0 : ¬ k0 = k := by
        intro hh
        exact hnd.1 (hh ▸ hk)
      simp [getProp, h0, ih hnd.2 hmem]

theorem keys_replaceProp (o : JSObj α) (k : String) (v : α) :
    (replaceProp o k v).map Prod.fst = o.map Prod.fst := by
  induction o with
  | nil => rfl
  | cons p o ih =>
    obtain ⟨k0, v0⟩ := p
    by_cases h0 : k0 = k <;> simp [replaceProp, h0, ih]

theorem keys_insertIndex_perm (o : JSObj α) (n : Nat) (k : String) (v : α) :
    ((insertIndex n k v o).map Prod.fst).Perm (k :: o.map Prod.fst) := by
  induction o with
  | nil => simp [insertIndex]
  | cons p o ih =>
    obtain ⟨k0, v0⟩ := p
    simp only [insertIndex]
    split
    · split
      · simp
      · simp only [List.map_cons]
        exact (List.Perm.cons k0 ih).trans (List.Perm.swap k k0 _)
    · simp

/-- Writing a key keeps the keys distinct. -/
theorem nodup_keys_setProp (o : JSObj α) (k : String) (v : α)
    (h : (o.map Prod.fst).Nodup) : ((setProp o k v).map Prod.fst).Nodup := by
  unfold setProp
  cases hg : getProp o k with
  | some w => simpa [keys_replaceProp] using h
  | none =>
    have hk : k ∉ o.map Prod.fst := (getProp_eq_none_iff o k).mp hg
    cases hi : arrayIndex k with
    | some n =>
      exact (keys_insertIndex_perm o n k v).nodup_iff.mpr (List.nodup_cons.mpr ⟨hk, h⟩)
    | none =>
      simp only [List.map_append, List.map_cons, List.map_nil]
      exact List.Nodup.append h (List.nodup_singleton k) (by simpa using hk)

end JSObj

/-! ## Array-index keys -/

theorem isDigit_bounds (ch : Char) (h : ch.isDigit = true) :
    48 ≤ ch.toNat ∧ ch.toNat ≤ 57 := by
  simp only [Char.isDigit, Bool.and_eq_true, decide_eq_true_eq] at h
  obtain ⟨h1, h2⟩ := h
  have h1' : (48 : UInt32).toNat ≤ ch.val.toNat := h1
  have h2' : ch.val.toNat ≤ (57 : UInt32).toNat := h2
  exact ⟨h1', h2'⟩

theorem char_eq_of_toNat (a b : Char) (h : a.toNat = b.toNat) : a = b :=
  Char.ext (UInt32.ext h)

/-- The value read from a digit string lies between the accumulator shifted by the number of
digits and the next such multiple. -/
theorem digitsValue_bounds (cs : List Char) :
    ∀ acc v, digitsValue cs acc = some v →
      acc * 10 ^ cs.length ≤ v ∧ v < (acc + 1) * 10 ^ cs.length := by
  induction cs with
  | nil =>
    intro acc v h
    simp only [digitsValue, Option.some.injEq] at h
    subst h
    simp
  | cons ch cs ih =>
    intro acc v h
    by_cases hd : ch.isDigit = true
    · simp only [digitsValue, hd, if_true] at h
      obtain ⟨hlo, hhi⟩ := ih _ _ h
      obtain ⟨b1, b2⟩ := isDigit_bounds ch hd
      have hd9 : ch.toNat - 48 ≤ 9 := by omega
      simp only [List.length_cons, pow_succ]
      constructor
      · calc acc * (10 ^ cs.length * 10) = (acc * 10) * 10 ^ cs.length := by ring
          _ ≤ (acc * 10 + (ch.toNat - 48)) * 10 ^ cs.length :=
            Nat.mul_le_mul_right _ (Nat.le_add_right _ _)
          _ ≤ v := hlo
      · calc v < (acc * 10 + (ch.toNat - 48) + 1) * 10 ^ cs.length := hhi
          _ ≤ (acc * 10 + 10) * 10 ^ cs.length := Nat.mul_le_mul_right _ (by omega)
          _ = (acc + 1) * (10 ^ cs.length * 10) := by ring
    · simp [digitsValue, hd] at h

/-- Two digit strings of one length with the same value are the same string. -/
theorem digitsValue_inj_of_length (cs1 : List Char) :
    ∀ (cs2 : List Char) (a1 a2 v : Nat), cs1.length = cs2.length →
      digitsValue cs1 a1 = some v → digitsValue cs2 a2 = some v → a1 = a2 ∧ cs1 = cs2 := by
  induction cs1 with
  | nil =>
    intro cs2 a1 a2 v hlen h1 h2
    cases cs2 with
    | nil =>
      simp only [digitsValue, Option.some.injEq] at h1 h2
      exact ⟨h1.trans h2.symm, rfl⟩
    | cons c cs => simp at hlen
  | cons c1 cs1 ih =>
    intro cs2 a1 a2 v hlen h1 h2
    cases cs2 with
    | nil => simp at hlen
    | cons c2 cs2 =>
      by_cases hd1 : c1.isDigit = true
      · by_cases hd2 : c2.isDigit = true
        · simp only [digitsValue, hd1, if_true] at h1
          simp only [digitsValue, hd2, if_true] at h2
          have hlen' : cs1.length = cs2.length := by simpa using hlen
          obtain ⟨hacc, hcs⟩ := ih cs2 _ _ v hlen' h1 h2
          obtain ⟨b1, b2⟩ := isDigit_bounds c1 hd1
          obtain ⟨b3, b4⟩ := isDigit_bounds c2 hd2
          have hc : c1 = c2 := char_eq_of_toNat c1 c2 (by omega)
          exact ⟨by omega, by rw [hc, hcs]⟩
        · simp [digitsValue, hd2] at h2
      · simp [digitsValue, hd1] at h1

/-- What `arrayIndex k = some n` says of the characters of `k`. -/
theorem arrayIndex_some {k : String} {n : Nat} (h : arrayIndex k = some n) :
    ∃ ch cs, k.data = ch :: cs ∧ ¬ (ch = '0' ∧ cs ≠ []) ∧
      digitsValue (ch :: cs) 0 = some n := by
  unfold arrayIndex at h
  cases hk : k.data with
  | nil => simp [hk] at h
  | cons ch cs =>
    simp only [hk] at h
    by_cases hz : ch = '0' ∧ cs ≠ []
    · simp [hz] at h
    · simp only [hz, if_false] at h
      cases hv : digitsValue (ch :: cs) 0 with
      | none => simp [hv] at h
      | some m =>
        simp only [hv] at h
        by_cases hm : m < 4294967295
        · simp only [hm, if_true, Option.some.injEq] at h
          exact ⟨ch, cs, rfl, hz, by rw [← h]; exact hv⟩
        · simp [hm] at h

/-- A digit string without leading zero is at least `10 ^ (length - 1)`. -/
theorem digitsValue_lower (ch : Char) (cs : List Char) (n : Nat)
    (hz : ¬ (ch = '0' ∧ cs ≠ [])) (hne : cs ≠ [])
    (h : digitsValue (ch :: cs) 0 = some n) : 10 ^ cs.length ≤ n := by
  by_cases hd : ch.isDigit = true
  · simp only [digitsValue, hd, if_true] at h
    obtain ⟨hlo, _⟩ := digitsValue_bounds cs _ _ h
    obtain ⟨b1, b2⟩ := isDigit_bounds ch hd
    have hch : ch ≠ '0' := fun hc => hz ⟨hc, hne⟩
    have h48 : ch.toNat ≠ 48 := by
      intro h48
      exact hch (char_eq_of_toNat ch '0' (by simpa using h48))
    have h1 : 1 ≤ 0 * 10 + (ch.toNat - 48) := by omega
    calc 10 ^ cs.length = 1 * 10 ^ cs.length := by ring
      _ ≤ (0 * 10 + (ch.toNat - 48)) * 10 ^ cs.length := Nat.mul_le_mul_right _ h1
      _ ≤ n := hlo
  · simp [digitsValue, hd] at h

/-- Different keys denote different array indices. -/
theorem arrayIndex_inj {a b : String} {n : Nat} (ha : arrayIndex a = some n)
    (hb : arrayIndex b = some n) : a = b := by
  obtain ⟨c1, cs1, hd1, hz1, hv1⟩ := arrayIndex_some ha
  obtain ⟨c2, cs2, hd2, hz2, hv2⟩ := arrayIndex_some hb
  have hlen : cs1.length = cs2.length := by
    rcases Nat.lt_trichotomy cs1.length cs2.length with hlt | heq | hgt
    · exfalso
      have hne : cs2 ≠ [] := by
        intro h0
        simp [h0] at hlt
      have h2 := digitsValue_lower c2 cs2 n hz2 hne hv2
      have h1 := (digitsValue_bounds (c1 :: cs1) 0 n hv1).2
      simp only [List.length_cons, zero_add, one_mul] at h1
      have : 10 ^ (cs1.length + 1) ≤ 10 ^ cs2.length :=
        Nat.pow_le_pow_right (by norm_num) hlt
      omega
    · exact heq
    · exfalso
      have hne : cs1 ≠ [] := by
        intro h0
        simp [h0] at hgt
      have h1 := digitsValue_lower c1 cs1 n hz1 hne hv1
      have h2 := (digitsValue_bounds (c2 :: cs2) 0 n hv2).2
      simp only [List.length_cons, zero_add, one_mul] at h2
      have : 10 ^ (cs2.length + 1) ≤ 10 ^ cs1.length :=
        Nat.pow_le_pow_right (by norm_num) hgt
      omega
  have heq := (digitsValue_inj_of_length (c1 :: cs1) (c2 :: cs2) 0 0 n (by simp [hlen])
    hv1 hv2).2
  exact String.ext (by rw [hd1, hd2, heq])

/-! ## The frequency table of `getCommonItems` -/

theorem keyBefore_append {l : List String} (x : String) {a b : String} (ha : a ∈ l)
    (hb : b ∈ l) (h : keyBefore l a b) : keyBefore (l ++ [x]) a b := by
  unfold keyBefore at h ⊢
  cases hia : arrayIndex a <;> cases hib : arrayIndex b <;> simp only [hia, hib] at h ⊢
  · rw [List.indexOf_append_of_mem ha, List.indexOf_append_of_mem hb]
    exact h
  · exact h

theorem pairwise_keys_insertIndex (L : List String) (n : Nat) (k : String) (v : Nat)
    (hk : arrayIndex k = some n) :
    ∀ o : JSObj Nat, (o.map Prod.fst).Pairwise (keyBefore L) → k ∉ o.map Prod.fst →
      ((JSObj.insertIndex n k v o).map Prod.fst).Pairwise (keyBefore L) := by
  intro o
  induction o with
  | nil => intro _ _; simp [JSObj.insertIndex]
  | cons p o ih =>
    obtain ⟨k0, v0⟩ := p
    intro hpw hnot
    simp only [List.map_cons, List.pairwise_cons] at hpw
    obtain ⟨hhead, htail⟩ := hpw
    have hk0 : k ≠ k0 := by
      intro h
      exact hnot (by simp [h])
    have hnot' : k ∉ o.map Prod.fst := by
      intro h
      exact hnot (by simp only [List.map_cons]; exact List.mem_cons_of_mem _ h)
    simp only [JSObj.insertIndex]
    cases hi0 : arrayIndex k0 with
    | some m =>
      simp only []
      by_cases hnm : n < m
      · simp only [hnm, if_true, List.map_cons, List.pairwise_cons]
        refine ⟨?_, hhead, htail⟩
        intro y hy
        rcases List.mem_cons.mp hy with rfl | hy
        · simp [keyBefore, hk, hi0, hnm]
        · have hy0 := hhead y hy
          unfold keyBefore at hy0 ⊢
          cases hiy : arrayIndex y with
          | some m' =>
            simp only [hi0, hiy] at hy0
            simp only [hk, hiy]
            omega
          | none => simp [hk]
      · simp only [hnm, if_false, List.map_cons, List.pairwise_cons]
        refine ⟨?_, ih htail hnot'⟩
        intro y hy
        have hy' := (JSObj.keys_insertIndex_perm o n k v).mem_iff.mp hy
        rcases List.mem_cons.mp hy' with rfl | hy'
        · have hne : m ≠ n := by
            intro hmn
            exact hk0 (arrayIndex_inj hk (hmn ▸ hi0))
          simp only [keyBefore, hi0, hk]
          omega
        · exact hhead y hy'
    | none =>
      simp only [List.map_cons, List.pairwise_cons]
      refine ⟨?_, hhead, htail⟩
      intro y hy
      rcases List.mem_cons.mp hy with rfl | hy
      · simp [keyBefore, hk, hi0]
      · have hy0 := hhead y hy
        unfold keyBefore at hy0 ⊢
        cases hiy : arrayIndex y with
        | some m' => simp [hi0, hiy] at hy0
        | none => simp [hk]

/-- The table of numbers after reading `items`: its keys are distinct and in key order, and it
holds for each name of the input its number of occurrences. -/
theorem numberTable_spec (items : List String) :
    ((numberTable items).map Prod.fst).Nodup ∧
      (∀ k, (numberTable items).getProp k =
        if k ∈ items then some (items.count k) else none) ∧
      ((numberTable items).map Prod.fst).Pairwise (keyBefore items) := by
  induction items using List.reverseRecOn with
  | nil => simp [numberTable, JSObj.getProp]
  | append_singleton l x ih =>
    obtain ⟨hnd, hget, hpw⟩ := ih
    have hstep : numberTable (l ++ [x]) =
        (numberTable l).setProp x
          ((match (numberTable l).getProp x with
            | some n => n
            | none => 0) + 1) := by
      simp [numberTable, List.foldl_append]
    have hval : (match (numberTable l).getProp x with
        | some n => n
        | none => 0) = l.count x := by
      rw [hget x]
      by_cases hx : x ∈ l
      · simp [hx]
      · simp [hx, List.count_eq_zero_of_not_mem hx]
    rw [hstep, hval]
    have hsub : ∀ a ∈ (numberTable l).map Prod.fst, a ∈ l := by
      intro a ha
      by_contra hal
      have := hget a
      simp only [hal, if_false] at this
      exact ((JSObj.getProp_eq_none_iff _ _).mp this) ha
    have hpw' : ((numberTable l).map Prod.fst).Pairwise (keyBefore (l ++ [x])) :=
      hpw.imp_of_mem (fun {a b} ha hb h => keyBefore_append x (hsub a ha) (hsub b hb) h)
    refine ⟨JSObj.nodup_keys_setProp _ _ _ hnd, ?_, ?_⟩
    · intro k
      rw [JSObj.getProp_setProp, hget k]
      by_cases hk : x = k
      · subst hk
        simp [List.count_append]
      · have hk' : ¬ k = x := fun h => hk h.symm
        have hc : List.count k [x] = 0 := by
          rw [List.count_eq_zero]
          simpa using hk'
        simp [hk, hk', List.count_append, hc]
    · unfold JSObj.setProp
      cases hg : (numberTable l).getProp x with
      | some w => simpa [JSObj.keys_replaceProp] using hpw'
      | none =>
        have hxk : x ∉ (numberTable l).map Prod.fst := (JSObj.getProp_eq_none_iff _ _).mp hg
        have hxl : x ∉ l := by
          intro hx
          have := hget x
          simp [hx, hg] at this
        cases hi : arrayIndex x with
        | some n => exact pairwise_keys_insertIndex (l ++ [x]) n x _ hi _ hpw' hxk
        | none =>
          simp only [List.map_append, List.map_cons, List.map_nil, List.pairwise_append,
            List.pairwise_cons, List.mem_singleton]
          refine ⟨hpw', by simp, ?_⟩
          intro a ha b hb
          subst hb
          have hal : a ∈ l := hsub a ha
          unfold keyBefore
          cases hia : arrayIndex a with
          | some m => simp [hi]
          | none =>
            simp only [hi]
            rw [List.indexOf_append_of_mem hal, List.indexOf_append_of_not_mem hxl]
            have := List.indexOf_lt_length.mpr hal
            simp
            omega

/-! ## Sorting the table -/

theorem pairwise_ties_orderedInsert (P : String × Nat → String × Nat → Prop)
    (x : String × Nat) :
    ∀ S : List (String × Nat), S.Pairwise (fun a b => a.2 = b.2 → P a b) →
      (∀ y ∈ S, P x y) →
      (S.orderedInsert (fun a b => b.2 ≤ a.2) x).Pairwise (fun a b => a.2 = b.2 → P a b) := by
  intro S
  induction S with
  | nil => intro _ _; simp
  | cons b S ih =>
    intro hpw hx
    obtain ⟨hb, hS⟩ := List.pairwise_cons.mp hpw
    by_cases hr : b.2 ≤ x.2
    · simp only [List.orderedInsert, hr, if_true]
      exact List.pairwise_cons.mpr ⟨fun y hy _ => hx y hy, hpw⟩
    · simp only [List.orderedInsert, hr, if_false]
      refine List.pairwise_cons.mpr ⟨?_, ih hS (fun y hy => hx y (List.mem_cons_of_mem _ hy))⟩
      intro y hy
      rcases (List.mem_orderedInsert (fun a b : String × Nat => b.2 ≤ a.2)).mp hy with rfl | hy
      · intro heq
        omega
      · exact hb y hy

/-- The sort is stable: entries of equal count keep the order they had in the table. -/
theorem pairwise_ties_insertionSort (P : String × Nat → String × Nat → Prop) :
    ∀ l : List (String × Nat), l.Pairwise P →
      (l.insertionSort (fun a b => b.2 ≤ a.2)).Pairwise (fun a b => a.2 = b.2 → P a b) := by
  intro l
  induction l with
  | nil => intro _; simp
  | cons x l ih =>
    intro hpw
    obtain ⟨hx, hl⟩ := List.pairwise_cons.mp hpw
    simp only [List.insertionSort]
    exact pairwise_ties_orderedInsert P x _ (ih hl)
      (fun y hy => hx y ((List.mem_insertionSort _).mp hy))

theorem sorted_by_count (l : List (String × Nat)) :
    (l.insertionSort (fun a b => b.2 ≤ a.2)).Pairwise (fun a b => b.2 ≤ a.2) := by
  haveI : IsTotal (String × Nat) (fun a b => b.2 ≤ a.2) := ⟨fun a b => le_total b.2 a.2⟩
  haveI : IsTrans (String × Nat) (fun a b => b.2 ≤ a.2) :=
    ⟨fun a b c hab hbc => le_trans hbc hab⟩
  exact List.sorted_insertionSort (fun a b : String × Nat => b.2 ≤ a.2) l

/-- The three first entries of the sorted table of numbers, with the order of the table's keys
as tie-break. -/
theorem numberTopThree_spec (items : List String) :
    NumberTopThreeSpec (keyBefore items) items (numberTopThree items) := by
  obtain ⟨hnd, hget, hpw⟩ := numberTable_spec items
  have hperm := List.perm_insertionSort (fun a b : String × Nat => b.2 ≤ a.2) (numberTable items)
  have hsorted := sorted_by_count (numberTable items)
  have htake : (numberTopThree items).Sublist
      ((numberTable items).insertionSort (fun a b => b.2 ≤ a.2)) := List.take_sublist _ _
  have hmemcm : ∀ e ∈ numberTopThree items, e ∈ numberTable items := fun e he =>
    hperm.mem_iff.mp (htake.subset he)
  have hkeys : ((numberTable items).map Prod.fst).toFinset = items.toFinset := by
    ext k
    simp only [List.mem_toFinset]
    constructor
    · intro hk
      by_contra hnot
      have := hget k
      simp only [hnot, if_false] at this
      exact ((JSObj.getProp_eq_none_iff _ _).mp this) hk
    · intro hk
      by_contra hnot
      have h1 := (JSObj.getProp_eq_none_iff _ _).mpr hnot
      have h2 := hget k
      simp [hk, h1] at h2
  have hlen : (numberTable items).length = items.toFinset.card := by
    rw [← hkeys, List.toFinset_card_of_nodup hnd, List.length_map]
  refine ⟨?_, ?_, ?_, ?_, ?_, ?_⟩
  · simp only [numberTopThree, List.length_take, List.length_insertionSort, hlen]
  · exact ((htake.map Prod.fst).nodup ((hperm.map Prod.fst).nodup_iff.mpr hnd))
  · intro e he
    have h1 := JSObj.getProp_of_mem hnd (hmemcm e he)
    have h2 := hget e.1
    rw [h1] at h2
    by_cases hmem : e.1 ∈ items
    · simp only [hmem, if_true, Option.some.injEq] at h2
      exact ⟨hmem, h2⟩
    · simp [hmem] at h2
  · exact hsorted.sublist htake
  · intro name hname hout e he
    have h0 : (numberTable items).getProp name = some (items.count name) := by
      rw [hget name]
      simp [hname]
    have h1 : (name, items.count name) ∈
        (numberTable items).insertionSort (fun a b => b.2 ≤ a.2) :=
      hperm.mem_iff.mpr (JSObj.mem_of_getProp h0)
    rw [← List.take_append_drop 3 ((numberTable items).insertionSort (fun a b => b.2 ≤ a.2))]
      at h1 hsorted
    rcases List.mem_append.mp h1 with h1 | h1
    · exact absurd (List.mem_map_of_mem Prod.fst h1) hout
    · exact (List.pairwise_append.mp hsorted).2.2 e he _ h1
  · have hP : (numberTable items).Pairwise (fun a b => keyBefore items a.1 b.1) :=
      List.pairwise_map.mp hpw
    exact (pairwise_ties_insertionSort _ _ hP).sublist htake

/-! ## The table when no name is inherited -/

namespace JSObj

variable {α β : Type}

theorem getProp_map (f : α → β) (o : JSObj α) (k : String) :
    getProp (o.map (fun p => (p.1, f p.2))) k = (getProp o k).map f := by
  induction o with
  | nil => rfl
  | cons p o ih =>
    obtain ⟨k', v⟩ := p
    by_cases h : k' = k
    · simp [getProp, h]
    · simp [getProp, h, ih]

theorem replaceProp_map (f : α → β) (o : JSObj α) (k : String) (v : α) :
    replaceProp (o.map (fun p => (p.1, f p.2))) k (f v) =
      (replaceProp o k v).map (fun p => (p.1, f p.2)) := by
  induction o with
  | nil => rfl
  | cons p o ih =>
    obtain ⟨k', v'⟩ := p
    by_cases h : k' = k
    · simp [replaceProp, h]
    · simp [replaceProp, h, ih]

theorem insertIndex_map (f : α → β) (n : Nat) (k : String) (v : α) (o : JSObj α) :
    insertIndex n k (f v) (o.map (fun p => (p.1, f p.2))) =
      (insertIndex n k v o).map (fun p => (p.1, f p.2)) := by
  induction o with
  | nil => rfl
  | cons p o ih =>
    obtain ⟨k', v'⟩ := p
    simp only [List.map_cons, insertIndex]
    cases hi : arrayIndex k' with
    | none => simp
    | some m =>
      by_cases hnm : n < m
      · simp [hnm]
      · simp [hnm, ih]

theorem setProp_map (f : α → β) (o : JSObj α) (k : String) (v : α) :
    setProp (o.map (fun p => (p.1, f p.2))) k (f v) =
      (setProp o k v).map (fun p => (p.1, f p.2)) := by
  unfold setProp
  rw [getProp_map]
  cases h : getProp o k with
  | some u => simp [replaceProp_map]
  | none =>
    cases hi : arrayIndex k with
    | some n => simp [insertIndex_map]
    | none => simp

end JSObj

theorem asCount_eq : asCount = fun p : String × Nat => (p.1, CountVal.num p.2) := rfl

/-- When no item is an inherited name, the frequency table is the table of numbers. -/
theorem countItems_eq_numberTable (items : List String)
    (hord : ∀ x ∈ items, x ∉ inheritedNames) :
    countItems items = (numberTable items).map asCount := by
  induction items using List.reverseRecOn with
  | nil => rfl
  | append_singleton l x ih =>
    have hl := ih (fun y hy => hord y (List.mem_append_left _ hy))
    have hx : x ∉ inheritedNames := hord x (by simp)
    have hstep : countItems (l ++ [x]) =
        (countItems l).assign x (counted (countItems l) x) := by
      simp [countItems, List.foldl_append]
    have hstep' : numberTable (l ++ [x]) =
        (numberTable l).setProp x
          ((match (numberTable l).getProp x with
            | some n => n
            | none => 0) + 1) := by
      simp [numberTable, List.foldl_append]
    have hcounted : counted (countItems l) x =
        CountVal.num ((match (numberTable l).getProp x with
            | some n => n
            | none => 0) + 1) := by
      unfold counted
      have hg : (countItems l).getProp x = ((numberTable l).getProp x).map CountVal.num := by
        rw [hl, asCount_eq, JSObj.getProp_map]
      cases hn : (numberTable l).getProp x with
      | some n =>
        rw [hn] at hg
        rw [JSObj.read_own hg]
      | none =>
        rw [hn] at hg
        rw [JSObj.read_undefined hg hx]
    rw [hstep, hstep', JSObj.assign_of_ordinary _ _ hx, hcounted, hl, asCount_eq,
      JSObj.setProp_map]

/-- When no item is an inherited name, `getCommonItems` returns the three first entries of the
sorted table of numbers. -/
theorem getCommonItems_eq_numberTopThree (items : List String)
    (hord : ∀ x ∈ items, x ∉ inheritedNames) :
    getCommonItems items = (numberTopThree items).map asCount := by
  unfold getCommonItems numberTopThree
  rw [countItems_eq_numberTable items hord, List.map_take]
  congr 1
  symm
  apply List.map_insertionSort
  intro a _ b _
  simp [asCount, notAfter]

/-- What `getCommonItems` returns when no item is an inherited name, with the order of the
table's keys as tie-break. -/
theorem getCommonItems_spec (items : List String) (hord : ∀ x ∈ items, x ∉ inheritedNames) :
    CommonItemsSpec (keyBefore items) items (getCommonItems items) := by
  have h := numberTopThree_spec items
  have hcount : ∀ e ∈ numberTopThree items, e.2 = items.count e.1 := fun e he =>
    (h.count_exact e he).2
  rw [getCommonItems_eq_numberTopThree items hord]
  refine ⟨?_, ?_, ?_, ?_, ?_, ?_⟩
  · rw [List.length_map]
    exact h.length_eq
  · have e : ((numberTopThree items).map asCount).map Prod.fst =
        (numberTopThree items).map Prod.fst := by
      simp [asCount]
    rw [e]
    exact h.names_nodup
  · intro e he
    obtain ⟨p, hp, rfl⟩ := List.mem_map.mp he
    exact ⟨(h.count_exact p hp).1, by simp [asCount, hcount p hp]⟩
  · rw [List.pairwise_map]
    refine h.sorted.imp_of_mem ?_
    intro a b ha hb hab
    simpa [asCount, ← hcount a ha, ← hcount b hb] using hab
  · intro name hname hout e he
    obtain ⟨p, hp, rfl⟩ := List.mem_map.mp he
    have hout' : name ∉ (numberTopThree items).map Prod.fst := by
      intro hin
      apply hout
      simpa [asCount] using hin
    have := h.left_out name hname hout' p hp
    simpa [asCount, ← hcount p hp] using this
  · rw [List.pairwise_map]
    refine h.ties.imp_of_mem ?_
    intro a b ha hb hab heq
    apply hab
    rw [hcount a ha, hcount b hb]
    simpa [asCount] using heq

/-- C9, where the claim fails.  On the input `["10", "2"]` both names occur once and "10"
appears first, but `getCommonItems` returns "2" before "10".  On an input with the inherited
name `__proto__` the assignment to the table is ignored and the name is not counted at all; the
inherited name `constructor` gets a string in place of its number of occurrences. -/
theorem getCommonItems_first_seen_counterexample :
    getCommonItems ["10", "2"] = [("2", .num 1), ("10", .num 1)] ∧
      ¬ (getCommonItems ["10", "2"]).Pairwise
          (fun a b => a.2 = b.2 → firstSeenBefore ["10", "2"] a.1 b.1) ∧
      ¬ CommonItemsSpec (firstSeenBefore ["10", "2"]) ["10", "2"]
        (getCommonItems ["10", "2"]) ∧
      getCommonItems ["__proto__", "checkup", "__proto__"] = [("checkup", .num 1)] ∧
      getCommonItems ["constructor"] = [("constructor", .text "constructor" 1)] ∧
      ¬ CommonItemsSpec (keyBefore ["__proto__", "checkup", "__proto__"])
        ["__proto__", "checkup", "__proto__"]
        (getCommonItems ["__proto__", "checkup", "__proto__"]) := by
  have hval : getCommonItems ["10", "2"] = [("2", .num 1), ("10", .num 1)] := by decide
  have hties : ¬ (getCommonItems ["10", "2"]).Pairwise
      (fun a b => a.2 = b.2 → firstSeenBefore ["10", "2"] a.1 b.1) := by
    rw [hval]
    simp [firstSeenBefore]
  have hproto : getCommonItems ["__proto__", "checkup", "__proto__"] = [("checkup", .num 1)] := by
    decide
  refine ⟨hval, hties, fun h => hties ?_, hproto, by decide, fun h => ?_⟩
  · refine h.ties.imp_of_mem ?_
    intro a b ha hb hab heq
    apply hab
    have h1 := (h.count_exact a ha).2
    have h2 := (h.count_exact b hb).2
    rw [h1, h2] at heq
    injection heq
  · have hlen := h.length_eq
    rw [hproto] at hlen
    revert hlen
    decide

/-- C9, amended: for every list of procedure names none of which is an inherited name,
`getCommonItems` returns one entry per distinct name, up to three, each with its exact number of
occurrences, in non-increasing order of count, no name left out occurring more often than a
returned one; among names of equal count the names that are array indices (decimal forms of
0 .. 2^32 - 2) come first, by ascending index, and the other names follow in order of first
appearance.  When no name is an array index, ties are therefore broken by first appearance. -/
theorem getCommonItems_top_three (items : List String)
    (hord : ∀ x ∈ items, x ∉ inheritedNames) :
    CommonItemsSpec (keyBefore items) items (getCommonItems items) ∧
      ((∀ x ∈ items, arrayIndex x = none) →
        CommonItemsSpec (firstSeenBefore items) items (getCommonItems items)) := by
  have h := getCommonItems_spec items hord
  refine ⟨h, fun hno => ?_⟩
  refine ⟨h.length_eq, h.names_nodup, h.count_exact, h.sorted, h.left_out, ?_⟩
  refine h.ties.imp_of_mem ?_
  intro a b ha hb hab heq
  have hka := hab heq
  have h1 := hno a.1 (h.count_exact a ha).1
  have h2 := hno b.1 (h.count_exact b hb).1
  simpa [keyBefore, h1, h2, firstSeenBefore] using hka

/-- C9 at a concrete input: five procedures, two of them named like numbers. -/
theorem getCommonItems_top_three_witness :
    getCommonItems ["checkup", "10", "vaccine", "checkup", "2"] =
        [("checkup", .num 2), ("2", .num 1), ("10", .num 1)] ∧
      CommonItemsSpec (keyBefore ["checkup", "10", "vaccine", "checkup", "2"])
        ["checkup", "10", "vaccine", "checkup", "2"]
        (getCommonItems ["checkup", "10", "vaccine", "checkup", "2"]) :=
  ⟨by decide,
    (getCommonItems_top_three ["checkup", "10", "vaccine", "checkup", "2"] (by decide)).1⟩

/-! ## Open cases along sequences of calls -/

theorem mem_modifyFirst {α : Type} (p : α → Bool) (f : α → α) (l : List α) (x : α)
    (h : x ∈ modifyFirst p f l) : x ∈ l ∨ ∃ a, l.find? p = some a ∧ x = f a := by
  induction l with
  | nil => simp [modifyFirst] at h
  | cons y ys ih =>
    by_cases hy : p y = true
    · simp only [modifyFirst, hy, if_true, List.mem_cons] at h
      rcases h with h | h
      · exact Or.inr ⟨y, by simp [List.find?, hy], h⟩
      · exact Or.inl (List.mem_cons_of_mem _ h)
    · have hy' : p y = false := by simpa using hy
      simp only [modifyFirst, hy', Bool.false_eq_true, if_false, List.mem_cons] at h
      rcases h with h | h
      · exact Or.inl (by rw [h]; exact List.mem_cons_self _ _)
      · rcases ih h with h' | ⟨a, ha, hx⟩
        · exact Or.inl (List.mem_cons_of_mem _ h')
        · exact Or.inr ⟨a, by simp [List.find?, hy, ha], hx⟩

theorem openCases_eq_zero (a : Animal) (h : hasOpenCase a = false) : openCases a = 0 := by
  unfold hasOpenCase at h
  unfold openCases
  rw [List.length_eq_zero, List.filter_eq_nil_iff]
  intro cr hcr
  have := List.any_eq_false.mp h cr hcr
  simpa using this

theorem openCases_push (a : Animal) (date : DateVal) (d : Diagnosis) :
    openCases { a with medicalHistory := a.medicalHistory ++ [newCase date d] } =
      openCases a + 1 := by
  simp [openCases, newCase, List.filter_append]

theorem length_filter_open_close (finalDiagnosis : String) (h : List CaseRecord) :
    ((modifyFirst (fun cr => !cr.discharged) (closeCase finalDiagnosis) h).filter
        (fun cr => !cr.discharged)).length ≤
      (h.filter (fun cr => !cr.discharged)).length := by
  induction h with
  | nil => simp [modifyFirst]
  | cons cr rest ih =>
    by_cases hd : cr.discharged = true
    · simp [modifyFirst, hd, List.filter_cons]
      simpa using ih
    · have hd' : cr.discharged = false := by simpa using hd
      simp [modifyFirst, hd', List.filter_cons, closeCase]

/-- The animals after `admitAnimal`, whether it returns or throws. -/
theorem animals_admitAnimal (c : Clinic) (now : Int) (id : String) (d : Diagnosis) :
    (admitAnimal c now id d).1.animals =
      match findAnimalById c id with
      | none => c.animals
      | some _ =>
        modifyFirst (fun x => x.id == id)
          (fun x => { x with medicalHistory :=
            x.medicalHistory ++ [newCase (.obj c.heapNext (some now)) d] }) c.animals := by
  unfold admitAnimal
  cases h : findAnimalById c id with
  | none => rfl
  | some a =>
    simp only []
    split <;> rename_i heq <;>
      · have := congrArg (fun r => r.1.animals) heq
        simp only [(frame_updateInventoryForTreatment _ _).1] at this
        exact this.symm

theorem atMostOneOpen_admitAnimal (c : Clinic) (now : Int) (id : String) (d : Diagnosis)
    (hinv : AtMostOneOpen c)
    (hg : ∀ a, findAnimalById c id = some a → hasOpenCase a = false) :
    AtMostOneOpen (admitAnimal c now id d).1 := by
  intro x hx
  rw [animals_admitAnimal] at hx
  cases h : findAnimalById c id with
  | none =>
    simp only [h] at hx
    exact hinv x hx
  | some a =>
    simp only [h] at hx
    rcases mem_modifyFirst _ _ _ _ hx with hmem | ⟨a', ha', hxa⟩
    · exact hinv x hmem
    · have haa : a' = a := by
        unfold findAnimalById at h
        rw [h] at ha'
        exact (Option.some.inj ha').symm
      subst haa
      rw [hxa, openCases_push, openCases_eq_zero a' (hg a' h)]

theorem atMostOneOpen_dischargeAnimal (c : Clinic) (now : Int) (id finalDiagnosis : String)
    (hinv : AtMostOneOpen c) : AtMostOneOpen (dischargeAnimal c now id finalDiagnosis).1 := by
  unfold dischargeAnimal
  cases h : findAnimalById c id with
  | none => exact hinv
  | some a =>
    simp only []
    cases hf : a.medicalHistory.find? (fun cr => !cr.discharged) with
    | none => exact hinv
    | some activeCase =>
      intro x hx
      simp only [processPayment] at hx
      rcases mem_modifyFirst _ _ _ _ hx with hmem | ⟨a', ha', hxa⟩
      · exact hinv x hmem
      · have hmem : a' ∈ c.animals := List.mem_of_find?_eq_some ha'
        rw [hxa]
        exact le_trans (length_filter_open_close finalDiagnosis a'.medicalHistory)
          (hinv a' hmem)

theorem animals_registerAnimal (c : Clinic) (rid name species : String) (age : Int)
    (owner : String) :
    (registerAnimal c rid name species age owner).1.animals =
      c.animals ++ [freshAnimal species (rid, name, age, owner)] :=
  (frame_updateSpeciesStats _ species).1

theorem atMostOneOpen_registerAnimal (c : Clinic) (rid name species : String) (age : Int)
    (owner : String) (hinv : AtMostOneOpen c) :
    AtMostOneOpen (registerAnimal c rid name species age owner).1 := by
  intro x hx
  rw [animals_registerAnimal] at hx
  rcases List.mem_append.mp hx with h | h
  · exact hinv x h
  · simp only [List.mem_singleton] at h
    subst h
    simp [openCases, freshAnimal]

/-- The collections `scheduleAppointment` does not touch. -/
theorem frame_scheduleAppointment (lib : DateLib) (fuel : Nat) :
    ∀ (c : Clinic) (g : Rng) (rid animalId : String) (date : DateVal) (procedure : String)
      (r : Clinic × Rng × Option String),
      scheduleAppointment lib fuel c g rid animalId date procedure = some r →
        r.1.animals = c.animals ∧ r.1.staff = c.staff ∧ r.1.inventory = c.inventory ∧
          r.1.financialRecords = c.financialRecords := by
  induction fuel with
  | zero =>
    intro c g rid animalId date procedure r h
    simp [scheduleAppointment] at h
  | succ fuel ih =>
    intro c g rid animalId date procedure r h
    unfold scheduleAppointment at h
    cases ha : findAnimalById c animalId with
    | none =>
      simp only [ha, Option.some.injEq] at h
      subst h
      exact ⟨rfl, rfl, rfl, rfl⟩
    | some a =>
      simp only [ha] at h
      cases hc : conflicting c date procedure c.appointments g with
      | mk b g1 =>
        cases b with
        | true =>
          simp only [hc] at h
          exact ih { c with heapNext := c.heapNext + 1 } _ _ _ _ _ _ h
        | false =>
          simp only [hc, Option.some.injEq] at h
          subst h
          exact ⟨rfl, rfl, rfl, rfl⟩

theorem fst_emergencyAdmit (c : Clinic) (rid : String) (now : Int)
    (name species condition : String) :
    (emergencyAdmit c rid now name species condition).1 =
      (admitAnimal (registerAnimal c rid name species 0 "Emergency Contact").1 now
        ("anim_" ++ rid)
        { condition := condition, species := species, emergency := some true }).1 := by
  unfold emergencyAdmit
  have hid : (registerAnimal c rid name species 0 "Emergency Contact").2 = "anim_" ++ rid := rfl
  simp only [hid]
  split <;> rename_i heq <;> rw [heq]

theorem atMostOneOpen_emergencyAdmit (c : Clinic) (rid : String) (now : Int)
    (name species condition : String) (hinv : AtMostOneOpen c)
    (hg : ∀ a, findAnimalById c ("anim_" ++ rid) = some a → hasOpenCase a = false) :
    AtMostOneOpen (emergencyAdmit c rid now name species condition).1 := by
  rw [fst_emergencyAdmit]
  apply atMostOneOpen_admitAnimal
  · exact atMostOneOpen_registerAnimal c rid name species 0 "Emergency Contact" hinv
  · intro a ha
    unfold findAnimalById at ha
    rw [animals_registerAnimal, List.find?_append] at ha
    cases hold : c.animals.find? (fun x => x.id == "anim_" ++ rid) with
    | some a' =>
      rw [hold] at ha
      simp only [Option.or, Option.some.injEq] at ha
      subst ha
      exact hg a' hold
    | none =>
      rw [hold] at ha
      simp only [Option.or] at ha
      have hmem := List.mem_of_find?_eq_some ha
      simp only [List.mem_singleton] at hmem
      subst hmem
      rfl

/-- One guarded call keeps the invariant. -/
theorem atMostOneOpen_apply (lib : DateLib) (c c' : Clinic) (op : Op)
    (hinv : AtMostOneOpen c) (hg : op.admitsNoOpenCase c = true)
    (hrun : op.apply lib c = some c') : AtMostOneOpen c' := by
  cases op with
  | registerAnimal rid name species age owner =>
    simp only [Op.apply, Option.some.injEq] at hrun
    subst hrun
    exact atMostOneOpen_registerAnimal c rid name species age owner hinv
  | admitAnimal now id diagnosis =>
    simp only [Op.apply, Option.some.injEq] at hrun
    subst hrun
    apply atMostOneOpen_admitAnimal c now id diagnosis hinv
    intro a ha
    simpa [Op.admitsNoOpenCase, ha] using hg
  | dischargeAnimal now id finalDiagnosis =>
    simp only [Op.apply, Option.some.injEq] at hrun
    subst hrun
    exact atMostOneOpen_dischargeAnimal c now id finalDiagnosis hinv
  | emergencyAdmit rid now name species condition =>
    simp only [Op.apply, Option.some.injEq] at hrun
    subst hrun
    apply atMostOneOpen_emergencyAdmit c rid now name species condition hinv
    intro a ha
    simpa [Op.admitsNoOpenCase, ha] using hg
  | scheduleAppointment fuel g rid animalId date procedure =>
    simp only [Op.apply, Option.map_eq_some'] at hrun
    obtain ⟨r, hr, hc⟩ := hrun
    have hfr := (frame_scheduleAppointment lib fuel c g rid animalId date procedure r hr).1
    subst hc
    intro a ha
    rw [hfr] at ha
    exact hinv a ha
  | addStaffMember rid name position qualifications =>
    simp only [Op.apply, Option.some.injEq] at hrun
    subst hrun
    exact hinv
  | restockInventory species item quantity =>
    simp only [Op.apply, Option.some.injEq] at hrun
    subst hrun
    intro a ha
    rw [(frame_restockInventory c species item quantity).1] at ha
    exact hinv a ha

theorem atMostOneOpen_runOps (lib : DateLib) (ops : List Op) :
    ∀ c c' : Clinic, AtMostOneOpen c → admissionsGuarded lib c ops = true →
      runOps lib c ops = some c' → AtMostOneOpen c' := by
  induction ops with
  | nil =>
    intro c c' hinv _ hrun
    simp only [runOps, Option.some.injEq] at hrun
    subst hrun
    exact hinv
  | cons op ops ih =>
    intro c c' hinv hg hrun
    simp only [admissionsGuarded, Bool.and_eq_true] at hg
    cases hop : op.apply lib c with
    | none => simp [runOps, hop] at hrun
    | some c1 =>
      simp only [runOps, hop] at hrun
      have hg2 := hg.2
      simp only [hop] at hg2
      exact ih c1 c' (atMostOneOpen_apply lib c c1 op hinv hg.1 hop) hg2 hrun

/-- C1, counterexample: from the empty clinic, registering one animal and admitting it twice
gives a state in which that animal has two cases with `discharged = false`. -/
theorem two_open_cases_counterexample :
    runOps utcDateLib Clinic.empty
        [.registerAnimal "k3x" "Fluffy" "cat" 3 "John Doe",
         .admitAnimal 1 "anim_k3x" ⟨"fever", "cat", none⟩,
         .admitAnimal 2 "anim_k3x" ⟨"injury", "cat", none⟩] =
      some
        { animals :=
            [⟨"anim_k3x", "Fluffy", "cat", 3, "John Doe",
              [newCase (.obj 0 (some 1)) ⟨"fever", "cat", none⟩,
               newCase (.obj 1 (some 2)) ⟨"injury", "cat", none⟩]⟩]
          appointments := [], staff := [], inventory := [("cat", ⟨1, 0, []⟩)],
          financialRecords := [], heapNext := 2 } ∧
      ¬ AtMostOneOpen
        { animals :=
            [⟨"anim_k3x", "Fluffy", "cat", 3, "John Doe",
              [newCase (.obj 0 (some 1)) ⟨"fever", "cat", none⟩,
               newCase (.obj 1 (some 2)) ⟨"injury", "cat", none⟩]⟩]
          appointments := [], staff := [], inventory := [("cat", ⟨1, 0, []⟩)],
          financialRecords := [], heapNext := 2 } := by
  refine ⟨by decide, fun h => ?_⟩
  have h1 := h _ (List.mem_cons_self _ _)
  revert h1
  decide

/-- C1, amended: in every state reached from the empty clinic by a finite sequence of calls of
the operations in which each admission (by `admitAnimal`, or inside `emergencyAdmit`) is of an
animal that has no case with `discharged = false` at that moment, every animal has at most one
case with `discharged = false`. -/
theorem at_most_one_open_case (lib : DateLib) (ops : List Op) (c : Clinic)
    (hguard : admissionsGuarded lib Clinic.empty ops = true)
    (hrun : runOps lib Clinic.empty ops = some c) : AtMostOneOpen c :=
  atMostOneOpen_runOps lib ops Clinic.empty c (fun a ha => by simp [Clinic.empty] at ha)
    hguard hrun

/-- C1, amended, at a concrete sequence: register, admit, discharge, admit again, then an
emergency admission and a restock. -/
theorem at_most_one_open_case_witness :
    ∃ c, runOps utcDateLib Clinic.empty
        [.registerAnimal "k3x" "Fluffy" "cat" 3 "John Doe",
         .admitAnimal 1 "anim_k3x" ⟨"fever", "cat", none⟩,
         .dischargeAnimal 2 "anim_k3x" "recovered",
         .admitAnimal 3 "anim_k3x" ⟨"injury", "cat", none⟩,
         .emergencyAdmit "p7q" 4 "Rex" "dog" "injury",
         .restockInventory "cat" "food" 5] = some c ∧
      c.animals.map (fun a => (a.id, a.medicalHistory.map (fun cr => cr.discharged))) =
        [("anim_k3x", [true, false]), ("anim_p7q", [false])] ∧
      AtMostOneOpen c :=
  ⟨_, rfl, by decide,
    at_most_one_open_case utcDateLib
      [.registerAnimal "k3x" "Fluffy" "cat" 3 "John Doe",
       .admitAnimal 1 "anim_k3x" ⟨"fever", "cat", none⟩,
       .dischargeAnimal 2 "anim_k3x" "recovered",
       .admitAnimal 3 "anim_k3x" ⟨"injury", "cat", none⟩,
       .emergencyAdmit "p7q" 4 "Rex" "dog" "injury",
       .restockInventory "cat" "food" 5] _ (by decide) rfl⟩

/-! ## Double booking -/

/-- C2, the code at the failing input.  The clinic has two animals and the two staff members of
the seed data, both qualified for "general".  Two checkups are requested for the same date
string.  In the second call the conflict check draws the nurse, who differs from the staff of
the stored appointment, so no conflict is seen; the draw for the stored appointment then gives
the vet again: both appointments are stored at the same date with the same `staffId`, and
nothing is moved by two hours.
Second part: with a single qualified member (surgery), three requests for one date string.  The
second is moved to a new `Date` two hours later; the third is moved to another new `Date` of
the same time value, which `===` tells apart from the stored one: two appointments of the same
staff member at the same instant. -/
theorem scheduleAppointment_double_booking :
    (runOps utcDateLib Clinic.empty
        [.registerAnimal "f1" "Fluffy" "cat" 3 "John Doe",
         .registerAnimal "r2" "Rex" "dog" 5 "Jane Smith",
         .addStaffMember "s1" "Dr. Smith" "vet" ["general", "surgical"],
         .addStaffMember "n2" "Nurse Johnson" "nurse" ["general"],
         .scheduleAppointment 1 (fun _ => 0) "a1" "anim_f1" (.str "2024-01-01") "checkup",
         .scheduleAppointment 1 (fun i => if i = 0 then 1 else 0) "a2" "anim_r2"
           (.str "2024-01-01") "checkup"]).map (fun c => c.appointments) =
      some
        [⟨"apt_a1", "anim_f1", .str "2024-01-01", "checkup", some "staff_s1", "scheduled"⟩,
         ⟨"apt_a2", "anim_r2", .str "2024-01-01", "checkup", some "staff_s1", "scheduled"⟩] ∧
    (runOps utcDateLib Clinic.empty
        [.registerAnimal "f1" "Fluffy" "cat" 3 "John Doe",
         .addStaffMember "s1" "Dr. Smith" "vet" ["general", "surgical"],
         .addStaffMember "n2" "Nurse Johnson" "nurse" ["general"],
         .scheduleAppointment 2 (fun _ => 0) "a1" "anim_f1" (.str "2024-01-01") "surgery",
         .scheduleAppointment 2 (fun _ => 0) "a2" "anim_f1" (.str "2024-01-01") "surgery",
         .scheduleAppointment 2 (fun _ => 0) "a3" "anim_f1" (.str "2024-01-01") "surgery"]).map
        (fun c => c.appointments) =
      some
        [⟨"apt_a1", "anim_f1", .str "2024-01-01", "surgery", some "staff_s1", "scheduled"⟩,
         ⟨"apt_a2", "anim_f1", .obj 0 (some 1704074400000), "surgery", some "staff_s1",
           "scheduled"⟩,
         ⟨"apt_a3", "anim_f1", .obj 1 (some 1704074400000), "surgery", some "staff_s1",
           "scheduled"⟩] := by
  constructor <;> decide

/-! ## Status of an animal -/

/-- C13: `getAnimalStatus` returns `null` exactly when no registered animal has the id;
otherwise it returns the name of the animal found and a status that is "hospitalized" if and
only if the animal's history contains a case with `discharged = false`, and "healthy" otherwise.
The function is embedded as a function of the state that returns no state: the source assigns
to nothing. -/
theorem getAnimalStatus_spec (lib : DateLib) (c : Clinic) (id : String) :
    (getAnimalStatus lib c id = none ↔ ∀ a ∈ c.animals, a.id ≠ id) ∧
      ∀ a, findAnimalById c id = some a →
        ∃ v, getAnimalStatus lib c id = some v ∧ v.name = a.name ∧
          (v.status = "hospitalized" ↔ ∃ cr ∈ a.medicalHistory, cr.discharged = false) ∧
          (v.status = "healthy" ↔ ¬ ∃ cr ∈ a.medicalHistory, cr.discharged = false) ∧
          v.lastProcedure = getLastProcedure lib c id := by
  constructor
  · cases h : findAnimalById c id with
    | none =>
      have hst : getAnimalStatus lib c id = none := by simp [getAnimalStatus, h]
      refine ⟨fun _ a ha => ?_, fun _ => hst⟩
      have := List.find?_eq_none.mp h a ha
      simpa using this
    | some a =>
      have hst : getAnimalStatus lib c id ≠ none := by simp [getAnimalStatus, h]
      refine ⟨fun h0 => absurd h0 hst, fun hall => ?_⟩
      exfalso
      have hid := List.find?_some h
      exact hall a (List.mem_of_find?_eq_some h) (by simpa using hid)
  · intro a ha
    have hopen : (a.medicalHistory.find? (fun cr => !cr.discharged)).isSome = true ↔
        ∃ cr ∈ a.medicalHistory, cr.discharged = false := by
      rw [List.find?_isSome]
      simp
    refine ⟨{ name := a.name
              status := if (a.medicalHistory.find? (fun cr => !cr.discharged)).isSome
                then "hospitalized" else "healthy"
              lastProcedure := getLastProcedure lib c id },
      by simp only [getAnimalStatus, ha], rfl, ?_, ?_, rfl⟩
    · simp only []
      rw [← hopen]
      by_cases hs : (a.medicalHistory.find? (fun cr => !cr.discharged)).isSome = true
      · simp [hs]
      · simp [hs]
    · simp only []
      rw [← hopen]
      by_cases hs : (a.medicalHistory.find? (fun cr => !cr.discharged)).isSome = true
      · simp [hs]
      · simp [hs]

/-! ## Procedure categories and staff assignment -/

theorem mem_of_getElem?_eq_some {α : Type} {l : List α} {i : Nat} {x : α}
    (h : l[i]? = some x) : x ∈ l := by
  obtain ⟨hi, hx⟩ := List.getElem?_eq_some.mp h
  exact hx ▸ List.getElem_mem hi

/-- C17: `getProcedureType` sends "vaccine" and "checkup" to "general", "surgery" and "dental"
to "surgical", and every other string to "specialized", these being three different values; an
id returned by `assignStaff` is the id of a staff member whose qualifications contain the
category of the procedure, and `assignStaff` returns `null` exactly when no staff member has
that category. -/
theorem getProcedureType_assignStaff (c : Clinic) (procedure : String) (g : Rng) :
    (getProcedureType procedure = "general" ↔ procedure = "vaccine" ∨ procedure = "checkup") ∧
      (getProcedureType procedure = "surgical" ↔
        procedure = "surgery" ∨ procedure = "dental") ∧
      (getProcedureType procedure = "specialized" ↔
        ¬ (procedure = "vaccine" ∨ procedure = "checkup" ∨ procedure = "surgery" ∨
          procedure = "dental")) ∧
      (∀ sid, (assignStaff c procedure g).1 = some sid →
        ∃ s ∈ c.staff, s.id = sid ∧ getProcedureType procedure ∈ s.qualifications) ∧
      ((assignStaff c procedure g).1 = none ↔
        ∀ s ∈ c.staff, getProcedureType procedure ∉ s.qualifications) := by
  refine ⟨?_, ?_, ?_, ?_, ?_⟩
  · unfold getProcedureType
    split_ifs with h1 h2
    · simp [h1]
    · simp [h1]
    · simp [h1]
  · unfold getProcedureType
    split_ifs with h1 h2
    · constructor
      · intro h; exact absurd h (by decide)
      · intro h
        rcases h1 with h1 | h1 <;> rcases h with h | h <;> rw [h1] at h <;>
          exact absurd h (by decide)
    · simp [h2]
    · simp [h2]
  · unfold getProcedureType
    split_ifs with h1 h2
    · constructor
      · intro h; exact absurd h (by decide)
      · intro h; exact absurd (by tauto) h
    · constructor
      · intro h; exact absurd h (by decide)
      · intro h; exact absurd (by tauto) h
    · simp only [true_iff]
      tauto
  · intro sid hsid
    unfold assignStaff at hsid
    by_cases hq : (qualifiedStaff c procedure).length = 0
    · simp [hq] at hsid
    · simp only [hq, if_false, Option.map_eq_some'] at hsid
      obtain ⟨s, hs, hid⟩ := hsid
      have hmem : s ∈ qualifiedStaff c procedure := mem_of_getElem?_eq_some hs
      unfold qualifiedStaff at hmem
      obtain ⟨h1, h2⟩ := List.mem_filter.mp hmem
      exact ⟨s, h1, hid, by simpa using h2⟩
  · unfold assignStaff
    by_cases hq : (qualifiedStaff c procedure).length = 0
    · simp only [hq, if_true, true_iff]
      intro s hs hmem
      have hnil : qualifiedStaff c procedure = [] := List.length_eq_zero.mp hq
      have : s ∈ qualifiedStaff c procedure := by
        unfold qualifiedStaff
        exact List.mem_filter.mpr ⟨hs, by simpa using hmem⟩
      rw [hnil] at this
      simp at this
    · simp only [hq, if_false]
      have hlt : g 0 % (qualifiedStaff c procedure).length <
          (qualifiedStaff c procedure).length := Nat.mod_lt _ (Nat.pos_of_ne_zero hq)
      have hsome : ((qualifiedStaff c procedure)[g 0 % (qualifiedStaff c procedure).length]?).map
          (fun s => s.id) ≠ none := by
        rw [List.getElem?_eq_getElem hlt]
        simp
      constructor
      · intro h; exact absurd h hsome
      · intro h
        exfalso
        have hmem : (qualifiedStaff c procedure)[g 0 % (qualifiedStaff c procedure).length] ∈
            qualifiedStaff c procedure := List.getElem_mem hlt
        unfold qualifiedStaff at hmem
        obtain ⟨h1, h2⟩ := List.mem_filter.mp hmem
        exact h _ h1 (by simpa using h2)

/-! ## The fee as a function of the record -/

theorem foldl_fee (l : List Treatment) :
    ∀ init : ℚ, l.foldl (fun fee t => fee + t.cost.getD 0) init =
      init + (l.map (fun t => t.cost.getD 0)).sum := by
  induction l with
  | nil => intro init; simp
  | cons t l ih =>
    intro init
    simp [List.foldl, ih, add_assoc]

theorem calculateFee_eq (cr : CaseRecord) :
    calculateFee cr =
      (50 + (cr.treatment.map (fun t => t.cost.getD 0)).sum) *
        (if cr.emergency = some true then 3 / 2 else 1) := by
  simp only [calculateFee, foldl_fee]

/-- C18: `calculateFee` is a function of the treatment costs (a missing cost counting as 0) and
of the emergency flag of the record: its value is `(50 + sum of costs) * (1.5 if emergency
else 1)`, so two records that agree on the costs and on the flag get the same fee, and so do two
calls on one record.  The source assigns to its local variable only; accordingly the embedding
takes the record and returns the fee, without any state. -/
theorem calculateFee_depends_only_on_costs_and_flag (cr cr' : CaseRecord) :
    calculateFee cr =
        (50 + (cr.treatment.map (fun t => t.cost.getD 0)).sum) *
          (if cr.emergency = some true then 3 / 2 else 1) ∧
      (cr.treatment.map (fun t => t.cost.getD 0) = cr'.treatment.map (fun t => t.cost.getD 0) →
        (cr.emergency = some true ↔ cr'.emergency = some true) →
        calculateFee cr = calculateFee cr') := by
  refine ⟨calculateFee_eq cr, fun hcost hflag => ?_⟩
  rw [calculateFee_eq cr, calculateFee_eq cr', hcost]
  by_cases h : cr.emergency = some true
  · rw [if_pos h, if_pos (hflag.mp h)]
  · rw [if_neg h, if_neg (fun h' => h (hflag.mpr h'))]

/-! ## Discharge of an open case -/

theorem modifyFirst_of_find {α : Type} (p : α → Bool) (f : α → α) :
    ∀ (l : List α) (a : α), l.find? p = some a →
      ∃ pre post, l = pre ++ a :: post ∧ (∀ x ∈ pre, p x = false) ∧ p a = true ∧
        modifyFirst p f l = pre ++ f a :: post := by
  intro l
  induction l with
  | nil => intro a h; simp at h
  | cons x xs ih =>
    intro a h
    by_cases hx : p x = true
    · have hxa : x = a := by simpa [List.find?, hx] using h
      subst hxa
      exact ⟨[], xs, rfl, by simp, hx, by simp [modifyFirst, hx]⟩
    · have hx' : p x = false := by simpa using hx
      have h' : xs.find? p = some a := by simpa [List.find?, hx'] using h
      obtain ⟨pre, post, hl, hpre, hpa, hmod⟩ := ih a h'
      refine ⟨x :: pre, post, by simp [hl], ?_, hpa, by simp [modifyFirst, hx', hmod]⟩
      intro y hy
      rcases List.mem_cons.mp hy with rfl | hy
      · exact hx'
      · exact hpre y hy

/-- C19: for a registered animal with an open case, `dischargeAnimal` returns `true`; the first
case of its history with `discharged = false` gets `discharged = true` and the final diagnosis,
every other case, the length and the order of the history and every other animal stay as they
were; exactly one financial record is appended, with the animal's id and the fee of that case;
appointments, staff and inventory are unchanged. -/
theorem dischargeAnimal_open_case (c : Clinic) (now : Int) (id finalDiagnosis : String)
    (a : Animal) (ha : findAnimalById c id = some a)
    (hopen : ∃ cr ∈ a.medicalHistory, cr.discharged = false) :
    ∃ (pre post : List Animal) (h1 h2 : List CaseRecord) (cr : CaseRecord),
      c.animals = pre ++ a :: post ∧ (∀ x ∈ pre, x.id ≠ id) ∧ a.id = id ∧
      a.medicalHistory = h1 ++ cr :: h2 ∧ (∀ x ∈ h1, x.discharged = true) ∧
      cr.discharged = false ∧
      (dischargeAnimal c now id finalDiagnosis).2 = true ∧
      (dischargeAnimal c now id finalDiagnosis).1.animals =
        pre ++
          { a with
            medicalHistory :=
              h1 ++ { cr with discharged := true, finalDiagnosis := some finalDiagnosis } ::
                h2 } :: post ∧
      (dischargeAnimal c now id finalDiagnosis).1.financialRecords =
        c.financialRecords ++
          [{ date := .obj c.heapNext (some now), animalId := id, amount := calculateFee cr,
             method := "credit", processed := true }] ∧
      (dischargeAnimal c now id finalDiagnosis).1.appointments = c.appointments ∧
      (dischargeAnimal c now id finalDiagnosis).1.staff = c.staff ∧
      (dischargeAnimal c now id finalDiagnosis).1.inventory = c.inventory := by
  have hsome : (a.medicalHistory.find? (fun cr => !cr.discharged)).isSome = true := by
    rw [List.find?_isSome]
    obtain ⟨cr, hcr, hd⟩ := hopen
    exact ⟨cr, hcr, by simp [hd]⟩
  obtain ⟨cr, hcr⟩ := Option.isSome_iff_exists.mp hsome
  obtain ⟨h1, h2, hh, hh1, hcrp, hmodh⟩ :=
    modifyFirst_of_find (fun cr : CaseRecord => !cr.discharged) (closeCase finalDiagnosis)
      a.medicalHistory cr hcr
  obtain ⟨pre, post, hl, hpre, hpa, hmoda⟩ :=
    modifyFirst_of_find (fun x : Animal => x.id == id)
      (fun x =>
        { x with
          medicalHistory :=
            modifyFirst (fun cr => !cr.discharged) (closeCase finalDiagnosis)
              x.medicalHistory })
      c.animals a ha
  refine ⟨pre, post, h1, h2, cr, hl, ?_, by simpa using hpa, hh, ?_, by simpa using hcrp,
    ?_, ?_, ?_, ?_, ?_, ?_⟩
  · intro x hx
    simpa using hpre x hx
  · intro x hx
    simpa using hh1 x hx
  · simp [dischargeAnimal, ha, hcr]
  · simp only [dischargeAnimal, ha, hcr, processPayment]
    rw [hmoda, hmodh]
    rfl
  · simp only [dischargeAnimal, ha, hcr, processPayment]
    rfl
  · simp [dischargeAnimal, ha, hcr, processPayment]
  · simp [dischargeAnimal, ha, hcr, processPayment]
  · simp [dischargeAnimal, ha, hcr, processPayment]

/-- C19 at a concrete input: a cat is registered and admitted once, then discharged. -/
theorem dischargeAnimal_open_case_witness :
    (dischargeAnimal
        (admitAnimal (registerAnimal Clinic.empty "k3x" "Fluffy" "cat" 3 "John Doe").1 1
          "anim_k3x" ⟨"fever", "cat", none⟩).1 2 "anim_k3x" "recovered").2 = true ∧
      ((dischargeAnimal
        (admitAnimal (registerAnimal Clinic.empty "k3x" "Fluffy" "cat" 3 "John Doe").1 1
          "anim_k3x" ⟨"fever", "cat", none⟩).1 2 "anim_k3x" "recovered").1.animals.map
        (fun a => a.medicalHistory.map (fun cr => (cr.discharged, cr.finalDiagnosis)))) =
        [[(true, some "recovered")]] := by
  obtain ⟨pre, post, h1, h2, cr, _, _, _, _, _, _, hret, _⟩ :=
    dischargeAnimal_open_case
      (admitAnimal (registerAnimal Clinic.empty "k3x" "Fluffy" "cat" 3 "John Doe").1 1
        "anim_k3x" ⟨"fever", "cat", none⟩).1 2 "anim_k3x" "recovered"
      ⟨"anim_k3x", "Fluffy", "cat", 3, "John Doe",
        [newCase (.obj 0 (some 1)) ⟨"fever", "cat", none⟩]⟩
      (by decide) ⟨newCase (.obj 0 (some 1)) ⟨"fever", "cat", none⟩, by decide, by decide⟩
  exact ⟨hret, by decide⟩

/-! ## Stocks never go below zero -/

namespace JSObj

variable {α : Type}

theorem mem_replaceProp {o : JSObj α} {k : String} {v : α} {p : String × α}
    (h : p ∈ replaceProp o k v) : p ∈ o ∨ p = (k, v) := by
  induction o with
  | nil => simp [replaceProp] at h
  | cons q o ih =>
    obtain ⟨k0, v0⟩ := q
    by_cases h0 : k0 = k
    · simp only [replaceProp, h0, if_true, List.mem_cons] at h
      rcases h with h | h
      · exact Or.inr h
      · exact Or.inl (List.mem_cons_of_mem _ h)
    · simp only [replaceProp, h0, if_false, List.mem_cons] at h
      rcases h with h | h
      · exact Or.inl (by rw [h]; exact List.mem_cons_self _ _)
      · rcases ih h with h' | h'
        · exact Or.inl (List.mem_cons_of_mem _ h')
        · exact Or.inr h'

theorem mem_insertIndex {o : JSObj α} {n : Nat} {k : String} {v : α} {p : String × α}
    (h : p ∈ insertIndex n k v o) : p ∈ o ∨ p = (k, v) := by
  induction o with
  | nil =>
    simp only [insertIndex, List.mem_singleton] at h
    exact Or.inr h
  | cons q o ih =>
    obtain ⟨k0, v0⟩ := q
    simp only [insertIndex] at h
    split at h
    · split at h
      · rcases List.mem_cons.mp h with h | h
        · exact Or.inr h
        · exact Or.inl h
      · rcases List.mem_cons.mp h with h | h
        · exact Or.inl (by rw [h]; exact List.mem_cons_self _ _)
        · rcases ih h with h' | h'
          · exact Or.inl (List.mem_cons_of_mem _ h')
          · exact Or.inr h'
    · rcases List.mem_cons.mp h with h | h
      · exact Or.inr h
      · exact Or.inl h

/-- An entry of the object after a write is an entry from before or the one written. -/
theorem mem_setProp {o : JSObj α} {k : String} {v : α} {p : String × α}
    (h : p ∈ setProp o k v) : p ∈ o ∨ p = (k, v) := by
  unfold setProp at h
  split at h
  · exact mem_replaceProp h
  · split at h
    · exact mem_insertIndex h
    · rcases List.mem_append.mp h with h | h
      · exact Or.inl h
      · exact Or.inr (by simpa using h)

end JSObj

theorem stocksNonneg_setProp {inv : JSObj InventoryEntry} {k : String} {e : InventoryEntry}
    (hinv : StocksNonneg inv) (he : EntryNonneg e) : StocksNonneg (inv.setProp k e) := by
  intro p hp
  rcases JSObj.mem_setProp hp with h | h
  · exact hinv p h
  · rw [h]
    exact he

theorem entryNonneg_of_getProp {inv : JSObj InventoryEntry} {k : String} {e : InventoryEntry}
    (hinv : StocksNonneg inv) (h : inv.getProp k = some e) : EntryNonneg e :=
  hinv (k, e) (JSObj.mem_of_getProp h)

theorem medicine_setProp_nonneg {m : JSObj StockVal} {k : String} {q : StockVal}
    (hm : ∀ x ∈ m, x.2.nonneg = true) (hq : q.nonneg = true) :
    ∀ x ∈ m.setProp k q, x.2.nonneg = true := by
  intro x hx
  rcases JSObj.mem_setProp hx with h | h
  · exact hm x h
  · rw [h]
    exact hq

theorem stocksNonneg_ensureEntry (inv : JSObj InventoryEntry) (s : String)
    (hinv : StocksNonneg inv) : StocksNonneg (ensureEntry inv s) := by
  unfold ensureEntry
  split
  · exact stocksNonneg_setProp hinv ⟨rfl, by simp [newEntry]⟩
  · exact hinv

theorem stocksNonneg_updateSpeciesStats (c : Clinic) (s : String)
    (hinv : StocksNonneg c.inventory) : StocksNonneg (updateSpeciesStats c s).inventory := by
  have h1 := stocksNonneg_ensureEntry c.inventory s hinv
  unfold updateSpeciesStats
  simp only []
  split
  · rename_i e heq
    have he := entryNonneg_of_getProp h1 (JSObj.read_eq_own_iff.mp heq)
    exact stocksNonneg_setProp h1 ⟨he.1, he.2⟩
  · exact h1

/-- The value `restockInventory` writes for an item whose name is not inherited, in a table of
values that are at least 0, by a quantity that is at least 0: it is at least 0. -/
theorem restocked_nonneg {m : JSObj StockVal} {i : String} {q : JSNum}
    (hm : ∀ x ∈ m, x.2.nonneg = true) (hi : i ∉ inheritedNames) (hq : q.nonneg = true) :
    (restocked m i q).nonneg = true := by
  unfold restocked
  cases hg : m.getProp i with
  | none =>
    rw [JSObj.read_undefined hg hi]
    exact nonneg_add rfl hq
  | some v =>
    rw [JSObj.read_own hg]
    have hv := hm (i, v) (JSObj.mem_of_getProp hg)
    cases v with
    | text b qs => simp [StockVal.nonneg] at hv
    | num x =>
      simp only [StockVal.nonneg] at hv ⊢
      split
      · exact nonneg_add hv hq
      · exact nonneg_add rfl hq

theorem entryNonneg_restockEntry {e : InventoryEntry} {i : String} {q : JSNum}
    (he : EntryNonneg e) (hi : i ∉ inheritedNames) (hq : q.nonneg = true) :
    EntryNonneg (restockEntry e i q) := by
  unfold restockEntry
  split
  · exact ⟨nonneg_add he.1 hq, he.2⟩
  · rw [JSObj.assign_of_ordinary _ _ hi]
    exact ⟨he.1, medicine_setProp_nonneg he.2 (restocked_nonneg he.2 hi hq)⟩

theorem stocksNonneg_restockInventory (c : Clinic) (s i : String) (q : JSNum)
    (hi : i ∉ inheritedNames) (hq : q.nonneg = true) (hinv : StocksNonneg c.inventory) :
    StocksNonneg (restockInventory c s i q).1.inventory := by
  have h1 := stocksNonneg_ensureEntry c.inventory s hinv
  unfold restockInventory
  simp only []
  split
  · rename_i e heq
    exact stocksNonneg_setProp h1
      (entryNonneg_restockEntry (entryNonneg_of_getProp h1 (JSObj.read_eq_own_iff.mp heq)) hi hq)
  · split <;> exact h1
  · exact h1

theorem stocksNonneg_consumeMedication (s med : String) (inv inv' : JSObj InventoryEntry)
    (hmed : med ∉ inheritedNames) (h : StocksNonneg inv)
    (hc : consumeMedication s inv med = some inv') : StocksNonneg inv' := by
  unfold consumeMedication at hc
  cases he : inv.getProp s with
  | none =>
    by_cases hs : s ∈ inheritedNames
    · rw [JSObj.read_inherited he hs] at hc
      simp at hc
    · rw [JSObj.read_undefined he hs] at hc
      simp at hc
  | some e =>
    rw [JSObj.read_own he] at hc
    simp only [] at hc
    obtain ⟨hf, hm⟩ := entryNonneg_of_getProp h he
    cases hq : e.medicine.getProp med with
    | none =>
      rw [JSObj.read_undefined hq hmed] at hc
      simp only [Option.some.injEq] at hc
      rw [← hc]
      exact h
    | some v =>
      rw [JSObj.read_own hq] at hc
      simp only [] at hc
      by_cases hv : v.truthy = true
      · simp only [hv, if_true, Option.some.injEq, JSObj.assign_of_ordinary _ _ hmed] at hc
        rw [← hc]
        refine stocksNonneg_setProp h ⟨hf, medicine_setProp_nonneg hm ?_⟩
        have hvn := hm (med, v) (JSObj.mem_of_getProp hq)
        cases v with
        | text b qs => simp [StockVal.nonneg] at hvn
        | num x => exact max0_add_nonneg hv (-1)
      · simp only [hv, Bool.false_eq_true, if_false, Option.some.injEq] at hc
        rw [← hc]
        exact h

theorem stocksNonneg_forEachMedication (s : String) (meds : List String)
    (hord : ∀ m ∈ meds, m ∉ inheritedNames) :
    ∀ inv : JSObj InventoryEntry, StocksNonneg inv →
      StocksNonneg (forEachMedication s meds inv).1 := by
  induction meds with
  | nil => intro inv h; exact h
  | cons med rest ih =>
    intro inv h
    simp only [forEachMedication]
    cases hc : consumeMedication s inv med with
    | none => exact h
    | some inv' =>
      simp only []
      apply ih (fun m hm => hord m (List.mem_cons_of_mem _ hm))
      exact stocksNonneg_consumeMedication s med inv inv'
        (hord med (List.mem_cons_self _ _)) h hc

/-- The inventory after `admitAnimal`, whether it returns or throws. -/
theorem inventory_admitAnimal (c : Clinic) (now : Int) (id : String) (d : Diagnosis) :
    (admitAnimal c now id d).1.inventory =
      match findAnimalById c id with
      | none => c.inventory
      | some _ =>
        match determineMedication d with
        | none => c.inventory
        | some meds => (forEachMedication d.species meds c.inventory).1 := by
  unfold admitAnimal
  cases h : findAnimalById c id with
  | none => rfl
  | some a =>
    simp only []
    split <;> rename_i heq <;>
      · have := congrArg (fun r => r.1.inventory) heq
        simp only [updateInventoryForTreatment] at this
        rw [← this]
        cases determineMedication d <;> rfl

theorem stocksNonneg_admitAnimal (c : Clinic) (now : Int) (id : String) (d : Diagnosis)
    (hinv : StocksNonneg c.inventory) : StocksNonneg (admitAnimal c now id d).1.inventory := by
  rw [inventory_admitAnimal]
  cases h : findAnimalById c id with
  | none => exact hinv
  | some a =>
    simp only []
    cases hm : determineMedication d with
    | none => exact hinv
    | some meds =>
      exact stocksNonneg_forEachMedication _ _ (determineMedication_some hm).2 _ hinv

theorem stocksNonneg_apply (lib : DateLib) (c c' : Clinic) (op : Op)
    (hinv : StocksNonneg c.inventory) (hq : op.restockNonneg = true)
    (hord : op.restockOrdinary = true)
    (hrun : op.apply lib c = some c') : StocksNonneg c'.inventory := by
  cases op with
  | registerAnimal rid name species age owner =>
    simp only [Op.apply, Option.some.injEq] at hrun
    subst hrun
    exact stocksNonneg_updateSpeciesStats _ species hinv
  | admitAnimal now id diagnosis =>
    simp only [Op.apply, Option.some.injEq] at hrun
    subst hrun
    exact stocksNonneg_admitAnimal c now id diagnosis hinv
  | dischargeAnimal now id finalDiagnosis =>
    simp only [Op.apply, Option.some.injEq] at hrun
    subst hrun
    unfold dischargeAnimal
    cases h : findAnimalById c id with
    | none => exact hinv
    | some a =>
      simp only []
      cases hf : a.medicalHistory.find? (fun cr => !cr.discharged) with
      | none => exact hinv
      | some activeCase => exact hinv
  | emergencyAdmit rid now name species condition =>
    simp only [Op.apply, Option.some.injEq] at hrun
    subst hrun
    rw [fst_emergencyAdmit]
    apply stocksNonneg_admitAnimal
    exact stocksNonneg_updateSpeciesStats _ species hinv
  | scheduleAppointment fuel g rid animalId date procedure =>
    simp only [Op.apply, Option.map_eq_some'] at hrun
    obtain ⟨r, hr, hc⟩ := hrun
    have hfr := (frame_scheduleAppointment lib fuel c g rid animalId date procedure r hr).2.2.1
    subst hc
    rw [hfr]
    exact hinv
  | addStaffMember rid name position qualifications =>
    simp only [Op.apply, Option.some.injEq] at hrun
    subst hrun
    exact hinv
  | restockInventory species item quantity =>
    simp only [Op.apply, Option.some.injEq] at hrun
    subst hrun
    simp only [Op.restockOrdinary, Bool.and_eq_true, decide_eq_true_eq] at hord
    exact stocksNonneg_restockInventory c species item quantity hord.2
      (by simpa [Op.restockNonneg] using hq) hinv

theorem stocksNonneg_runOps (lib : DateLib) (ops : List Op) :
    ∀ c c' : Clinic, StocksNonneg c.inventory → ops.all Op.restockNonneg = true →
      ops.all Op.restockOrdinary = true →
      runOps lib c ops = some c' → StocksNonneg c'.inventory := by
  induction ops with
  | nil =>
    intro c c' hinv _ _ hrun
    simp only [runOps, Option.some.injEq] at hrun
    subst hrun
    exact hinv
  | cons op ops ih =>
    intro c c' hinv hq hord hrun
    simp only [List.all_cons, Bool.and_eq_true] at hq hord
    cases hop : op.apply lib c with
    | none => simp [runOps, hop] at hrun
    | some c1 =>
      simp only [runOps, hop] at hrun
      exact ih c1 c' (stocksNonneg_apply lib c c1 op hinv hq.1 hord.1 hop) hq.2 hord.2 hrun

/-- C16, where the claim fails.  A cat is registered and 5 units are restocked under the item
name `constructor`: the quantity is at least 0, but the value read first is the inherited
member, to which `+` appends the quantity as text; the medicine quantity stored is a string,
for which `>= 0` is false. -/
theorem stocks_inherited_item_counterexample :
    ∃ c, runOps utcDateLib Clinic.empty
        [.registerAnimal "k3x" "Fluffy" "cat" 3 "John Doe",
         .restockInventory "cat" "constructor" (.fin 5)] = some c ∧
      [Op.registerAnimal "k3x" "Fluffy" "cat" 3 "John Doe",
         Op.restockInventory "cat" "constructor" (.fin 5)].all Op.restockNonneg = true ∧
      c.inventory =
        [("cat", ⟨.fin 1, .fin 0, [("constructor", .text "constructor" [.fin 5])]⟩)] ∧
      (StockVal.text "constructor" [.fin 5]).nonneg = false :=
  ⟨_, rfl, by decide, by decide, rfl⟩

/-- C16, amended: in every state reached from the empty clinic by a finite sequence of calls of
the operations in which every `restockInventory` has a quantity that is at least 0 and names a
species and an item that are not inherited names, every food stock and every medicine quantity
of every species is at least 0. -/
theorem stocks_never_negative (lib : DateLib) (ops : List Op) (c : Clinic)
    (hq : ops.all Op.restockNonneg = true) (hord : ops.all Op.restockOrdinary = true)
    (hrun : runOps lib Clinic.empty ops = some c) :
    ∀ species e, c.inventory.getProp species = some e →
      e.foodStock.nonneg = true ∧
        ∀ medicine q, e.medicine.getProp medicine = some q → q.nonneg = true := by
  have hinv : StocksNonneg c.inventory :=
    stocksNonneg_runOps lib ops Clinic.empty c (by intro p hp; simp [Clinic.empty] at hp) hq
      hord hrun
  intro species e he
  obtain ⟨hf, hm⟩ := entryNonneg_of_getProp hinv he
  exact ⟨hf, fun medicine q hg => hm (medicine, q) (JSObj.mem_of_getProp hg)⟩

/-- C16 at a concrete sequence: a cat is registered, one antibiotic is restocked and two
admissions for an infection consume it; the stock stops at 0. -/
theorem stocks_never_negative_witness :
    ∃ c, runOps utcDateLib Clinic.empty
        [.registerAnimal "k3x" "Fluffy" "cat" 3 "John Doe",
         .restockInventory "cat" "antibiotic" (.fin 1),
         .admitAnimal 1 "anim_k3x" ⟨"infection", "cat", none⟩,
         .admitAnimal 2 "anim_k3x" ⟨"infection", "cat", none⟩] = some c ∧
      c.inventory = [("cat", ⟨.fin 1, .fin 0, [("antibiotic", .num (.fin 0))]⟩)] ∧
      ∀ species e, c.inventory.getProp species = some e →
        e.foodStock.nonneg = true ∧
          ∀ medicine q, e.medicine.getProp medicine = some q → q.nonneg = true :=
  ⟨_, rfl, by decide,
    stocks_never_negative utcDateLib
      [.registerAnimal "k3x" "Fluffy" "cat" 3 "John Doe",
       .restockInventory "cat" "antibiotic" (.fin 1),
       .admitAnimal 1 "anim_k3x" ⟨"infection", "cat", none⟩,
       .admitAnimal 2 "anim_k3x" ⟨"infection", "cat", none⟩] _ (by decide) (by decide) rfl⟩


/-! ## Scheduling: result and termination -/

/-- More fuel does not change a completed run. -/
theorem scheduleAppointment_fuel_succ (lib : DateLib) (fuel : Nat) :
    ∀ (c : Clinic) (g : Rng) (rid animalId : String) (date : DateVal) (procedure : String)
      (r : Clinic × Rng × Option String),
      scheduleAppointment lib fuel c g rid animalId date procedure = some r →
        scheduleAppointment lib (fuel + 1) c g rid animalId date procedure = some r := by
  induction fuel with
  | zero =>
    intro c g rid animalId date procedure r h
    simp [scheduleAppointment] at h
  | succ fuel ih =>
    intro c g rid animalId date procedure r h
    unfold scheduleAppointment at h ⊢
    cases ha : findAnimalById c animalId with
    | none =>
      simp only [ha] at h ⊢
      exact h
    | some a =>
      simp only [ha] at h ⊢
      cases hc : conflicting c date procedure c.appointments g with
      | mk b g1 =>
        cases b with
        | true =>
          simp only [hc] at h ⊢
          exact ih _ _ _ _ _ _ _ h
        | false =>
          simp only [hc] at h ⊢
          exact h

theorem scheduleAppointment_fuel_le (lib : DateLib) (f f' : Nat) (hle : f ≤ f')
    (c : Clinic) (g : Rng) (rid animalId : String) (date : DateVal) (procedure : String)
    (r : Clinic × Rng × Option String)
    (h : scheduleAppointment lib f c g rid animalId date procedure = some r) :
    scheduleAppointment lib f' c g rid animalId date procedure = some r := by
  induction hle with
  | refl => exact h
  | step _ ih => exact scheduleAppointment_fuel_succ lib _ _ _ _ _ _ _ _ ih

/-- The shape of a completed run: `false` and the same state for an unknown animal; otherwise
one appointment appended, with the requested animal and procedure, and its id returned. -/
theorem scheduleAppointment_shape (lib : DateLib) (fuel : Nat) :
    ∀ (c : Clinic) (g : Rng) (rid animalId : String) (date : DateVal) (procedure : String)
      (r : Clinic × Rng × Option String),
      scheduleAppointment lib fuel c g rid animalId date procedure = some r →
        (findAnimalById c animalId = none → r = (c, g, none)) ∧
        (∀ a, findAnimalById c animalId = some a →
          ∃ apt : Appointment, r.1.appointments = c.appointments ++ [apt] ∧
            r.2.2 = some apt.id ∧ apt.id = "apt_" ++ rid ∧ apt.animalId = animalId ∧
            apt.procedure = procedure ∧ apt.status = "scheduled") := by
  induction fuel with
  | zero =>
    intro c g rid animalId date procedure r h
    simp [scheduleAppointment] at h
  | succ fuel ih =>
    intro c g rid animalId date procedure r h
    unfold scheduleAppointment at h
    cases ha : findAnimalById c animalId with
    | none =>
      simp only [ha, Option.some.injEq] at h
      exact ⟨fun _ => h.symm, fun a hh => by simp at hh⟩
    | some a =>
      simp only [ha] at h
      refine ⟨fun hh => by simp at hh, fun a' _ => ?_⟩
      cases hc : conflicting c date procedure c.appointments g with
      | mk b g1 =>
        cases b with
        | true =>
          simp only [hc] at h
          have hfind : findAnimalById { c with heapNext := c.heapNext + 1 } animalId =
              some a := ha
          exact (ih { c with heapNext := c.heapNext + 1 } _ _ _ _ _ _ h).2 a hfind
        | false =>
          simp only [hc, Option.some.injEq] at h
          subst h
          exact ⟨_, rfl, rfl, rfl, rfl, rfl, rfl⟩

theorem conflicting_true_mem (c : Clinic) (date : DateVal) (procedure : String) :
    ∀ (L : List Appointment) (g g' : Rng), conflicting c date procedure L g = (true, g') →
      ∃ a ∈ L, strictEq a.date date = true := by
  intro L
  induction L with
  | nil => intro g g' h; simp [conflicting] at h
  | cons apt rest ih =>
    intro g g' h
    by_cases hd : strictEq apt.date date = true
    · exact ⟨apt, List.mem_cons_self _ _, hd⟩
    · simp only [conflicting, hd] at h
      obtain ⟨a, ha, hs⟩ := ih g g' h
      exact ⟨a, List.mem_cons_of_mem _ ha, hs⟩

theorem strictEq_obj {x : DateVal} {r : Nat} {t : Option Int}
    (h : strictEq x (.obj r t) = true) : ∃ t', x = .obj r t' := by
  cases x with
  | str s => simp [strictEq] at h
  | obj r' t' =>
    simp only [strictEq, beq_iff_eq] at h
    exact ⟨t', by rw [h]⟩

theorem countP_refAtLeast_succ_lt (r : Nat) :
    ∀ (L : List Appointment) (a : Appointment) (t : Option Int), a ∈ L → a.date = .obj r t →
      L.countP (refAtLeast (r + 1)) < L.countP (refAtLeast r) := by
  have hmono : ∀ x : Appointment, refAtLeast (r + 1) x = true → refAtLeast r x = true := by
    intro x hx
    unfold refAtLeast at hx ⊢
    cases hd : x.date with
    | str s => simp [hd] at hx
    | obj r' t' =>
      simp only [hd, decide_eq_true_eq] at hx ⊢
      omega
  intro L
  induction L with
  | nil => intro a t ha; simp at ha
  | cons x xs ih =>
    intro a t ha hdate
    have hle : xs.countP (refAtLeast (r + 1)) ≤ xs.countP (refAtLeast r) :=
      List.countP_mono_left (fun y _ hy => hmono y hy)
    rcases List.mem_cons.mp ha with hax | hax
    · subst hax
      have h1 : refAtLeast (r + 1) a = false := by simp [refAtLeast, hdate]
      have h2 : refAtLeast r a = true := by simp [refAtLeast, hdate]
      rw [List.countP_cons_of_neg _ _ (by simp [h1]), List.countP_cons_of_pos _ _ h2]
      omega
    · have hlt := ih a t hax hdate
      by_cases hx1 : refAtLeast (r + 1) x = true
      · rw [List.countP_cons_of_pos _ _ hx1, List.countP_cons_of_pos _ _ (hmono x hx1)]
        omega
      · rw [List.countP_cons_of_neg _ _ hx1]
        by_cases hx2 : refAtLeast r x = true
        · rw [List.countP_cons_of_pos _ _ hx2]
          omega
        · rw [List.countP_cons_of_neg _ _ hx2]
          exact hlt

/-- A run that starts at a `Date` object just created completes within one call more than
there are stored appointments at objects of that identity or a later one. -/
theorem scheduleAppointment_completes_from_new (lib : DateLib) (rid animalId procedure : String)
    (a : Animal) :
    ∀ (m : Nat) (c : Clinic) (g : Rng) (r : Nat) (t : Option Int),
      c.heapNext = r + 1 → c.appointments.countP (refAtLeast r) ≤ m →
      findAnimalById c animalId = some a →
      ∃ res, scheduleAppointment lib (m + 1) c g rid animalId (.obj r t) procedure =
        some res := by
  intro m
  induction m with
  | zero =>
    intro c g r t hh hcount ha
    unfold scheduleAppointment
    simp only [ha]
    cases hc : conflicting c (.obj r t) procedure c.appointments g with
    | mk b g1 =>
      cases b with
      | true =>
        exfalso
        obtain ⟨x, hx, hs⟩ := conflicting_true_mem c _ procedure _ _ _ hc
        obtain ⟨t', hd⟩ := strictEq_obj hs
        have := countP_refAtLeast_succ_lt r c.appointments x t' hx hd
        omega
      | false => exact ⟨_, rfl⟩
  | succ m ih =>
    intro c g r t hh hcount ha
    unfold scheduleAppointment
    simp only [ha]
    cases hc : conflicting c (.obj r t) procedure c.appointments g with
    | mk b g1 =>
      cases b with
      | true =>
        simp only []
        obtain ⟨x, hx, hs⟩ := conflicting_true_mem c _ procedure _ _ _ hc
        obtain ⟨t', hd⟩ := strictEq_obj hs
        have hlt := countP_refAtLeast_succ_lt r c.appointments x t' hx hd
        have hdate : rescheduledDate lib c (.obj r t) =
            .obj (r + 1)
              ((timeValue lib (.obj r t)).bind
                (fun t => lib.setHours t (lib.getHours t + 2))) := by
          simp [rescheduledDate, hh]
        rw [hdate]
        exact ih { c with heapNext := c.heapNext + 1 } g1 (r + 1) _ (by simp [hh])
          (by show c.appointments.countP (refAtLeast (r + 1)) ≤ m; omega) ha
      | false => exact ⟨_, rfl⟩

/-- Every call of `scheduleAppointment` completes: two calls more than there are stored
appointments always suffice. -/
theorem scheduleAppointment_completes (lib : DateLib) (c : Clinic) (g : Rng)
    (rid animalId : String) (date : DateVal) (procedure : String) :
    ∃ res, scheduleAppointment lib (c.appointments.length + 2) c g rid animalId date procedure =
      some res := by
  unfold scheduleAppointment
  cases ha : findAnimalById c animalId with
  | none => exact ⟨_, rfl⟩
  | some a =>
    simp only []
    cases hc : conflicting c date procedure c.appointments g with
    | mk b g1 =>
      cases b with
      | true =>
        simp only []
        exact scheduleAppointment_completes_from_new lib rid animalId procedure a
          c.appointments.length { c with heapNext := c.heapNext + 1 } g1 c.heapNext _ rfl
          (List.countP_le_length _) ha
      | false => exact ⟨_, rfl⟩

theorem findAnimalById_eq_none_iff (c : Clinic) (id : String) :
    findAnimalById c id = none ↔ ∀ a ∈ c.animals, a.id ≠ id := by
  unfold findAnimalById
  rw [List.find?_eq_none]
  constructor
  · intro h a ha
    simpa using h a ha
  · intro h a ha
    simpa using h a ha

/-- C12: every call of `scheduleAppointment` completes (two calls more than there are stored
appointments suffice, and more fuel changes nothing).  It returns `false` if and only if the
id names no registered animal, and then the state is unchanged; for a registered animal it
returns the id of one appointment appended to the stored ones, which are unchanged, the new
appointment having the requested animal id and procedure and the status "scheduled". -/
theorem scheduleAppointment_result (lib : DateLib) (c : Clinic) (g : Rng)
    (rid animalId : String) (date : DateVal) (procedure : String) (k : Nat) :
    ∃ res, scheduleAppointment lib (c.appointments.length + 2 + k) c g rid animalId date
        procedure = some res ∧
      (res.2.2 = none ↔ ∀ a ∈ c.animals, a.id ≠ animalId) ∧
      ((∀ a ∈ c.animals, a.id ≠ animalId) → res.1 = c) ∧
      ((∃ a ∈ c.animals, a.id = animalId) →
        ∃ apt : Appointment, res.1.appointments = c.appointments ++ [apt] ∧
          res.2.2 = some apt.id ∧ apt.animalId = animalId ∧ apt.procedure = procedure ∧
          apt.status = "scheduled") := by
  obtain ⟨res, hres⟩ := scheduleAppointment_completes lib c g rid animalId date procedure
  have hk := scheduleAppointment_fuel_le lib _ (c.appointments.length + 2 + k)
    (Nat.le_add_right _ k) c g rid animalId date procedure res hres
  obtain ⟨hnone, hsome⟩ := scheduleAppointment_shape lib _ c g rid animalId date procedure res
    hres
  refine ⟨res, hk, ?_, ?_, ?_⟩
  · rw [← findAnimalById_eq_none_iff]
    cases ha : findAnimalById c animalId with
    | none =>
      rw [hnone ha]
      simp
    | some a =>
      obtain ⟨apt, _, hid, _⟩ := hsome a ha
      simp [hid]
  · intro hall
    rw [hnone ((findAnimalById_eq_none_iff c animalId).mpr hall)]
  · rintro ⟨a, ha, hid⟩
    cases hf : findAnimalById c animalId with
    | none => exact absurd hid ((findAnimalById_eq_none_iff c animalId).mp hf a ha)
    | some a' =>
      obtain ⟨apt, h1, h2, _, h4, h5, h6⟩ := hsome a' hf
      exact ⟨apt, h1, h2, h4, h5, h6⟩

/-! ## Scheduling on a well-formed heap -/

theorem strictEq_new_false {x : DateVal} {h : Nat} (t : Option Int)
    (hx : x.allocatedBefore h = true) : strictEq x (.obj h t) = false := by
  cases x with
  | str s => rfl
  | obj r t' =>
    simp only [DateVal.allocatedBefore, decide_eq_true_eq] at hx
    simp only [strictEq, beq_eq_false_iff_ne, ne_eq]
    omega

/-- A `Date` object just created conflicts with no stored appointment, and the check consumes
no random draw. -/
theorem conflicting_new (c : Clinic) (h : Nat) (t : Option Int) (procedure : String) :
    ∀ (L : List Appointment) (g : Rng), (∀ a ∈ L, a.date.allocatedBefore h = true) →
      conflicting c (.obj h t) procedure L g = (false, g) := by
  intro L
  induction L with
  | nil => intro g _; rfl
  | cons apt rest ih =>
    intro g hall
    have h1 := strictEq_new_false t (hall apt (List.mem_cons_self _ _))
    simp only [conflicting, h1]
    exact ih g (fun a ha => hall a (List.mem_cons_of_mem _ ha))

/-- On a well-formed heap a run makes at most one recursive call: a conflict moves the request
to a new `Date` object two hours later, where it is stored. -/
theorem scheduleAppointment_two_calls (lib : DateLib) (c : Clinic) (g : Rng)
    (rid animalId : String) (date : DateVal) (procedure : String) (k : Nat) (a : Animal)
    (hwf : datesAllocated c = true) (ha : findAnimalById c animalId = some a) :
    scheduleAppointment lib (k + 2) c g rid animalId date procedure =
      match conflicting c date procedure c.appointments g with
      | (true, g1) =>
        some
          ({ c with
             appointments :=
               c.appointments ++
                 [{ id := "apt_" ++ rid, animalId := animalId,
                    date := rescheduledDate lib c date, procedure := procedure,
                    staffId := (assignStaff c procedure g1).1, status := "scheduled" }]
             heapNext := c.heapNext + 1 },
            (assignStaff c procedure g1).2, some ("apt_" ++ rid))
      | (false, g1) =>
        some
          ({ c with
             appointments :=
               c.appointments ++
                 [{ id := "apt_" ++ rid, animalId := animalId, date := date,
                    procedure := procedure, staffId := (assignStaff c procedure g1).1,
                    status := "scheduled" }] },
            (assignStaff c procedure g1).2, some ("apt_" ++ rid)) := by
  have hall : ∀ x ∈ c.appointments, x.date.allocatedBefore c.heapNext = true := by
    intro x hx
    unfold datesAllocated at hwf
    exact List.all_eq_true.mp hwf x hx
  conv_lhs => unfold scheduleAppointment
  simp only [ha]
  cases hc : conflicting c date procedure c.appointments g with
  | mk b g1 =>
    cases b with
    | false => rfl
    | true =>
      simp only []
      unfold scheduleAppointment
      have hfind : findAnimalById { c with heapNext := c.heapNext + 1 } animalId = some a := ha
      have hno : conflicting { c with heapNext := c.heapNext + 1 } (rescheduledDate lib c date)
          procedure c.appointments g1 = (false, g1) :=
        conflicting_new _ c.heapNext _ procedure c.appointments g1 hall
      simp only [hfind, hno]
      rfl

/-- C20: `scheduleAppointment` terminates on every input.  On a state in which the `Date`
objects of the stored appointments exist (their identities are below `heapNext`), for every
animal id, date, procedure and stream of random outcomes, a run with as many recursive calls as
there are stored appointments completes (fuel `length + 1`); in fact one recursive call is
always enough (fuel 2). -/
theorem scheduleAppointment_terminates (lib : DateLib) (c : Clinic) (g : Rng)
    (rid animalId : String) (date : DateVal) (procedure : String)
    (hwf : datesAllocated c = true) :
    (∃ res, scheduleAppointment lib (c.appointments.length + 1) c g rid animalId date
        procedure = some res) ∧
      ∃ res, scheduleAppointment lib 2 c g rid animalId date procedure = some res := by
  have h2 : ∀ k, ∃ res, scheduleAppointment lib (k + 2) c g rid animalId date procedure =
      some res := by
    intro k
    cases ha : findAnimalById c animalId with
    | none => exact ⟨(c, g, none), by simp [scheduleAppointment, ha]⟩
    | some a =>
      rw [scheduleAppointment_two_calls lib c g rid animalId date procedure k a hwf ha]
      cases hc : conflicting c date procedure c.appointments g with
      | mk b g1 => cases b <;> exact ⟨_, rfl⟩
  refine ⟨?_, h2 0⟩
  rcases Nat.eq_zero_or_pos c.appointments.length with h0 | hpos
  · have hl : c.appointments = [] := List.length_eq_zero.mp h0
    rw [h0]
    cases ha : findAnimalById c animalId with
    | none => exact ⟨(c, g, none), by simp [scheduleAppointment, ha]⟩
    | some a =>
      have hc : conflicting c date procedure c.appointments g = (false, g) := by
        rw [hl]
        rfl
      have hsome : (scheduleAppointment lib (0 + 1) c g rid animalId date
          procedure).isSome = true := by
        simp only [scheduleAppointment, ha, hc]
        rfl
      exact Option.isSome_iff_exists.mp hsome
  · obtain ⟨k, hk⟩ := Nat.exists_eq_succ_of_ne_zero (Nat.pos_iff_ne_zero.mp hpos)
    rw [hk]
    exact h2 k

/-- C20 at a concrete input: one appointment without staff is stored at "2024-01-01" and a
second request for that date arrives.  One call is not enough, two calls are: the request is
stored at a new `Date` object two hours later. -/
theorem scheduleAppointment_terminates_witness :
    ((∃ res, scheduleAppointment utcDateLib (1 + 1)
        { animals := [⟨"anim_k3x", "Fluffy", "cat", 3, "John Doe", []⟩]
          appointments :=
            [⟨"apt_a1", "anim_k3x", .str "2024-01-01", "grooming", none, "scheduled"⟩]
          staff := [], inventory := [("cat", ⟨1, 0, []⟩)], financialRecords := []
          heapNext := 0 }
        (fun _ => 0) "a2" "anim_k3x" (.str "2024-01-01") "grooming" = some res) ∧
      ∃ res, scheduleAppointment utcDateLib 2
        { animals := [⟨"anim_k3x", "Fluffy", "cat", 3, "John Doe", []⟩]
          appointments :=
            [⟨"apt_a1", "anim_k3x", .str "2024-01-01", "grooming", none, "scheduled"⟩]
          staff := [], inventory := [("cat", ⟨1, 0, []⟩)], financialRecords := []
          heapNext := 0 }
        (fun _ => 0) "a2" "anim_k3x" (.str "2024-01-01") "grooming" = some res) ∧
      scheduleAppointment utcDateLib 1
        { animals := [⟨"anim_k3x", "Fluffy", "cat", 3, "John Doe", []⟩]
          appointments :=
            [⟨"apt_a1", "anim_k3x", .str "2024-01-01", "grooming", none, "scheduled"⟩]
          staff := [], inventory := [("cat", ⟨1, 0, []⟩)], financialRecords := []
          heapNext := 0 }
        (fun _ => 0) "a2" "anim_k3x" (.str "2024-01-01") "grooming" = none :=
  ⟨scheduleAppointment_terminates utcDateLib
      { animals := [⟨"anim_k3x", "Fluffy", "cat", 3, "John Doe", []⟩]
        appointments :=
          [⟨"apt_a1", "anim_k3x", .str "2024-01-01", "grooming", none, "scheduled"⟩]
        staff := [], inventory := [("cat", ⟨1, 0, []⟩)], financialRecords := []
        heapNext := 0 }
      (fun _ => 0) "a2" "anim_k3x" (.str "2024-01-01") "grooming" (by decide),
    rfl⟩

/-! ## Requests nobody is qualified for -/

theorem assignStaff_unqualified (c : Clinic) (procedure : String) (g : Rng)
    (hq : qualifiedStaff c procedure = []) : assignStaff c procedure g = (none, g) := by
  simp [assignStaff, hq]

theorem conflicting_unqualified (c : Clinic) (date : DateVal) (procedure : String)
    (hq : qualifiedStaff c procedure = []) :
    ∀ (L : List Appointment) (g : Rng),
      (∃ apt ∈ L, apt.staffId = none ∧ strictEq apt.date date = true) →
        conflicting c date procedure L g = (true, g) := by
  intro L
  induction L with
  | nil => intro g h; simp at h
  | cons x xs ih =>
    intro g h
    obtain ⟨apt, hmem, hs, hd⟩ := h
    by_cases hx : strictEq x.date date = true
    · by_cases hsx : x.staffId = none
      · simp [conflicting, hx, assignStaff_unqualified c procedure g hq, hsx]
      · have hrest : ∃ apt ∈ xs, apt.staffId = none ∧ strictEq apt.date date = true := by
          rcases List.mem_cons.mp hmem with h1 | h1
          · exact absurd (h1 ▸ hs) hsx
          · exact ⟨apt, h1, hs, hd⟩
        simp only [conflicting, hx, if_true, assignStaff_unqualified c procedure g hq, hsx,
          if_false]
        exact ih g hrest
    · have hrest : ∃ apt ∈ xs, apt.staffId = none ∧ strictEq apt.date date = true := by
        rcases List.mem_cons.mp hmem with h1 | h1
        · exact absurd (h1 ▸ hd) hx
        · exact ⟨apt, h1, hs, hd⟩
      simp only [conflicting, hx]
      exact ih g hrest

/-- C15, where the claim fails.  On a platform in the time zone of London, nobody is on the
staff, one grooming is stored at "2024-03-31" (midnight, local hour 0) and a second one is
requested for the same date.  The new date is the local hour 2 of that day, the night the
clocks go forward: it lies one hour after the stored date, not two. -/
theorem scheduleAppointment_clock_change_counterexample :
    timeValue londonDateLib (.str "2024-03-31") = some 1711843200000 ∧
      scheduleAppointment londonDateLib 2
          { animals := [⟨"anim_k3x", "Fluffy", "cat", 3, "John Doe", []⟩]
            appointments :=
              [⟨"apt_a1", "anim_k3x", .str "2024-03-31", "grooming", none, "scheduled"⟩]
            staff := [], inventory := [("cat", ⟨.fin 1, .fin 0, []⟩)], financialRecords := []
            heapNext := 0 }
          (fun _ => 0) "a2" "anim_k3x" (.str "2024-03-31") "grooming" =
        some
          ({ animals := [⟨"anim_k3x", "Fluffy", "cat", 3, "John Doe", []⟩]
             appointments :=
               [⟨"apt_a1", "anim_k3x", .str "2024-03-31", "grooming", none, "scheduled"⟩,
                ⟨"apt_a2", "anim_k3x", .obj 0 (some 1711846800000), "grooming", none,
                  "scheduled"⟩]
             staff := [], inventory := [("cat", ⟨.fin 1, .fin 0, []⟩)], financialRecords := []
             heapNext := 1 },
            fun _ => 0, some "apt_a2") ∧
      timeValue londonDateLib (.obj 0 (some 1711846800000)) = some (1711843200000 + 3600000) ∧
      timeValue londonDateLib (.obj 0 (some 1711846800000)) ≠
        some (1711843200000 + 7200000) :=
  ⟨by decide, rfl, by decide, by decide⟩

/-- C15, amended: when nobody is qualified for the procedure, a request for a registered animal
at a date `d` at which an appointment with `staffId = null` is already stored (its date is
identical to `d` for `===`) is not stored at `d`: it is stored, with `staffId = null`, at a new
`Date` object, the copy of `d` with the local hour set to `getHours() + 2`, and its id is
returned.  The new date lies exactly two hours after `d` when the platform's `setHours` moves
the time value by two hours, as it does while no clock change falls in between.  Without such
a stored appointment the request is still stored with `staffId = null`. -/
theorem scheduleAppointment_unqualified (lib : DateLib) (c : Clinic) (g : Rng)
    (rid animalId : String) (d : DateVal) (procedure : String) (k : Nat) (a : Animal)
    (hwf : datesAllocated c = true) (ha : findAnimalById c animalId = some a)
    (hq : qualifiedStaff c procedure = []) :
    ((∃ apt ∈ c.appointments, apt.staffId = none ∧ strictEq apt.date d = true) →
      scheduleAppointment lib (k + 2) c g rid animalId d procedure =
          some
            ({ c with
               appointments :=
                 c.appointments ++
                   [{ id := "apt_" ++ rid, animalId := animalId,
                      date :=
                        .obj c.heapNext
                          ((timeValue lib d).bind
                            (fun t => lib.setHours t (lib.getHours t + 2))),
                      procedure := procedure, staffId := none, status := "scheduled" }]
               heapNext := c.heapNext + 1 },
              g, some ("apt_" ++ rid)) ∧
        strictEq
          (.obj c.heapNext
            ((timeValue lib d).bind (fun t => lib.setHours t (lib.getHours t + 2)))) d =
          false ∧
        ∀ t, timeValue lib d = some t →
          lib.setHours t (lib.getHours t + 2) = some (t + 7200000) →
          timeValue lib
              (.obj c.heapNext
                ((timeValue lib d).bind (fun t => lib.setHours t (lib.getHours t + 2)))) =
            some (t + 7200000)) ∧
      ∃ res apt, scheduleAppointment lib (k + 2) c g rid animalId d procedure = some res ∧
        res.1.appointments = c.appointments ++ [apt] ∧ apt.staffId = none ∧
        res.2.2 = some apt.id := by
  have htwo := scheduleAppointment_two_calls lib c g rid animalId d procedure k a hwf ha
  constructor
  · intro hstored
    have hc := conflicting_unqualified c d procedure hq c.appointments g hstored
    rw [hc] at htwo
    simp only [assignStaff_unqualified c procedure g hq] at htwo
    refine ⟨htwo, ?_, ?_⟩
    · obtain ⟨apt, hmem, _, hd⟩ := hstored
      have hall : apt.date.allocatedBefore c.heapNext = true := by
        unfold datesAllocated at hwf
        exact List.all_eq_true.mp hwf apt hmem
      cases d with
      | str s => rfl
      | obj r t =>
        obtain ⟨t', hdate⟩ := strictEq_obj hd
        rw [hdate] at hall
        simp only [DateVal.allocatedBefore, decide_eq_true_eq] at hall
        simp only [strictEq, beq_eq_false_iff_ne, ne_eq]
        omega
    · intro t ht hset
      show (timeValue lib d).bind (fun t => lib.setHours t (lib.getHours t + 2)) = _
      rw [ht]
      exact hset
  · cases hc : conflicting c d procedure c.appointments g with
    | mk b g1 =>
      rw [hc] at htwo
      cases b with
      | true =>
        simp only [assignStaff_unqualified c procedure g1 hq] at htwo
        exact ⟨_, _, htwo, rfl, rfl, rfl⟩
      | false =>
        simp only [assignStaff_unqualified c procedure g1 hq] at htwo
        exact ⟨_, _, htwo, rfl, rfl, rfl⟩

/-- C15 at a concrete input: on a platform in the time zone UTC, nobody is on the staff, one
grooming is stored at "2024-01-01" and a second one is requested for the same date; it is
stored two hours later. -/
theorem scheduleAppointment_unqualified_witness :
    scheduleAppointment utcDateLib 2
        { animals := [⟨"anim_k3x", "Fluffy", "cat", 3, "John Doe", []⟩]
          appointments :=
            [⟨"apt_a1", "anim_k3x", .str "2024-01-01", "grooming", none, "scheduled"⟩]
          staff := [], inventory := [("cat", ⟨.fin 1, .fin 0, []⟩)], financialRecords := []
          heapNext := 0 }
        (fun _ => 0) "a2" "anim_k3x" (.str "2024-01-01") "grooming" =
      some
        ({ animals := [⟨"anim_k3x", "Fluffy", "cat", 3, "John Doe", []⟩]
           appointments :=
             [⟨"apt_a1", "anim_k3x", .str "2024-01-01", "grooming", none, "scheduled"⟩,
              ⟨"apt_a2", "anim_k3x",
                .obj 0
                  ((timeValue utcDateLib (.str "2024-01-01")).bind
                    (fun t => utcDateLib.setHours t (utcDateLib.getHours t + 2))),
                "grooming", none, "scheduled"⟩]
           staff := [], inventory := [("cat", ⟨.fin 1, .fin 0, []⟩)], financialRecords := []
           heapNext := 1 },
          fun _ => 0, some "apt_a2") ∧
      timeValue utcDateLib (.str "2024-01-01") = some 1704067200000 ∧
      (timeValue utcDateLib (.str "2024-01-01")).bind
          (fun t => utcDateLib.setHours t (utcDateLib.getHours t + 2)) =
        some (1704067200000 + 7200000) :=
  ⟨((scheduleAppointment_unqualified utcDateLib
      { animals := [⟨"anim_k3x", "Fluffy", "cat", 3, "John Doe", []⟩]
        appointments :=
          [⟨"apt_a1", "anim_k3x", .str "2024-01-01", "grooming", none, "scheduled"⟩]
        staff := [], inventory := [("cat", ⟨.fin 1, .fin 0, []⟩)], financialRecords := []
        heapNext := 0 }
      (fun _ => 0) "a2" "anim_k3x" (.str "2024-01-01") "grooming" 0
      ⟨"anim_k3x", "Fluffy", "cat", 3, "John Doe", []⟩ (by decide) (by decide) (by decide)).1
      ⟨⟨"apt_a1", "anim_k3x", .str "2024-01-01", "grooming", none, "scheduled"⟩,
        by decide, by decide, by decide⟩).1,
    by decide, by decide⟩


/-! ## The last procedure of an animal -/

theorem timeValue_of_valid {lib : DateLib} {a : Appointment} (h : hasValidDate lib a = true) :
    ∃ t, timeValue lib a.date = some t :=
  Option.isSome_iff_exists.mp h

/-- The fold of `getLastProcedure` over appointments with valid dates returns the first of the
appointments with the latest date. -/
theorem foldl_latest (lib : DateLib) (rest : List Appointment) :
    ∀ first : Appointment, (∀ a ∈ first :: rest, hasValidDate lib a = true) →
      ∃ pre r post, first :: rest = pre ++ r :: post ∧
        rest.foldl
          (fun latest current => if dateGt lib current.date latest.date then current else latest)
          first = r ∧
        (∀ a ∈ pre, dateGt lib r.date a.date = true) ∧
        (∀ a ∈ post, dateGe lib r.date a.date = true) := by
  induction rest using List.reverseRecOn with
  | nil =>
    intro first _
    exact ⟨[], first, [], rfl, rfl, by simp, by simp⟩
  | append_singleton rest x ih =>
    intro first hvalid
    have hvalid' : ∀ a ∈ first :: rest, hasValidDate lib a = true := by
      intro a ha
      apply hvalid
      rcases List.mem_cons.mp ha with h | h
      · rw [h]; exact List.mem_cons_self _ _
      · exact List.mem_cons_of_mem _ (List.mem_append_left _ h)
    obtain ⟨pre, r, post, hsplit, hfold, hpre, hpost⟩ := ih first hvalid'
    have hx : hasValidDate lib x = true :=
      hvalid x (List.mem_cons_of_mem _ (List.mem_append_right _ (List.mem_singleton_self x)))
    have hr : hasValidDate lib r = true := by
      apply hvalid'
      rw [hsplit]
      exact List.mem_append_right _ (List.mem_cons_self _ _)
    obtain ⟨tx, htx⟩ := timeValue_of_valid hx
    obtain ⟨tr, htr⟩ := timeValue_of_valid hr
    rw [List.foldl_append, hfold]
    simp only [List.foldl_cons, List.foldl_nil]
    by_cases hgt : dateGt lib x.date r.date = true
    · refine ⟨first :: rest, x, [], by simp, by simp [hgt], ?_, by simp⟩
      have hxr : tr < tx := by simpa [dateGt, htx, htr] using hgt
      intro a ha
      have hav : hasValidDate lib a = true := hvalid' a ha
      obtain ⟨ta, hta⟩ := timeValue_of_valid hav
      rw [hsplit] at ha
      rcases List.mem_append.mp ha with h | h
      · have := hpre a h
        simp only [dateGt, htr, hta, decide_eq_true_eq] at this
        simp only [dateGt, htx, hta, decide_eq_true_eq]
        omega
      · rcases List.mem_cons.mp h with h | h
        · rw [h]
          exact hgt
        · have := hpost a h
          simp only [dateGe, htr, hta, decide_eq_true_eq] at this
          simp only [dateGt, htx, hta, decide_eq_true_eq]
          omega
    · refine ⟨pre, r, post ++ [x], by rw [← List.cons_append, hsplit]; simp, by simp [hgt],
        hpre, ?_⟩
      intro a ha
      rcases List.mem_append.mp ha with h | h
      · exact hpost a h
      · simp only [List.mem_singleton] at h
        subst h
        have : ¬ tr < tx := by simpa [dateGt, htx, htr] using hgt
        simp only [dateGe, htr, htx, decide_eq_true_eq]
        omega

/-- C14, counterexample: the animal has two appointments, the first with the date "tomorrow",
which is not a date, the second with the date "2024-01-01".  `getLastProcedure` returns the
first, whose date is not greater than or equal to the date of the second. -/
theorem getLastProcedure_invalid_date_counterexample :
    (runOps utcDateLib Clinic.empty
        [.registerAnimal "k3x" "Fluffy" "cat" 3 "John Doe",
         .scheduleAppointment 1 (fun _ => 0) "a1" "anim_k3x" (.str "tomorrow") "checkup",
         .scheduleAppointment 1 (fun _ => 0) "a2" "anim_k3x" (.str "2024-01-01")
           "checkup"]).map (fun c => (c.appointments, getLastProcedure utcDateLib c "anim_k3x")) =
      some
        ([⟨"apt_a1", "anim_k3x", .str "tomorrow", "checkup", none, "scheduled"⟩,
          ⟨"apt_a2", "anim_k3x", .str "2024-01-01", "checkup", none, "scheduled"⟩],
         some ⟨"apt_a1", "anim_k3x", .str "tomorrow", "checkup", none, "scheduled"⟩) ∧
      dateGe utcDateLib (.str "tomorrow") (.str "2024-01-01") = false := by
  constructor <;> decide

/-- C14, amended: when every stored appointment of the animal has a valid date,
`getLastProcedure` returns `null` if no stored appointment references the animal, and otherwise
one of the animal's appointments whose date is greater than or equal to the date of each of its
other appointments, namely the one stored earliest among those with that latest date (every
appointment of the animal stored before it has a strictly earlier date). -/
theorem getLastProcedure_latest (lib : DateLib) (c : Clinic) (id : String)
    (hvalid : ∀ a ∈ appointmentsOf c id, hasValidDate lib a = true) :
    (appointmentsOf c id = [] → getLastProcedure lib c id = none) ∧
      (appointmentsOf c id ≠ [] →
        ∃ pre r post, appointmentsOf c id = pre ++ r :: post ∧
          getLastProcedure lib c id = some r ∧ r ∈ c.appointments ∧ r.animalId = id ∧
          (∀ a ∈ pre, dateGt lib r.date a.date = true) ∧
          (∀ a ∈ post, dateGe lib r.date a.date = true)) := by
  constructor
  · intro h
    unfold appointmentsOf at h
    simp [getLastProcedure, h]
  · intro hne
    cases hl : appointmentsOf c id with
    | nil => exact absurd hl hne
    | cons first rest =>
      rw [hl] at hvalid
      obtain ⟨pre, r, post, hsplit, hfold, hpre, hpost⟩ := foldl_latest lib rest first hvalid
      have hmem : r ∈ appointmentsOf c id := by
        rw [hl, hsplit]
        exact List.mem_append_right _ (List.mem_cons_self _ _)
      unfold appointmentsOf at hmem hl
      obtain ⟨h1, h2⟩ := List.mem_filter.mp hmem
      refine ⟨pre, r, post, hsplit, ?_, h1, by simpa using h2, hpre, hpost⟩
      simp only [getLastProcedure, hl, hfold]

/-- C14, amended, at a concrete input: three appointments of one animal, the two latest on the
same day; the earlier stored of these two is returned. -/
theorem getLastProcedure_latest_witness :
    ((appointmentsOf threeAppointments "anim_k3x" = [] →
        getLastProcedure utcDateLib threeAppointments "anim_k3x" = none) ∧
      (appointmentsOf threeAppointments "anim_k3x" ≠ [] →
        ∃ pre r post, appointmentsOf threeAppointments "anim_k3x" = pre ++ r :: post ∧
          getLastProcedure utcDateLib threeAppointments "anim_k3x" = some r ∧
          r ∈ threeAppointments.appointments ∧ r.animalId = "anim_k3x" ∧
          (∀ a ∈ pre, dateGt utcDateLib r.date a.date = true) ∧
          (∀ a ∈ post, dateGe utcDateLib r.date a.date = true))) ∧
      getLastProcedure utcDateLib threeAppointments "anim_k3x" =
        some ⟨"apt_a2", "anim_k3x", .str "2024-03-01", "vaccine", none, "scheduled"⟩ :=
  ⟨getLastProcedure_latest utcDateLib threeAppointments "anim_k3x" (by decide), by decide⟩

/-! ## Emergency admission -/

theorem modifyFirst_append_of_not_found {α : Type} (p : α → Bool) (f : α → α) :
    ∀ (l l' : List α), (∀ y ∈ l, p y = false) →
      modifyFirst p f (l ++ l') = l ++ modifyFirst p f l' := by
  intro l
  induction l with
  | nil => intro l' _; rfl
  | cons x xs ih =>
    intro l' h
    have hx : p x = false := h x (List.mem_cons_self _ _)
    have hrec := ih l' (fun y hy => h y (List.mem_cons_of_mem _ hy))
    show modifyFirst p f (x :: (xs ++ l')) = x :: (xs ++ modifyFirst p f l')
    simp only [modifyFirst, hx, Bool.false_eq_true, if_false, hrec]

/-- With an inventory entry for the species of the diagnosis and a condition that is not an
inherited name, `admitAnimal` on a known animal returns `true`. -/
theorem admitAnimal_returns_true (c : Clinic) (now : Int) (id : String) (d : Diagnosis)
    (a : Animal) (e : InventoryEntry) (ha : findAnimalById c id = some a)
    (he : c.inventory.getProp d.species = some e) (hc : d.condition ∉ inheritedNames) :
    (admitAnimal c now id d).2 = .normal true := by
  have hmeds : ∃ meds, determineMedication d = some meds := by
    rw [determineMedication_eq]
    split_ifs <;> exact ⟨_, rfl⟩
  obtain ⟨meds, hmeds⟩ := hmeds
  obtain ⟨hnd, hord⟩ := determineMedication_some hmeds
  obtain ⟨inv', e', hrun, _⟩ := forEachMedication_spec d.species meds hnd hord c.inventory e he
  simp [admitAnimal, ha, updateInventoryForTreatment, hmeds, hrun]

theorem snd_emergencyAdmit (c : Clinic) (rid : String) (now : Int)
    (name species condition : String)
    (h : (admitAnimal (registerAnimal c rid name species 0 "Emergency Contact").1 now
        ("anim_" ++ rid)
        { condition := condition, species := species, emergency := some true }).2 =
      .normal true) :
    (emergencyAdmit c rid now name species condition).2 = .normal ("anim_" ++ rid) := by
  unfold emergencyAdmit
  have hid : (registerAnimal c rid name species 0 "Emergency Contact").2 = "anim_" ++ rid := rfl
  simp only [hid]
  split
  · rfl
  · rename_i c2 heq
    rw [heq] at h
    simp at h

/-- C11, where the claim fails.  A cat is registered under the id `anim_k3x`; an emergency
admission then draws the same id: the id returned is `anim_k3x`, but the animal newly appended
has an empty history, the case went to the cat, and `getAnimalStatus` on the id reports the
cat.  And on an empty clinic, with the condition `constructor`, or with the species
`constructor` and the condition "fever", the call ends by a `TypeError` and returns no id. -/
theorem emergencyAdmit_id_in_use_counterexample :
    (emergencyAdmit (registerAnimal Clinic.empty "k3x" "Fluffy" "cat" 3 "John Doe").1 "k3x" 5
        "Rex" "dog" "injury").2 = .normal "anim_k3x" ∧
      (emergencyAdmit (registerAnimal Clinic.empty "k3x" "Fluffy" "cat" 3 "John Doe").1 "k3x" 5
        "Rex" "dog" "injury").1.animals.map
          (fun a => (a.id, a.name, a.medicalHistory.length)) =
        [("anim_k3x", "Fluffy", 1), ("anim_k3x", "Rex", 0)] ∧
      getAnimalStatus utcDateLib
        (emergencyAdmit (registerAnimal Clinic.empty "k3x" "Fluffy" "cat" 3 "John Doe").1
          "k3x" 5 "Rex" "dog" "injury").1 "anim_k3x" =
        some ⟨"Fluffy", "hospitalized", none⟩ ∧
      (emergencyAdmit Clinic.empty "k3x" 5 "Rex" "dog" "constructor").2 = .throwTypeError ∧
      (emergencyAdmit Clinic.empty "k3x" 5 "Rex" "constructor" "fever").2 =
        .throwTypeError := by
  decide

/-- C11, amended: when no registered animal has the id that is drawn and neither the species
nor the condition is an inherited name, `emergencyAdmit` returns that id and appends one animal
with this id, the given name and species, age 0, owner "Emergency Contact" and a history of
exactly one case, which has `discharged = false` and the given condition and species in its
diagnosis; `getAnimalStatus` on the returned id then reports this animal with the status
"hospitalized". -/
theorem emergencyAdmit_new_animal (lib : DateLib) (c : Clinic) (rid : String) (now : Int)
    (name species condition : String)
    (hfresh : ∀ a ∈ c.animals, a.id ≠ "anim_" ++ rid)
    (hs : species ∉ inheritedNames) (hc : condition ∉ inheritedNames) :
    (emergencyAdmit c rid now name species condition).2 = .normal ("anim_" ++ rid) ∧
      (∃ cr : CaseRecord, cr.discharged = false ∧
        cr.diagnosis.condition = condition ∧ cr.diagnosis.species = species ∧
        (emergencyAdmit c rid now name species condition).1.animals =
          c.animals ++
            [{ id := "anim_" ++ rid, name := name, species := species, age := 0,
               owner := "Emergency Contact", medicalHistory := [cr] }]) ∧
      (getAnimalStatus lib (emergencyAdmit c rid now name species condition).1
          ("anim_" ++ rid)).map (fun v => (v.name, v.status)) =
        some (name, "hospitalized") := by
  have hnone : ∀ y ∈ c.animals, (fun x : Animal => x.id == "anim_" ++ rid) y = false := by
    intro y hy
    simpa using hfresh y hy
  have hanim := animals_registerAnimal c rid name species 0 "Emergency Contact"
  have hfind : findAnimalById (registerAnimal c rid name species 0 "Emergency Contact").1
      ("anim_" ++ rid) = some (freshAnimal species (rid, name, 0, "Emergency Contact")) := by
    unfold findAnimalById
    rw [hanim, List.find?_append, List.find?_eq_none.mpr (by simpa using hfresh)]
    simp [freshAnimal]
  have hentry := inventory_updateSpeciesStats
    { c with animals := c.animals ++ [freshAnimal species (rid, name, 0, "Emergency Contact")] }
    species hs
  have hret := admitAnimal_returns_true
    (registerAnimal c rid name species 0 "Emergency Contact").1 now ("anim_" ++ rid)
    { condition := condition, species := species, emergency := some true } _ _ hfind hentry hc
  have hanimals : (emergencyAdmit c rid now name species condition).1.animals =
      c.animals ++
        [{ id := "anim_" ++ rid, name := name, species := species, age := 0,
           owner := "Emergency Contact",
           medicalHistory :=
             [newCase
               (.obj (registerAnimal c rid name species 0 "Emergency Contact").1.heapNext
                 (some now))
               { condition := condition, species := species, emergency := some true }] }] := by
    rw [fst_emergencyAdmit, animals_admitAnimal, hfind]
    simp only []
    rw [hanim, modifyFirst_append_of_not_found _ _ _ _ hnone]
    simp [modifyFirst, freshAnimal]
  refine ⟨snd_emergencyAdmit c rid now name species condition hret,
    ⟨_, rfl, rfl, rfl, hanimals⟩, ?_⟩
  have hfind2 : findAnimalById (emergencyAdmit c rid now name species condition).1
      ("anim_" ++ rid) =
      some
        { id := "anim_" ++ rid, name := name, species := species, age := 0,
          owner := "Emergency Contact",
          medicalHistory :=
            [newCase
              (.obj (registerAnimal c rid name species 0 "Emergency Contact").1.heapNext
                (some now))
              { condition := condition, species := species, emergency := some true }] } := by
    unfold findAnimalById
    rw [hanimals, List.find?_append, List.find?_eq_none.mpr (by simpa using hfresh)]
    simp
  simp [getAnimalStatus, hfind2, newCase]

/-- C11, amended, at a concrete input: the emergency admission of the specification's example,
on a clinic where a cat is registered under another id. -/
theorem emergencyAdmit_new_animal_witness :
    (emergencyAdmit (registerAnimal Clinic.empty "k3x" "Fluffy" "cat" 3 "John Doe").1 "p7q" 5
        "Rex" "dog" "injury").2 = .normal "anim_p7q" ∧
      (emergencyAdmit (registerAnimal Clinic.empty "k3x" "Fluffy" "cat" 3 "John Doe").1 "p7q" 5
        "Rex" "dog" "injury").1.animals.map
          (fun a => (a.id, a.name, a.species, a.age, a.owner,
            a.medicalHistory.map (fun cr => cr.discharged))) =
        [("anim_k3x", "Fluffy", "cat", 3, "John Doe", []),
         ("anim_p7q", "Rex", "dog", 0, "Emergency Contact", [false])] :=
  ⟨(emergencyAdmit_new_animal utcDateLib
      (registerAnimal Clinic.empty "k3x" "Fluffy" "cat" 3 "John Doe").1 "p7q" 5 "Rex" "dog"
      "injury" (by decide) (by decide) (by decide)).1,
    rfl⟩


/-! ## The heap invariant is kept by every operation -/

theorem allocatedBefore_mono {d : DateVal} {h h' : Nat} (hle : h ≤ h')
    (hd : d.allocatedBefore h = true) : d.allocatedBefore h' = true := by
  cases d with
  | str s => rfl
  | obj r t =>
    simp only [DateVal.allocatedBefore, decide_eq_true_eq] at hd ⊢
    omega

theorem datesAllocated_of_frame {c c' : Clinic} (happ : c'.appointments = c.appointments)
    (hle : c.heapNext ≤ c'.heapNext) (h : datesAllocated c = true) :
    datesAllocated c' = true := by
  unfold datesAllocated at h ⊢
  rw [happ, List.all_eq_true]
  intro a ha
  exact allocatedBefore_mono hle (List.all_eq_true.mp h a ha)

theorem datesAllocated_scheduleAppointment (lib : DateLib) (fuel : Nat) :
    ∀ (c : Clinic) (g : Rng) (rid animalId : String) (date : DateVal) (procedure : String)
      (r : Clinic × Rng × Option String),
      datesAllocated c = true → date.allocatedBefore c.heapNext = true →
      scheduleAppointment lib fuel c g rid animalId date procedure = some r →
        datesAllocated r.1 = true := by
  induction fuel with
  | zero =>
    intro c g rid animalId date procedure r _ _ h
    simp [scheduleAppointment] at h
  | succ fuel ih =>
    intro c g rid animalId date procedure r hwf hd h
    unfold scheduleAppointment at h
    cases ha : findAnimalById c animalId with
    | none =>
      simp only [ha, Option.some.injEq] at h
      subst h
      exact hwf
    | some a =>
      simp only [ha] at h
      cases hc : conflicting c date procedure c.appointments g with
      | mk b g1 =>
        cases b with
        | true =>
          simp only [hc] at h
          have hwf1 : datesAllocated { c with heapNext := c.heapNext + 1 } = true :=
            @datesAllocated_of_frame c { c with heapNext := c.heapNext + 1 } rfl
              (Nat.le_succ _) hwf
          refine ih { c with heapNext := c.heapNext + 1 } _ _ _ _ _ _ hwf1 ?_ h
          simp [rescheduledDate, DateVal.allocatedBefore]
        | false =>
          simp only [hc, Option.some.injEq] at h
          subst h
          unfold datesAllocated at hwf ⊢
          simp only [List.all_append, List.all_cons, List.all_nil, Bool.and_true,
            Bool.and_eq_true]
          exact ⟨hwf, hd⟩

theorem frame_admitAnimal (c : Clinic) (now : Int) (id : String) (d : Diagnosis) :
    (admitAnimal c now id d).1.appointments = c.appointments ∧
      c.heapNext ≤ (admitAnimal c now id d).1.heapNext := by
  unfold admitAnimal
  cases h : findAnimalById c id with
  | none => exact ⟨rfl, le_refl _⟩
  | some a =>
    simp only []
    split <;> rename_i heq <;>
      · have h1 := congrArg (fun r => r.1.appointments) heq
        have h2 := congrArg (fun r => r.1.heapNext) heq
        simp only [(frame_updateInventoryForTreatment _ _).2.1] at h1
        simp only [(frame_updateInventoryForTreatment _ _).2.2.2.2] at h2
        exact ⟨h1.symm, by rw [← h2]; exact Nat.le_succ _⟩

theorem frame_dischargeAnimal (c : Clinic) (now : Int) (id finalDiagnosis : String) :
    (dischargeAnimal c now id finalDiagnosis).1.appointments = c.appointments ∧
      c.heapNext ≤ (dischargeAnimal c now id finalDiagnosis).1.heapNext := by
  unfold dischargeAnimal
  cases h : findAnimalById c id with
  | none => exact ⟨rfl, le_refl _⟩
  | some a =>
    simp only []
    cases hf : a.medicalHistory.find? (fun cr => !cr.discharged) with
    | none => exact ⟨rfl, le_refl _⟩
    | some activeCase => exact ⟨rfl, Nat.le_succ _⟩

theorem datesAllocated_apply (lib : DateLib) (c c' : Clinic) (op : Op)
    (hwf : datesAllocated c = true) (hd : op.dateAllocated c = true)
    (hrun : op.apply lib c = some c') : datesAllocated c' = true := by
  cases op with
  | registerAnimal rid name species age owner =>
    simp only [Op.apply, Option.some.injEq] at hrun
    subst hrun
    have hfr := frame_updateSpeciesStats
      { c with animals := c.animals ++ [freshAnimal species (rid, name, age, owner)] } species
    exact datesAllocated_of_frame hfr.2.1 (le_of_eq hfr.2.2.2.2.symm) hwf
  | admitAnimal now id diagnosis =>
    simp only [Op.apply, Option.some.injEq] at hrun
    subst hrun
    have hfr := frame_admitAnimal c now id diagnosis
    exact datesAllocated_of_frame hfr.1 hfr.2 hwf
  | dischargeAnimal now id finalDiagnosis =>
    simp only [Op.apply, Option.some.injEq] at hrun
    subst hrun
    have hfr := frame_dischargeAnimal c now id finalDiagnosis
    exact datesAllocated_of_frame hfr.1 hfr.2 hwf
  | emergencyAdmit rid now name species condition =>
    simp only [Op.apply, Option.some.injEq] at hrun
    subst hrun
    rw [fst_emergencyAdmit]
    have hfr := frame_updateSpeciesStats
      { c with animals := c.animals ++ [freshAnimal species (rid, name, 0, "Emergency Contact")] }
      species
    have h1 : datesAllocated (registerAnimal c rid name species 0 "Emergency Contact").1 =
        true := datesAllocated_of_frame hfr.2.1 (le_of_eq hfr.2.2.2.2.symm) hwf
    have hfr2 := frame_admitAnimal (registerAnimal c rid name species 0 "Emergency Contact").1
      now ("anim_" ++ rid)
      { condition := condition, species := species, emergency := some true }
    exact datesAllocated_of_frame hfr2.1 hfr2.2 h1
  | scheduleAppointment fuel g rid animalId date procedure =>
    simp only [Op.apply, Option.map_eq_some'] at hrun
    obtain ⟨r, hr, hc⟩ := hrun
    subst hc
    exact datesAllocated_scheduleAppointment lib fuel c g rid animalId date procedure r hwf
      (by simpa [Op.dateAllocated] using hd) hr
  | addStaffMember rid name position qualifications =>
    simp only [Op.apply, Option.some.injEq] at hrun
    subst hrun
    exact datesAllocated_of_frame rfl (le_refl _) hwf
  | restockInventory species item quantity =>
    simp only [Op.apply, Option.some.injEq] at hrun
    subst hrun
    have hfr := frame_restockInventory c species item quantity
    exact datesAllocated_of_frame hfr.2.1 (le_of_eq hfr.2.2.2.2.symm) hwf

/-- Every state reached from the empty clinic has a well-formed heap, whenever the dates passed
to `scheduleAppointment` are strings or `Date` objects that exist at the call. -/
theorem datesAllocated_runOps (lib : DateLib) (ops : List Op) :
    ∀ c c' : Clinic, datesAllocated c = true → datesPassedAllocated lib c ops = true →
      runOps lib c ops = some c' → datesAllocated c' = true := by
  induction ops with
  | nil =>
    intro c c' hwf _ hrun
    simp only [runOps, Option.some.injEq] at hrun
    subst hrun
    exact hwf
  | cons op ops ih =>
    intro c c' hwf hd hrun
    simp only [datesPassedAllocated, Bool.and_eq_true] at hd
    cases hop : op.apply lib c with
    | none => simp [runOps, hop] at hrun
    | some c1 =>
      simp only [runOps, hop] at hrun
      have hd2 := hd.2
      simp only [hop] at hd2
      exact ih c1 c' (datesAllocated_apply lib c c1 op hwf hd.1 hop) hd2 hrun

end AnimalClinic
